import Mathlib

set_option maxRecDepth 100000

/-!
Verification of the finn-hlslib ORAM components against their specification.

The development shallowly embeds the C++ sources:
* util.h          : integer_log2, ceil_int_log2, xorshift64
* fpga_sparse_set.h : SparseSet
* fpga_resource_pool.h : ResourcePool (the ORAM stash)
* oram_atu.h      : WeightAddressTranslator
* fpga_binary_tree.h / fpga_binary_heap.h : bounded ordered maps
* fpga_path_oram2.h : FPGAPathORAM2 (the Path-ORAM engine)

Machine integers are modelled as Nat with explicit reductions mod 2^w at
the points where the C++ types truncate.  Fixed-size arrays are modelled
as total functions Nat -> value; an out-of-bounds write in the C++ code is
visible in the model as a change of the function at an index beyond the
array size.  Loops that are not structurally recursive in the source are
given explicit fuel that provably dominates their iteration count.
-/

namespace HlsLib

/-- Pointwise update of a function modelling an array write. -/
def updf {α : Type} (f : Nat → α) (i : Nat) (v : α) : Nat → α :=
  fun j => if j = i then v else f j

theorem updf_same {α : Type} (f : Nat → α) (i : Nat) (v : α) : updf f i v i = v := by
  simp [updf]

theorem updf_other {α : Type} (f : Nat → α) (i j : Nat) (v : α) (h : j ≠ i) :
    updf f i v j = f j := by
  simp [updf, h]

/-- Fuel-based form of util.h integer_log2 (the source recursion on n >> 1 is
not structural on Nat; fuel n dominates the number of halvings). -/
def integer_log2_fuel : Nat → Nat → Nat
  | 0, _ => 0
  | fuel + 1, n => if n / 2 = 0 then 0 else integer_log2_fuel fuel (n / 2) + 1

/-- util.h integer_log2: count shifts until n >> 1 is zero. -/
def integer_log2 (n : Nat) : Nat := integer_log2_fuel n n

theorem integer_log2_fuel_eq_log2 (fuel n : Nat) (h : n ≤ fuel) :
    integer_log2_fuel fuel n = Nat.log2 n := by
  induction fuel generalizing n with
  | zero =>
    interval_cases n
    simp [integer_log2_fuel, Nat.log2]
  | succ fuel ih =>
    rw [integer_log2_fuel]
    by_cases h2 : n / 2 = 0
    · rw [if_pos h2, Nat.log2]
      have : ¬ n ≥ 2 := by omega
      simp [this]
    · rw [if_neg h2, ih (n / 2) (by omega)]
      have h3 : n ≥ 2 := by omega
      conv_rhs => rw [Nat.log2]
      simp [h3]

theorem integer_log2_eq_log2 (n : Nat) : integer_log2 n = Nat.log2 n :=
  integer_log2_fuel_eq_log2 n n (Nat.le_refl n)

/-- util.h ceil_int_log2: add 1 when n is not a power of two. -/
def ceil_int_log2 (n : Nat) : Nat :=
  if n &&& (n - 1) = 0 then integer_log2 n else integer_log2 n + 1

/-- util.h (oram_atu.h) ceil_int_div. -/
def ceil_int_div (num denom : Nat) : Nat :=
  num / denom + (if num % denom ≠ 0 then 1 else 0)

/-- util.h xorshift64::generate, all intermediates reduced as uint64. -/
def xorshift64_generate (s : Nat) : Nat :=
  let x1 := (s ^^^ ((s <<< 13) % 2 ^ 64)) % 2 ^ 64
  let x2 := (x1 ^^^ (x1 >>> 7)) % 2 ^ 64
  (x2 ^^^ ((x2 <<< 17) % 2 ^ 64)) % 2 ^ 64

theorem testBit_true_of_log2 (n : Nat) (h : n ≠ 0) : n.testBit (Nat.log2 n) = true := by
  have h1 : 2 ^ Nat.log2 n ≤ n := Nat.log2_self_le h
  have h2 : n < 2 ^ (Nat.log2 n + 1) := Nat.lt_log2_self
  have hdiv : n / 2 ^ Nat.log2 n = 1 := by
    have hl : 1 ≤ n / 2 ^ Nat.log2 n := (Nat.one_le_div_iff (Nat.pos_pow_of_pos _ (by omega))).2 h1
    have hu : n / 2 ^ Nat.log2 n < 2 := by
      apply Nat.div_lt_of_lt_mul
      calc n < 2 ^ (Nat.log2 n + 1) := h2
        _ = 2 ^ Nat.log2 n * 2 := by ring
    omega
  simp [Nat.testBit, Nat.shiftRight_eq_div_pow, hdiv]

theorem land_zero_shared_bit (a b : Nat) (h : a &&& b = 0) (i : Nat) :
    ¬(a.testBit i = true ∧ b.testBit i = true) := by
  rintro ⟨ha, hb⟩
  have := Nat.testBit_land a b i
  rw [h, ha, hb] at this
  simp at this

/-- A number whose land with its predecessor is zero is at most a power of two
with exponent log2. -/
theorem pow2_of_land_pred_zero (n : Nat) (h : n &&& (n - 1) = 0) :
    n ≤ 2 ^ Nat.log2 n := by
  induction n using Nat.strong_induction_on with
  | _ n ih =>
    match n, h with
    | 0, _ => simp
    | 1, _ => simp [Nat.log2]
    | (m + 2), h =>
      set n := m + 2 with hn
      by_cases hpar : n % 2 = 1
      · -- odd n >= 3: bit 0 and bit log2 n >= 1 are both set in n and
        -- bit log2 n is still set in n - 1, contradicting the land hypothesis
        exfalso
        have hk : Nat.log2 n ≥ 1 := by
          have : n ≥ 2 := by omega
          rw [Nat.log2]
          simp [this]
        have hbit : n.testBit (Nat.log2 n) = true := testBit_true_of_log2 n (by omega)
        have hbitp : (n - 1).testBit (Nat.log2 n) = true := by
          -- for odd n and i >= 1, (n-1)/2^i = n/2^i
          obtain ⟨j, hj⟩ : ∃ j, Nat.log2 n = j + 1 := ⟨Nat.log2 n - 1, by omega⟩
          have hq : (n - 1) / 2 = n / 2 := by omega
          rw [Nat.testBit, Nat.shiftRight_eq_div_pow] at hbit ⊢
          rw [hj] at hbit ⊢
          rw [Nat.pow_succ, Nat.mul_comm, ← Nat.div_div_eq_div_mul] at hbit ⊢
          rw [hq]
          exact hbit
        exact land_zero_shared_bit n (n - 1) h (Nat.log2 n) ⟨hbit, hbitp⟩
      · -- even n: transfer to n / 2
        have hq2 : n = 2 * (n / 2) := by omega
        have hland : (n / 2) &&& (n / 2 - 1) = 0 := by
          -- every shared bit of n/2 and n/2 - 1 lifts to a shared bit of n and n - 1
          by_contra hne
          obtain ⟨i, hi⟩ : ∃ i, ((n / 2) &&& (n / 2 - 1)).testBit i = true := by
            rcases Nat.exists_most_significant_bit hne with ⟨i, hi, _⟩
            exact ⟨i, hi⟩
          rw [Nat.testBit_land] at hi
          have hib : (n / 2).testBit i = true ∧ (n / 2 - 1).testBit i = true := by
            simpa using hi
          have h1 : n.testBit (i + 1) = true := by
            rw [Nat.testBit_add_one]
            exact hib.1
          have h2 : (n - 1).testBit (i + 1) = true := by
            rw [Nat.testBit_add_one]
            have : (n - 1) / 2 = n / 2 - 1 := by omega
            rw [this]
            exact hib.2
          exact land_zero_shared_bit n (n - 1) h (i + 1) ⟨h1, h2⟩
        have hrec := ih (n / 2) (by omega) hland
        have hlog : Nat.log2 n = Nat.log2 (n / 2) + 1 := by
          rw [Nat.log2]
          have : n ≥ 2 := by omega
          simp [this]
        rw [hlog, Nat.pow_succ]
        omega

/-- Capacity bound used throughout: a value below DenseSize survives storage in
an ap_uint of width ceil_int_log2 DenseSize. -/
theorem le_pow_ceil_int_log2 (n : Nat) : n ≤ 2 ^ ceil_int_log2 n := by
  rw [ceil_int_log2, integer_log2_eq_log2]
  by_cases h : n &&& (n - 1) = 0
  · rw [if_pos h]
    exact pow2_of_land_pred_zero n h
  · rw [if_neg h]
    by_cases hz : n = 0
    · simp [hz]
    · exact Nat.le_of_lt Nat.lt_log2_self

theorem ceil_int_log2_pow2 (w : Nat) : ceil_int_log2 (2 ^ w) = w := by
  rw [ceil_int_log2, integer_log2_eq_log2]
  have hland : (2 ^ w) &&& (2 ^ w - 1) = 0 := by
    apply Nat.eq_of_testBit_eq
    intro i
    rw [Nat.testBit_land]
    simp only [Nat.zero_testBit]
    rcases Nat.lt_trichotomy i w with h | h | h
    · have : (2 ^ w).testBit i = false := by
        rw [Nat.testBit_two_pow]
        simp [Nat.ne_of_gt h]
      simp [this]
    · have : (2 ^ w - 1).testBit i = false := by
        rw [Nat.testBit_two_pow_sub_one]
        simp [h]
      simp [this]
    · have : (2 ^ w).testBit i = false := by
        rw [Nat.testBit_two_pow]
        simp [Nat.ne_of_lt h]
      simp [this]
  rw [if_pos hland]
  rw [Nat.log2_two_pow]

/-!
fpga_sparse_set.h : SparseSet<T, SparseSize, DenseSize>.
The dense and sparse ap_arrays are modelled as total functions; indices
at or beyond the array size model memory past the end of the array.
The sparse array stores dense_index = ap_uint<ceil_int_log2 DenseSize>
values, so stores into it are reduced mod 2 ^ ceil_int_log2 DenseSize.
-/

structure SparseSet where
  dense_size : Nat
  dense : Nat → Nat
  sparse : Nat → Nat

/-- SparseSet::contains. -/
def SparseSet.contains (SparseSize : Nat) (s : SparseSet) (val : Nat) : Bool :=
  decide (val < SparseSize) && decide (s.sparse val < s.dense_size) &&
    decide (s.dense (s.sparse val) = val)

/-- SparseSet::insert.  Note the source checks val against the sparse size and
membership but never checks dense_size against DenseSize. -/
def SparseSet.insert (SparseSize DenseSize : Nat) (s : SparseSet) (val : Nat) : SparseSet :=
  if val ≥ SparseSize then s
  else if s.contains SparseSize val then s
  else
    { dense_size := s.dense_size + 1,
      dense := updf s.dense s.dense_size val,
      sparse := updf s.sparse val (s.dense_size % 2 ^ ceil_int_log2 DenseSize) }

/-- SparseSet::erase (swap with last dense entry).  The source reads
dense[dense_size-1] on line 298 after the write on line 297; at that point the
value at dense_size-1 is still the original last value, which is what the
model uses. -/
def SparseSet.erase (SparseSize : Nat) (s : SparseSet) (val : Nat) : SparseSet :=
  if s.contains SparseSize val then
    { dense_size := s.dense_size - 1,
      dense := updf s.dense (s.sparse val) (s.dense (s.dense_size - 1)),
      sparse := updf s.sparse (s.dense (s.dense_size - 1)) (s.sparse val) }
  else s

/-- SparseSet::size returns sparse_index(dense_size), i.e. dense_size reduced
to the width ceil_int_log2 SparseSize. -/
def SparseSet.size (SparseSize : Nat) (s : SparseSet) : Nat :=
  s.dense_size % 2 ^ ceil_int_log2 SparseSize

/-- SparseSet::capacity returns sparse_index(DenseSize). -/
def SparseSet.capacity (SparseSize DenseSize : Nat) : Nat :=
  DenseSize % 2 ^ ceil_int_log2 SparseSize

/-- Well-formedness of a sparse set state: occupancy within the dense capacity
and every dense entry linked back by the sparse array. -/
def SparseSet.WF (SparseSize DenseSize : Nat) (s : SparseSet) : Prop :=
  s.dense_size ≤ DenseSize ∧
  ∀ i, i < s.dense_size → s.dense i < SparseSize ∧ s.sparse (s.dense i) = i

instance (SparseSize DenseSize : Nat) (s : SparseSet) :
    Decidable (s.WF SparseSize DenseSize) :=
  decidable_of_iff
    (s.dense_size ≤ DenseSize ∧
      ∀ i, i < s.dense_size → s.dense i < SparseSize ∧ s.sparse (s.dense i) = i)
    Iff.rfl

theorem SparseSet.contains_eq_true_iff (SparseSize : Nat) (s : SparseSet) (k : Nat) :
    s.contains SparseSize k = true ↔
      k < SparseSize ∧ s.sparse k < s.dense_size ∧ s.dense (s.sparse k) = k := by
  simp [SparseSet.contains, and_assoc]

theorem SparseSet.contains_of_mem (SparseSize DenseSize : Nat) (s : SparseSet)
    (hwf : s.WF SparseSize DenseSize) (i : Nat) (hi : i < s.dense_size) :
    s.contains SparseSize (s.dense i) = true := by
  rcases hwf.2 i hi with ⟨h1, h2⟩
  rw [SparseSet.contains_eq_true_iff]
  exact ⟨h1, by rw [h2]; exact hi, by rw [h2]⟩

theorem SparseSet.insert_contains (SparseSize DenseSize : Nat) (s : SparseSet)
    (k : Nat) (hk : k < SparseSize)
    (hroom : s.dense_size < DenseSize ∨ s.contains SparseSize k = true) :
    (s.insert SparseSize DenseSize k).contains SparseSize k = true := by
  rw [SparseSet.insert]
  rw [if_neg (by omega)]
  by_cases hc : s.contains SparseSize k = true
  · rw [if_pos hc]; exact hc
  · rw [if_neg hc]
    have hroom2 : s.dense_size < DenseSize := by tauto
    have hmod : s.dense_size % 2 ^ ceil_int_log2 DenseSize = s.dense_size :=
      Nat.mod_eq_of_lt (Nat.lt_of_lt_of_le hroom2 (le_pow_ceil_int_log2 DenseSize))
    rw [SparseSet.contains_eq_true_iff]
    refine ⟨hk, ?_, ?_⟩
    · simp [updf_same, hmod]
    · simp [updf_same, hmod]

theorem SparseSet.insert_insert_size (SparseSize DenseSize : Nat) (s : SparseSet)
    (k : Nat) (hk : k < SparseSize)
    (hroom : s.dense_size < DenseSize ∨ s.contains SparseSize k = true) :
    ((s.insert SparseSize DenseSize k).insert SparseSize DenseSize k).dense_size
      = (s.insert SparseSize DenseSize k).dense_size := by
  have hc := SparseSet.insert_contains SparseSize DenseSize s k hk hroom
  conv_lhs => rw [SparseSet.insert, if_neg (by omega), if_pos hc]

theorem SparseSet.erase_not_contains (SparseSize DenseSize : Nat) (s : SparseSet)
    (hwf : s.WF SparseSize DenseSize) (k : Nat) :
    (s.erase SparseSize k).contains SparseSize k = false := by
  rw [SparseSet.erase]
  by_cases hc : s.contains SparseSize k = true
  · rw [if_pos hc]
    rw [SparseSet.contains_eq_true_iff] at hc
    rcases hc with ⟨hk, hlt, heq⟩
    have hpos : 0 < s.dense_size := Nat.lt_of_le_of_lt (Nat.zero_le _) hlt
    by_cases hlast : s.dense (s.dense_size - 1) = k
    · -- the erased key occupied the last dense slot
      have hsk : s.sparse k = s.dense_size - 1 := by
        have := (hwf.2 (s.dense_size - 1) (by omega)).2
        rw [hlast] at this
        exact this
      rw [Bool.eq_false_iff]
      intro hcon
      rw [SparseSet.contains_eq_true_iff] at hcon
      rcases hcon with ⟨_, h2, _⟩
      simp only [hlast, updf_same] at h2
      omega
    · rw [Bool.eq_false_iff]
      intro hcon
      rw [SparseSet.contains_eq_true_iff] at hcon
      rcases hcon with ⟨_, h2, h3⟩
      dsimp only at h2 h3
      rw [updf_other _ _ _ _ (Ne.symm hlast)] at h2 h3
      rw [updf_same] at h3
      exact hlast h3
  · rw [if_neg hc]
    simpa using hc

theorem SparseSet.size_eq_count (SparseSize DenseSize : Nat) (s : SparseSet)
    (hwf : s.WF SparseSize DenseSize) :
    s.dense_size
      = ((Finset.range SparseSize).filter (fun j => s.contains SparseSize j = true)).card := by
  classical
  have himg : (Finset.range SparseSize).filter (fun j => s.contains SparseSize j = true)
      = (Finset.range s.dense_size).image s.dense := by
    ext j
    simp only [Finset.mem_filter, Finset.mem_image, Finset.mem_range,
      SparseSet.contains_eq_true_iff]
    constructor
    · rintro ⟨hj, _, hs, hd⟩
      exact ⟨s.sparse j, hs, hd⟩
    · rintro ⟨i, hi, rfl⟩
      rcases hwf.2 i hi with ⟨h1, h2⟩
      exact ⟨h1, h1, by rw [h2]; exact ⟨hi, rfl⟩⟩
  rw [himg, Finset.card_image_of_injOn, Finset.card_range]
  intro i hi i2 hi2 he
  have e1 := (hwf.2 i (Finset.mem_range.1 (Finset.mem_coe.1 hi))).2
  have e2 := (hwf.2 i2 (Finset.mem_range.1 (Finset.mem_coe.1 hi2))).2
  rw [← e1, ← e2, he]

/-- The all-zero initial sparse set (static storage in the source is
zero-initialized). -/
def spZero : SparseSet := ⟨0, fun _ => 0, fun _ => 0⟩

/-- A SparseSet<4, 2> filled to its dense capacity with keys 0 and 1. -/
def spFull : SparseSet := (spZero.insert 4 2 0).insert 4 2 1

/-- C3: for a SparseSet whose dense array is full (dense_size = DenseSize = 2)
and an absent key 2 < SparseSize = 4, insert(2) is specified as a no-op, but
the code appends anyway: it bumps dense_size to 3 (past the capacity) and
writes the key at dense index 2, which lies outside the dense array bounds.
This theorem evaluates the embedded code at that failing input. -/
theorem c3_insert_at_capacity_overflows :
    spFull.dense_size = 2 ∧
    spFull.contains 4 2 = false ∧
    (spFull.insert 4 2 2).dense_size = 3 ∧
    (spFull.insert 4 2 2).dense 2 = 2 ∧
    spFull.dense 2 = 0 := by decide

/-- C7 counterexample: on a full SparseSet<4, 2> holding {0, 1}, insert(2)
does not make 2 a member (and in fact corrupts the structure), refuting the
unconditional law that insert is always followed by a positive membership
test. -/
theorem c7_insert_full_not_contains :
    (spFull.insert 4 2 2).contains 4 2 = false := by decide

/-- C7 amended: the SparseSet laws hold on well-formed states provided the
dense array has room (or the key is already present) at each insert: insert
then contains is true; erase then contains is false; a second insert right
after a first one leaves dense_size unchanged; and dense_size always equals
the number of contained keys (size() returns dense_size reduced to the
sparse-index width). -/
theorem c7_sparse_set_laws (SparseSize DenseSize : Nat) (s : SparseSet)
    (hwf : s.WF SparseSize DenseSize) (k : Nat) (hk : k < SparseSize) :
    ((s.dense_size < DenseSize ∨ s.contains SparseSize k = true) →
        (s.insert SparseSize DenseSize k).contains SparseSize k = true) ∧
    (s.erase SparseSize k).contains SparseSize k = false ∧
    ((s.dense_size < DenseSize ∨ s.contains SparseSize k = true) →
        ((s.insert SparseSize DenseSize k).insert SparseSize DenseSize k).dense_size
          = (s.insert SparseSize DenseSize k).dense_size) ∧
    s.dense_size
      = ((Finset.range SparseSize).filter (fun j => s.contains SparseSize j = true)).card :=
  ⟨fun h => SparseSet.insert_contains SparseSize DenseSize s k hk h,
   SparseSet.erase_not_contains SparseSize DenseSize s hwf k,
   fun h => SparseSet.insert_insert_size SparseSize DenseSize s k hk h,
   SparseSet.size_eq_count SparseSize DenseSize s hwf⟩

/-- A SparseSet<4, 2> holding only the key 0. -/
def spOne : SparseSet := spZero.insert 4 2 0

/-- C7 witness: the amended laws applied to the concrete state {0} of a
SparseSet<4, 2> and the key 1, with every hypothesis discharged by
evaluation. -/
theorem c7_sparse_set_laws_witness :
    SparseSet.WF 4 2 spOne ∧ 1 < 4 ∧
    (spOne.insert 4 2 1).contains 4 1 = true ∧
    (spOne.erase 4 1).contains 4 1 = false :=
  ⟨by decide, by decide,
   (c7_sparse_set_laws 4 2 spOne (by decide) 1 (by decide)).1 (Or.inl (by decide)),
   (c7_sparse_set_laws 4 2 spOne (by decide) 1 (by decide)).2.1⟩

/-!
fpga_resource_pool.h : ResourcePool<HandleT, ResourceT, Size>.
HandleT is ap_uint<w>, so the underlying sparse set is
SparseSet<HandleT, 2^w, Size> and its sparse_index has width w.
Iterators are modelled by their index; the end iterator has index 0 and
iterator i designates resources[i - 1].
-/

structure ResourcePool (V : Type) where
  ss : SparseSet
  res : Nat → V

/-- ResourcePool::contains. -/
def ResourcePool.contains {V : Type} (w : Nat) (p : ResourcePool V) (id : Nat) : Bool :=
  p.ss.contains (2 ^ w) id

/-- ResourcePool::at (named at_ because at is a reserved word). -/
def ResourcePool.at_ {V : Type} (p : ResourcePool V) (id : Nat) : V :=
  p.res (p.ss.sparse id)

/-- ResourcePool::size (the sparse set size, reduced to the handle width). -/
def ResourcePool.size {V : Type} (w : Nat) (p : ResourcePool V) : Nat :=
  p.ss.size (2 ^ w)

/-- SparseSet::capacity as seen by the pool: DenseSize truncated to the
sparse-index width w. -/
def ResourcePool.capacity (w Size : Nat) : Nat :=
  SparseSet.capacity (2 ^ w) Size

/-- ResourcePool::emplace_empty.  Returns (pool, iterator index, inserted). -/
def ResourcePool.emplace_empty {V : Type} (w Size : Nat) (p : ResourcePool V) (id : Nat) :
    ResourcePool V × Nat × Bool :=
  if p.contains w id then (p, p.ss.sparse id + 1, false)
  else if p.size w < ResourcePool.capacity w Size then
    let ss2 := p.ss.insert (2 ^ w) Size id
    ({ p with ss := ss2 }, ss2.size (2 ^ w), true)
  else (p, 0, false)

/-- ResourcePool::emplace.  As emplace_empty but also constructs the resource
at resources[size()-1] in the inserted case. -/
def ResourcePool.emplace {V : Type} (w Size : Nat) (p : ResourcePool V) (id : Nat) (v : V) :
    ResourcePool V × Nat × Bool :=
  if p.contains w id then (p, p.ss.sparse id + 1, false)
  else if p.size w < ResourcePool.capacity w Size then
    let ss2 := p.ss.insert (2 ^ w) Size id
    ({ ss := ss2, res := updf p.res (ss2.size (2 ^ w) - 1) v }, ss2.size (2 ^ w), true)
  else (p, 0, false)

/-- ResourcePool::erase: move the last resource into the erased slot, then
erase the handle from the sparse set. -/
def ResourcePool.erase {V : Type} (w : Nat) (p : ResourcePool V) (id : Nat) : ResourcePool V :=
  if p.contains w id then
    { ss := p.ss.erase (2 ^ w) id,
      res := updf p.res (p.ss.sparse id) (p.res (p.size w - 1)) }
  else p

/-- The sequence of handles visited by iterating ResourcePool::handles():
indices run from size() down to 1 and iterator i reads dense[i-1], so the
dense array is visited in reverse order. -/
def ResourcePool.handlesList {V : Type} (w : Nat) (p : ResourcePool V) : List Nat :=
  (List.range (p.size w)).reverse.map p.ss.dense

/-- Pool well-formedness is well-formedness of the underlying sparse set. -/
def ResourcePool.WF {V : Type} (w Size : Nat) (p : ResourcePool V) : Prop :=
  p.ss.WF (2 ^ w) Size

instance {V : Type} (w Size : Nat) (p : ResourcePool V) :
    Decidable (p.WF w Size) :=
  decidable_of_iff (p.ss.WF (2 ^ w) Size) Iff.rfl

/-- Abstract key to value view of a pool. -/
def ResourcePool.view {V : Type} (w : Nat) (p : ResourcePool V) (id : Nat) : Option V :=
  if p.contains w id then some (p.at_ id) else none

/-- The all-zero initial pool of Nat resources (static storage zero-init). -/
def rpZero : ResourcePool Nat := ⟨spZero, fun _ => 0⟩

/-- C9 counterexample: a ResourcePool with handle width 2 and Size = 4 (so
DenseSize = SparseSize = 2^2, allowed by the static_assert) is empty, far
from full, and the id 1 is absent, yet emplace_empty returns the end
sentinel (index 0) with inserted = false, because capacity() truncates
DenseSize = 4 to the sparse-index width 2, giving 0. -/
theorem c9_emplace_full_truncation_cex :
    (ResourcePool.emplace_empty 2 4 rpZero 1).2 = (0, false) ∧
    rpZero.contains 2 1 = false ∧
    rpZero.ss.dense_size = 0 ∧ ResourcePool.capacity 2 4 = 0 := by decide

theorem pool_size_eq (w Size : Nat) {V : Type} (p : ResourcePool V)
    (hwf : p.WF w Size) (hS : Size ≤ 2 ^ w)
    (hlt : p.size w < ResourcePool.capacity w Size) :
    p.size w = p.ss.dense_size ∧ p.ss.dense_size < Size ∧ Size < 2 ^ w := by
  have hcap : ResourcePool.capacity w Size = Size % 2 ^ w := by
    rw [ResourcePool.capacity, SparseSet.capacity, ceil_int_log2_pow2]
  have hSlt : Size < 2 ^ w := by
    rcases Nat.lt_or_ge Size (2 ^ w) with h | h
    · exact h
    · exfalso
      have : Size = 2 ^ w := by omega
      rw [hcap, this, Nat.mod_self] at hlt
      omega
  have hds : p.ss.dense_size < 2 ^ w := Nat.lt_of_le_of_lt hwf.1 hSlt
  have hsz : p.size w = p.ss.dense_size := by
    rw [ResourcePool.size, SparseSet.size, ceil_int_log2_pow2]
    exact Nat.mod_eq_of_lt hds
  refine ⟨hsz, ?_, hSlt⟩
  rw [hsz, hcap, Nat.mod_eq_of_lt hSlt] at hlt
  exact hlt

/-- C9 amended: emplace and emplace_empty follow the claimed contract with
fullness read off the code's own test size() < capacity(), where capacity()
is DenseSize truncated to the handle width (zero when DenseSize = 2^width,
in which case every emplace on an absent id is rejected even though the
pool is not full): present id gives the existing entry and inserted=false;
absent id with size() < capacity() creates the entry and inserted=true;
otherwise the end sentinel handle (index 0) and inserted=false. -/
theorem c9_emplace_contract (w Size : Nat) (V : Type) (p : ResourcePool V)
    (hwf : p.WF w Size) (hS : Size ≤ 2 ^ w) (id : Nat) (hid : id < 2 ^ w) (v : V) :
    (p.contains w id = true →
        p.emplace w Size id v = (p, p.ss.sparse id + 1, false) ∧
        p.emplace_empty w Size id = (p, p.ss.sparse id + 1, false) ∧
        (p.emplace w Size id v).1.res ((p.emplace w Size id v).2.1 - 1) = p.at_ id) ∧
    (p.contains w id = false → p.size w < ResourcePool.capacity w Size →
        (p.emplace w Size id v).2.2 = true ∧
        (p.emplace_empty w Size id).2.2 = true ∧
        (p.emplace w Size id v).2.1 ≠ 0 ∧
        (p.emplace w Size id v).1.contains w id = true ∧
        (p.emplace_empty w Size id).1.contains w id = true ∧
        (p.emplace w Size id v).1.at_ id = v) ∧
    (p.contains w id = false → ¬ p.size w < ResourcePool.capacity w Size →
        p.emplace w Size id v = (p, 0, false) ∧
        p.emplace_empty w Size id = (p, 0, false)) := by
  have hee_pres : p.contains w id = true →
      p.emplace_empty w Size id = (p, p.ss.sparse id + 1, false) := fun hc => by
    rw [ResourcePool.emplace_empty, if_pos hc]
  have he_pres : p.contains w id = true →
      p.emplace w Size id v = (p, p.ss.sparse id + 1, false) := fun hc => by
    rw [ResourcePool.emplace, if_pos hc]
  refine ⟨?_, ?_, ?_⟩
  · intro hc
    refine ⟨he_pres hc, hee_pres hc, ?_⟩
    rw [he_pres hc]
    simp [ResourcePool.at_]
  · intro hc hlt
    obtain ⟨hsz, hds, hSlt⟩ := pool_size_eq w Size p hwf hS hlt
    have hc2 : p.ss.contains (2 ^ w) id = false := hc
    have hss2 : (p.ss.insert (2 ^ w) Size id).dense_size = p.ss.dense_size + 1 := by
      rw [SparseSet.insert, if_neg (by omega), if_neg (by rw [hc2]; simp)]
    have hsize2 : (p.ss.insert (2 ^ w) Size id).size (2 ^ w) = p.ss.dense_size + 1 := by
      rw [SparseSet.size, ceil_int_log2_pow2, hss2]
      exact Nat.mod_eq_of_lt (by omega)
    have hcont2 : (p.ss.insert (2 ^ w) Size id).contains (2 ^ w) id = true :=
      SparseSet.insert_contains (2 ^ w) Size p.ss id hid (Or.inl hds)
    have hsp2 : (p.ss.insert (2 ^ w) Size id).sparse id = p.ss.dense_size := by
      rw [SparseSet.insert, if_neg (by omega), if_neg (by rw [hc2]; simp)]
      dsimp only
      rw [updf_same]
      exact Nat.mod_eq_of_lt
        (Nat.lt_of_lt_of_le hds (le_pow_ceil_int_log2 Size))
    have hee_ins : p.emplace_empty w Size id =
        ({ p with ss := p.ss.insert (2 ^ w) Size id },
          (p.ss.insert (2 ^ w) Size id).size (2 ^ w), true) := by
      rw [ResourcePool.emplace_empty, if_neg (by simp [hc]), if_pos hlt]
    have he_ins : p.emplace w Size id v =
        ({ ss := p.ss.insert (2 ^ w) Size id,
           res := updf p.res ((p.ss.insert (2 ^ w) Size id).size (2 ^ w) - 1) v },
          (p.ss.insert (2 ^ w) Size id).size (2 ^ w), true) := by
      rw [ResourcePool.emplace, if_neg (by simp [hc]), if_pos hlt]
    rw [hee_ins, he_ins]
    refine ⟨rfl, rfl, by dsimp only; omega, hcont2, hcont2, ?_⟩
    dsimp only [ResourcePool.at_]
    rw [hsp2, hsize2]
    simp [updf_same]
  · intro hc hge
    have hee : p.emplace_empty w Size id = (p, 0, false) := by
      rw [ResourcePool.emplace_empty, if_neg (by simp [hc]), if_neg hge]
    have he : p.emplace w Size id v = (p, 0, false) := by
      rw [ResourcePool.emplace, if_neg (by simp [hc]), if_neg hge]
    exact ⟨he, hee⟩

/-- A pool with handle width 2 and Size 3 holding the single id 0. -/
def rpOne : ResourcePool Nat := ⟨SparseSet.insert 4 3 spZero 0, fun _ => 17⟩

/-- C9 witness: the contract applied to the concrete pool {0} with width 2
and Size 3, id 1 absent and room available: the insertion branch fires. -/
theorem c9_emplace_contract_witness :
    ResourcePool.WF 2 3 rpOne ∧ (3:Nat) ≤ 2 ^ 2 ∧ (1:Nat) < 2 ^ 2 ∧
    rpOne.contains 2 1 = false ∧ rpOne.size 2 < ResourcePool.capacity 2 3 ∧
    (rpOne.emplace 2 3 1 (42 : Nat)).1.at_ 1 = 42 :=
  ⟨by decide, by decide, by decide, by decide, by decide,
   ((c9_emplace_contract 2 3 Nat rpOne (by decide) (by decide) 1 (by decide) 42).2.1
     (by decide) (by decide)).2.2.2.2.2⟩

/-!
oram_atu.h : WeightAddressTranslator<Layers>.
The per-layer std::array fields are modelled as functions from the layer
index; the constructor loop becomes a recursion for start_blocks.
-/

structure WeightAddressTranslator where
  TILES : Nat → Nat
  element_sizes : Nat → Nat
  elements_per_block : Nat → Nat
  start_blocks : Nat → Nat
  block_counts : Nat → Nat

/-- Per-layer block_count as computed in the constructor loop. -/
def watBlockCount (block_size : Nat) (SIMD WT PE TILES : Nat → Nat) (i : Nat) : Nat :=
  ceil_int_div (PE i * TILES i) (block_size / ceil_int_div (WT i * SIMD i) 8)

/-- Per-layer start_block: block_offset for layer 0, then cumulative. -/
def watStartBlock (block_size : Nat) (SIMD WT PE TILES : Nat → Nat) (block_offset : Nat) :
    Nat → Nat
  | 0 => block_offset
  | i + 1 => watStartBlock block_size SIMD WT PE TILES block_offset i
      + watBlockCount block_size SIMD WT PE TILES i

/-- The WeightAddressTranslator constructor. -/
def WeightAddressTranslator.make (block_size : Nat) (SIMD WT PE TILES : Nat → Nat)
    (block_offset : Nat) : WeightAddressTranslator :=
  { TILES := TILES,
    element_sizes := fun i => ceil_int_div (WT i * SIMD i) 8,
    elements_per_block := fun i => block_size / ceil_int_div (WT i * SIMD i) 8,
    start_blocks := watStartBlock block_size SIMD WT PE TILES block_offset,
    block_counts := watBlockCount block_size SIMD WT PE TILES }

/-- WeightAddressTranslator::index_to_block. -/
def WeightAddressTranslator.index_to_block (t : WeightAddressTranslator)
    (layer pe tile : Nat) : Nat × Nat :=
  let this_element := pe * t.TILES layer + tile
  (t.start_blocks layer + this_element / t.elements_per_block layer,
   t.element_sizes layer * (this_element % t.elements_per_block layer))

/-- WeightAddressTranslator::element_size. -/
def WeightAddressTranslator.element_size (t : WeightAddressTranslator) (layer : Nat) : Nat :=
  t.element_sizes layer

theorem ceil_int_div_pos (num denom : Nat) (h : 0 < num) : 0 < ceil_int_div num denom := by
  rw [ceil_int_div]
  by_cases hm : num % denom ≠ 0
  · simp [hm]
  · simp only [hm, if_neg, ite_false]
    push_neg at hm
    rcases Nat.eq_zero_or_pos denom with hd | hd
    · subst hd
      simp at hm
      omega
    · have hdvd : denom ∣ num := Nat.dvd_of_mod_eq_zero hm
      have := (Nat.one_le_div_iff hd).2 (Nat.le_of_dvd h hdvd)
      omega

/-- C8: index_to_block built by the constructor is the stated pure function of
(layer, pe, tile) and the construction inputs, and for a fixed layer with
positive element bit width and element_size within the block size, the
element_size-byte spans of two distinct valid (pe, tile) pairs never overlap:
they land in different blocks or in byte-disjoint ranges of the same block. -/
theorem c8_index_to_block_pure_disjoint
    (block_size : Nat) (SIMD WT PE TILES : Nat → Nat) (block_offset : Nat)
    (layer : Nat) (hes : 0 < WT layer * SIMD layer)
    (hfit : ceil_int_div (WT layer * SIMD layer) 8 ≤ block_size)
    (pe tile pe2 tile2 : Nat)
    (h1 : pe < PE layer) (h2 : tile < TILES layer)
    (h3 : pe2 < PE layer) (h4 : tile2 < TILES layer)
    (hne : (pe, tile) ≠ (pe2, tile2)) :
    ((WeightAddressTranslator.make block_size SIMD WT PE TILES block_offset).index_to_block
        layer pe tile
      = (watStartBlock block_size SIMD WT PE TILES block_offset layer
            + (pe * TILES layer + tile) / (block_size / ceil_int_div (WT layer * SIMD layer) 8),
         ceil_int_div (WT layer * SIMD layer) 8
            * ((pe * TILES layer + tile) % (block_size / ceil_int_div (WT layer * SIMD layer) 8)))) ∧
    (let t := WeightAddressTranslator.make block_size SIMD WT PE TILES block_offset
     (t.index_to_block layer pe tile).1 ≠ (t.index_to_block layer pe2 tile2).1 ∨
     (t.index_to_block layer pe tile).2 + t.element_size layer
        ≤ (t.index_to_block layer pe2 tile2).2 ∨
     (t.index_to_block layer pe2 tile2).2 + t.element_size layer
        ≤ (t.index_to_block layer pe tile).2) := by
  constructor
  · rfl
  · intro t
    set esz := ceil_int_div (WT layer * SIMD layer) 8 with hesz
    set epb := block_size / esz with hepb
    have hesz0 : 0 < esz := ceil_int_div_pos _ _ hes
    have hepb0 : 0 < epb := by
      rw [hepb]
      exact Nat.le_div_iff_mul_le hesz0 |>.2 (by omega)
    have hT : 0 < TILES layer := Nat.lt_of_le_of_lt (Nat.zero_le _) h2
    set e1 := pe * TILES layer + tile with he1
    set e2 := pe2 * TILES layer + tile2 with he2
    have hee : e1 ≠ e2 := by
      intro he
      apply hne
      have hpe : pe = pe2 := by
        have d1 : e1 / TILES layer = pe := by
          rw [he1, Nat.add_comm, Nat.add_mul_div_right _ _ hT, Nat.div_eq_of_lt h2]
          omega
        have d2 : e2 / TILES layer = pe2 := by
          rw [he2, Nat.add_comm, Nat.add_mul_div_right _ _ hT, Nat.div_eq_of_lt h4]
          omega
        rw [← d1, ← d2, he]
      have hti : tile = tile2 := by
        have m1 : e1 % TILES layer = tile := by
          rw [he1, Nat.add_comm, Nat.add_mul_mod_self_right, Nat.mod_eq_of_lt h2]
        have m2 : e2 % TILES layer = tile2 := by
          rw [he2, Nat.add_comm, Nat.add_mul_mod_self_right, Nat.mod_eq_of_lt h4]
        rw [← m1, ← m2, he]
      rw [hpe, hti]
    have hblk1 : (t.index_to_block layer pe tile).1
        = watStartBlock block_size SIMD WT PE TILES block_offset layer + e1 / epb := rfl
    have hblk2 : (t.index_to_block layer pe2 tile2).1
        = watStartBlock block_size SIMD WT PE TILES block_offset layer + e2 / epb := rfl
    have hoff1 : (t.index_to_block layer pe tile).2 = esz * (e1 % epb) := rfl
    have hoff2 : (t.index_to_block layer pe2 tile2).2 = esz * (e2 % epb) := rfl
    have helsz : t.element_size layer = esz := rfl
    by_cases hb : e1 / epb = e2 / epb
    · have hm : e1 % epb ≠ e2 % epb := by
        intro hmeq
        apply hee
        rw [← Nat.div_add_mod e1 epb, ← Nat.div_add_mod e2 epb, hb, hmeq]
      rcases Nat.lt_or_ge (e1 % epb) (e2 % epb) with hlt | hge
      · right; left
        rw [hoff1, hoff2, helsz]
        calc esz * (e1 % epb) + esz = esz * (e1 % epb + 1) := by ring
          _ ≤ esz * (e2 % epb) := Nat.mul_le_mul_left _ (by omega)
      · right; right
        rw [hoff1, hoff2, helsz]
        calc esz * (e2 % epb) + esz = esz * (e2 % epb + 1) := by ring
          _ ≤ esz * (e1 % epb) := Nat.mul_le_mul_left _ (by omega)
    · left
      rw [hblk1, hblk2]
      omega

/-- C8 witness: the pure-function and non-overlap statement applied to a
concrete translator: block size 8, one layer with SIMD=4, WT=2, PE=2,
TILES=3, and the distinct coordinates (0,1) and (1,2). -/
theorem c8_index_to_block_witness :
    (0:Nat) < 2 * 4 ∧ ceil_int_div (2 * 4) 8 ≤ 8 ∧
    ((WeightAddressTranslator.make 8 (fun _ => 4) (fun _ => 2) (fun _ => 2) (fun _ => 3) 0).index_to_block 0 0 1
      = (0 + (0 * 3 + 1) / (8 / ceil_int_div (2 * 4) 8),
         ceil_int_div (2 * 4) 8 * ((0 * 3 + 1) % (8 / ceil_int_div (2 * 4) 8)))) :=
  ⟨by decide, by decide,
   (c8_index_to_block_pure_disjoint 8 (fun _ => 4) (fun _ => 2) (fun _ => 2) (fun _ => 3) 0 0
     (by decide) (by decide) 0 1 1 2 (by decide) (by decide) (by decide) (by decide)
     (by decide)).1⟩

/-!
fpga_binary_heap.h : BinaryHeap<KeyT, ValueT, Height, CompareT> and
fpga_binary_tree.h : BinaryTree<KeyT, ValueT, NodeCount, CompareT>.
The comparator is an abstract Bool-valued less; equal(a,b) is
!less(a,b) && !less(b,a) as in the sources.  The node arrays are total
functions; iterators are modelled by their node index (end = num_elements
for the heap, NodeCount for the tree).  The search loops are fueled; the
fuel dominates the walk length on every input reachable through the public
interface (the heap walk index at least doubles each step, the tree walk
follows at most NodeCount parent or child links on a well-formed tree).
-/

structure HeapNode (K V : Type) where
  valid : Bool
  key : K
  val : V
deriving DecidableEq

structure BinaryHeap (K V : Type) where
  data : Nat → HeapNode K V

/-- BinaryHeap num_elements = 2^(Height+1) - 1. -/
def heapNum (Height : Nat) : Nat := 2 ^ (Height + 1) - 1

/-- CompareT-derived equality: !less(a,b) && !less(b,a). -/
def cmpEq {K : Type} (less : K → K → Bool) (a b : K) : Bool :=
  !less a b && !less b a

/-- The loop body of BinaryHeap::find_insertion_spot.  The index at least
doubles each iteration, so Height + 2 units of fuel always suffice. -/
def BinaryHeap.fisLoop {K V : Type} (less : K → K → Bool) (Height : Nat)
    (hp : BinaryHeap K V) (key : K) : Nat → Nat → Nat
  | 0, leaf => leaf
  | fuel + 1, leaf =>
    if leaf < heapNum Height &&
        !cmpEq less key (hp.data leaf).key && (hp.data leaf).valid then
      BinaryHeap.fisLoop less Height hp key fuel
        (leaf + (if less key (hp.data leaf).key then leaf + 1 else leaf + 2))
    else leaf

/-- BinaryHeap::find_insertion_spot. -/
def BinaryHeap.find_insertion_spot {K V : Type} (less : K → K → Bool) (Height : Nat)
    (hp : BinaryHeap K V) (key : K) : Nat :=
  let leaf := BinaryHeap.fisLoop less Height hp key (Height + 2) 0
  if leaf < heapNum Height then leaf else heapNum Height

/-- BinaryHeap::emplace_empty.  Returns (heap, iterator index, inserted flag).
Note the source returns false in every branch, including the one that
creates a new valid node. -/
def BinaryHeap.emplace_empty {K V : Type} (less : K → K → Bool) (Height : Nat)
    (hp : BinaryHeap K V) (key : K) : BinaryHeap K V × Nat × Bool :=
  let leaf := BinaryHeap.find_insertion_spot less Height hp key
  if leaf ≥ heapNum Height then (hp, heapNum Height, false)
  else if (hp.data leaf).valid = false then
    ({ data := updf hp.data leaf { hp.data leaf with valid := true, key := key } }, leaf, false)
  else (hp, leaf, false)

structure TreeNode (K V : Type) where
  valid : Bool
  parent : Nat
  left : Nat
  right : Nat
  key : K
  val : V

structure BinaryTree (K V : Type) where
  root : Nat
  nodes : Nat → TreeNode K V
  free_count : Nat
  free_nodes : Nat → Nat

/-- BinaryTree::is_invalid_node. -/
def BinaryTree.is_invalid_node {K V : Type} (NodeCount : Nat) (t : BinaryTree K V)
    (n : Nat) : Bool :=
  decide (n ≥ NodeCount) || !(t.nodes n).valid

/-- The loop of BinaryTree::find_nearest, fueled. -/
def BinaryTree.fnLoop {K V : Type} (less : K → K → Bool) (NodeCount : Nat)
    (t : BinaryTree K V) (key : K) : Nat → Nat → Nat → Nat
  | 0, current, _ => current
  | fuel + 1, current, next =>
    if !(t.is_invalid_node NodeCount next) && !cmpEq less key (t.nodes current).key then
      BinaryTree.fnLoop less NodeCount t key fuel next
        (if less key (t.nodes next).key then (t.nodes next).left else (t.nodes next).right)
    else current

/-- BinaryTree::find_nearest. -/
def BinaryTree.find_nearest {K V : Type} (less : K → K → Bool) (NodeCount : Nat)
    (t : BinaryTree K V) (key : K) : Nat :=
  BinaryTree.fnLoop less NodeCount t key (NodeCount + 1) t.root t.root

/-- BinaryTree::pop_free: take the top free index and mark it valid. -/
def BinaryTree.pop_free {K V : Type} (t : BinaryTree K V) : BinaryTree K V × Nat :=
  let idx := t.free_nodes (t.free_count - 1)
  ({ t with free_count := t.free_count - 1,
            nodes := updf t.nodes idx { t.nodes idx with valid := true } }, idx)

/-- BinaryTree::setup_new_node. -/
def BinaryTree.setup_new_node {K V : Type} (less : K → K → Bool) (NodeCount : Nat)
    (t : BinaryTree K V) (key : K) : BinaryTree K V × Nat × Bool :=
  if t.free_count = 0 then (t, NodeCount, false)
  else if t.is_invalid_node NodeCount t.root then
    let r := t.pop_free
    ({ r.1 with root := r.2,
                nodes := updf r.1.nodes r.2 { r.1.nodes r.2 with key := key } }, r.2, true)
  else
    let nearest := t.find_nearest less NodeCount key
    if cmpEq less key (t.nodes nearest).key then (t, nearest, false)
    else
      let r := t.pop_free
      let nodes2 := updf r.1.nodes r.2
        { r.1.nodes r.2 with parent := nearest, key := key }
      let nodes3 :=
        if less key (t.nodes nearest).key then
          updf nodes2 nearest { nodes2 nearest with left := r.2 }
        else
          updf nodes2 nearest { nodes2 nearest with right := r.2 }
      ({ r.1 with nodes := nodes3 }, r.2, true)

/-- BinaryTree::emplace_empty simply forwards to setup_new_node. -/
def BinaryTree.emplace_empty {K V : Type} (less : K → K → Bool) (NodeCount : Nat)
    (t : BinaryTree K V) (key : K) : BinaryTree K V × Nat × Bool :=
  t.setup_new_node less NodeCount key

/-- C10: BinaryHeap::emplace_empty returns false as its inserted flag in every
branch, including the branch that creates a fresh valid node for an absent
key, so callers cannot tell a fresh insertion from a hit; by contrast
BinaryTree::emplace_empty reports true whenever it creates a node (shown
here for the two creating branches: empty tree, and a nearest node whose
key differs from the requested key while free slots remain). -/
theorem c10_heap_emplace_empty_flag (K V : Type) (less : K → K → Bool)
    (Height NodeCount : Nat) :
    (∀ (hp : BinaryHeap K V) (k : K),
        (BinaryHeap.emplace_empty less Height hp k).2.2 = false) ∧
    (∀ (t : BinaryTree K V) (k : K), t.free_count ≠ 0 →
        (t.is_invalid_node NodeCount t.root = true ∨
          cmpEq less k (t.nodes (t.find_nearest less NodeCount k)).key = false) →
        (BinaryTree.emplace_empty less NodeCount t k).2.2 = true) := by
  constructor
  · intro hp k
    rw [BinaryHeap.emplace_empty]
    dsimp only
    by_cases h1 : BinaryHeap.find_insertion_spot less Height hp k ≥ heapNum Height
    · rw [if_pos h1]
    · rw [if_neg h1]
      by_cases h2 : (hp.data (BinaryHeap.find_insertion_spot less Height hp k)).valid = false
      · rw [if_pos h2]
      · rw [if_neg h2]
  · intro t k hfree hcase
    rw [BinaryTree.emplace_empty, BinaryTree.setup_new_node]
    rw [if_neg hfree]
    rcases hcase with hroot | hnear
    · rw [if_pos hroot]
    · by_cases hroot : t.is_invalid_node NodeCount t.root = true
      · rw [if_pos hroot]
      · rw [if_neg hroot]
        dsimp only
        rw [hnear]
        simp only [Bool.false_eq_true, if_false]

/-- An empty BinaryTree<Nat, Nat, 1> as left by the constructor: one free
slot, invalid root. -/
def btEmpty : BinaryTree Nat Nat := ⟨1, fun _ => ⟨false, 1, 1, 1, 0, 0⟩, 1, fun _ => 0⟩

/-- The all-invalid BinaryHeap<Nat, Nat, 1>. -/
def bhEmpty : BinaryHeap Nat Nat := ⟨fun _ => ⟨false, 0, 0⟩⟩

/-- C10 witness: on concrete empty containers with keys absent, the heap
flag is false even though a fresh node is created, while the tree flag is
true. -/
theorem c10_heap_emplace_empty_flag_witness :
    (BinaryHeap.emplace_empty (fun a b => decide (a < b)) 1 bhEmpty 5).2.2 = false ∧
    btEmpty.free_count ≠ 0 ∧
    btEmpty.is_invalid_node 1 btEmpty.root = true ∧
    (BinaryTree.emplace_empty (fun a b => decide (a < b)) 1 btEmpty 5).2.2 = true ∧
    (BinaryHeap.emplace_empty (fun a b => decide (a < b)) 1 bhEmpty 5).1.data 0 =
      ⟨true, 5, 0⟩ :=
  ⟨(c10_heap_emplace_empty_flag Nat Nat (fun a b => decide (a < b)) 1 1).1 bhEmpty 5,
   by decide, by decide,
   (c10_heap_emplace_empty_flag Nat Nat (fun a b => decide (a < b)) 1 1).2 btEmpty 5
     (by decide) (Or.inl (by decide)),
   by decide⟩

/-!
fpga_path_oram2.h : FPGAPathORAM2<HeightL, BlockSizeB, BucketSizeZ>.
Server memory is the byte function of a Srv record, which also carries an
instrumentation log of the bucket indices passed to readBucket and
writeBucket.  Block payloads are length-B byte lists.  The engine state is
zero-initialized, as the static engine object in the controller is.
The access result carries two instrumentation flags: ok is false when some
stash emplace_empty was rejected (capacity overflow, silently dropped by
the source), fault is true when some at()/index_of() precondition
(assert(contains)) was violated.
-/

/-- Number of buckets: 2^(HeightL+1) - 1. -/
def bucket_count (H : Nat) : Nat := 2 ^ (H + 1) - 1

/-- Number of blocks: BucketSizeZ * bucket_count. -/
def block_count_N (H Z : Nat) : Nat := Z * bucket_count H

/-- Width of client_block_id. -/
def blkWidth (H Z : Nat) : Nat := ceil_int_log2 (block_count_N H Z)

/-- The stash ResourcePool Size template argument: ceil_int_log2(N) << 2. -/
def stashSize (H Z : Nat) : Nat := blkWidth H Z <<< 2

/-- IDBlock::invalid_block = uint64_t(-1). -/
def invalid_block : Nat := 2 ^ 64 - 1

structure IDBlock where
  id : Nat
  data : List Nat
deriving DecidableEq

/-- A default-constructed IDBlock: sentinel id; the ap_array payload is
uninitialized in C++ and modelled as zero bytes (no claim observes the
payload of a sentinel slot). -/
def IDBlock.invalid (B : Nat) : IDBlock := ⟨invalid_block, List.replicate B 0⟩

structure Srv where
  mem : Nat → Nat
  reads : List Nat
  writes : List Nat

/-- The id-decoding loop of readBlock: out.id |= byte << (i*8) for i < 8
(SIZEOF_MEMBER(IDBlock, id) = 8). -/
def decodeId (m : Nat → Nat) (off : Nat) : Nat :=
  (List.range 8).foldl (fun acc i => acc ||| (m (off + i) <<< (i * 8))) 0

/-- FPGAPathORAM2::readBlock. -/
def readBlock (B : Nat) (m : Nat → Nat) (index : Nat) : IDBlock :=
  ⟨decodeId m (index * (8 + B)),
   (List.range B).map (fun i => m (index * (8 + B) + 8 + i))⟩

/-- FPGAPathORAM2::writeBlock: little-endian id bytes, then payload bytes. -/
def writeBlock (B : Nat) (m : Nat → Nat) (index : Nat) (blk : IDBlock) : Nat → Nat :=
  let m1 := (List.range 8).foldl
    (fun mm i => updf mm (index * (8 + B) + i) ((blk.id >>> (i * 8)) % 256)) m
  (List.range B).foldl
    (fun mm i => updf mm (index * (8 + B) + 8 + i) (blk.data.getD i 0)) m1

/-- FPGAPathORAM2::readBucket, logging the bucket index. -/
def readBucket (B Z : Nat) (s : Srv) (index : Nat) : Srv × List IDBlock :=
  ({ s with reads := s.reads ++ [index] },
   (List.range Z).map (fun i => readBlock B s.mem (index * Z + i)))

/-- FPGAPathORAM2::writeBucket, logging the bucket index. -/
def writeBucket (B Z : Nat) (s : Srv) (bucket : List IDBlock) (index : Nat) : Srv :=
  { mem := (List.range Z).foldl
      (fun mm i => writeBlock B mm (index * Z + i) (bucket.getD i (IDBlock.invalid B))) s.mem,
    reads := s.reads,
    writes := s.writes ++ [index] }

/-- FPGAPathORAM2::getNodeOnPath: start from the leaf bucket index
leaf + bucket_count/2 and fold (n+1)/2 - 1 for H - height steps. -/
def getNodeOnPath (H : Nat) (leaf height : Nat) : Nat :=
  (fun n => (n + 1) / 2 - 1)^[H - height] (leaf + bucket_count H / 2)

structure OState where
  position_map : Nat → Nat
  stash : ResourcePool (List Nat)
  rng : Nat

/-- FPGAPathORAM2::randomPath: advance the xorshift64 state and reduce mod
2^HeightL.  Returns (new rng state, leaf). -/
def randomPath (H : Nat) (rng : Nat) : Nat × Nat :=
  let x := xorshift64_generate rng
  (x, x % 2 ^ H)

/-- The emplace_empty-then-copy idiom used by stashBucket and by the Write
branch of access: copy the payload through the returned iterator when it
differs from end().  The Bool is false when the emplace was rejected. -/
def stashPut (H Z : Nat) (p : ResourcePool (List Nat)) (id : Nat) (d : List Nat) :
    ResourcePool (List Nat) × Bool :=
  let r := ResourcePool.emplace_empty (blkWidth H Z) (stashSize H Z) p id
  if r.2.1 ≠ 0 then
    ({ r.1 with res := updf r.1.res (r.2.1 - 1) d }, true)
  else (r.1, false)

/-- FPGAPathORAM2::stashBucket: move every non-sentinel block of a read
bucket into the stash. -/
def stashBucket (H Z : Nat) (p : ResourcePool (List Nat)) (bucket : List IDBlock) :
    ResourcePool (List Nat) × Bool :=
  bucket.foldl
    (fun acc blk =>
      if blk.id ≠ invalid_block then
        let r := stashPut H Z acc.1 blk.id blk.data
        (r.1, acc.2 && r.2)
      else acc)
    (p, true)

/-- One level of FPGAPathORAM2::readPath. -/
def readPathStep (H B Z : Nat) (leaf : Nat) (acc : OState × Srv × Bool) (l : Nat) :
    OState × Srv × Bool :=
  let rb := readBucket B Z acc.2.1 (getNodeOnPath H leaf l)
  let sb := stashBucket H Z acc.1.stash rb.2
  ({ acc.1 with stash := sb.1 }, rb.1, acc.2.2 && sb.2)

/-- FPGAPathORAM2::readPath: levels 0..HeightL, root to leaf. -/
def readPath (H B Z : Nat) (st : OState) (leaf : Nat) (srv : Srv) :
    OState × Srv × Bool :=
  (List.range (H + 1)).foldl (readPathStep H B Z leaf) (st, srv, true)

/-- FPGAPathORAM2::getIntersectingBlocks: scan the stash handles (the dense
array in reverse order; at a completely full stash the ap_int iterator
index wraps once but still visits each dense slot exactly once, which this
list also does) and keep the ids whose current position-map path meets the
accessed path at this height. -/
def getIntersectingBlocks (H Z : Nat) (st : OState) (leaf l : Nat) : List Nat :=
  (ResourcePool.handlesList (blkWidth H Z) st.stash).filter
    (fun id => decide (getNodeOnPath H (st.position_map id) l = getNodeOnPath H leaf l))

/-- FPGAPathORAM2::unstashBucket: fill min(valid_cnt, Z) slots from the stash
(at then erase), sentinel ids for the rest.  The Bool is the conjunction of
the assert(contains) preconditions of the at() calls. -/
def unstashBucket (H B Z : Nat) (p : ResourcePool (List Nat)) (valid : List Nat) :
    ResourcePool (List Nat) × List IDBlock × Bool :=
  let r := (valid.take Z).foldl
    (fun (acc : ResourcePool (List Nat) × List IDBlock × Bool) id =>
      (ResourcePool.erase (blkWidth H Z) acc.1 id,
       acc.2.1 ++ [⟨id, ResourcePool.at_ acc.1 id⟩],
       acc.2.2 && ResourcePool.contains (blkWidth H Z) acc.1 id))
    (p, [], true)
  (r.1, r.2.1 ++ List.replicate (Z - valid.length) (IDBlock.invalid B), r.2.2)

/-- One level of FPGAPathORAM2::writePath. -/
def writePathStep (H B Z : Nat) (leaf : Nat) (acc : OState × Srv × Bool) (l : Nat) :
    OState × Srv × Bool :=
  let u := unstashBucket H B Z acc.1.stash (getIntersectingBlocks H Z acc.1 leaf l)
  ({ acc.1 with stash := u.1 },
   writeBucket B Z acc.2.1 u.2.1 (getNodeOnPath H leaf l),
   acc.2.2 && u.2.2)

/-- FPGAPathORAM2::writePath: levels HeightL..0, leaf to root. -/
def writePath (H B Z : Nat) (st : OState) (leaf : Nat) (srv : Srv) :
    OState × Srv × Bool :=
  ((List.range (H + 1)).reverse).foldl (writePathStep H B Z leaf) (st, srv, true)

inductive ORAMOp where
  | Read : ORAMOp
  | Write : ORAMOp

structure AccessResult where
  state : OState
  srv : Srv
  buf : Nat → Nat
  ok : Bool
  fault : Bool

/-- The first half of FPGAPathORAM2::access: read the old leaf, overwrite the
position-map entry with a fresh random leaf, pull the old path into the
stash.  Returns (state, server, ok, old leaf). -/
def accessReadPhase (H B Z : Nat) (st : OState) (blk : Nat) (srv : Srv) :
    OState × Srv × Bool × Nat :=
  let leaf := st.position_map blk
  let rp := randomPath H st.rng
  let r := readPath H B Z
    { st with position_map := updf st.position_map blk rp.2, rng := rp.1 } leaf srv
  (r.1, r.2.1, r.2.2, leaf)

/-- FPGAPathORAM2::access. -/
def access (H B Z : Nat) (st : OState) (op : ORAMOp) (blk : Nat) (buf : Nat → Nat)
    (srv : Srv) : AccessResult :=
  let ph := accessReadPhase H B Z st blk srv
  match op with
  | ORAMOp.Read =>
    let buf2 :=
      if ResourcePool.contains (blkWidth H Z) ph.1.stash blk then
        fun i => if i < B then (ResourcePool.at_ ph.1.stash blk).getD i 0 else buf i
      else buf
    let wp := writePath H B Z ph.1 ph.2.2.2 ph.2.1
    ⟨wp.1, wp.2.1, buf2, ph.2.2.1, !wp.2.2⟩
  | ORAMOp.Write =>
    let sp := stashPut H Z ph.1.stash blk ((List.range B).map buf)
    let wp := writePath H B Z { ph.1 with stash := sp.1 } ph.2.2.2 ph.2.1
    ⟨wp.1, wp.2.1, buf, ph.2.2.1 && sp.2, !wp.2.2⟩

/-- FPGAPathORAM2::read. -/
def oramRead (H B Z : Nat) (st : OState) (blk : Nat) (buf : Nat → Nat) (srv : Srv) :
    AccessResult :=
  access H B Z st ORAMOp.Read blk buf srv

/-- FPGAPathORAM2::write. -/
def oramWrite (H B Z : Nat) (st : OState) (blk : Nat) (buf : Nat → Nat) (srv : Srv) :
    AccessResult :=
  access H B Z st ORAMOp.Write blk buf srv

/-- The sentinel-id initialization loop of FPGAPathORAM2::initServerMem. -/
def initServerMemBytes (H B Z : Nat) (m : Nat → Nat) : Nat → Nat :=
  (List.range (block_count_N H Z)).foldl
    (fun mm block =>
      (List.range 8).foldl
        (fun m2 i => updf m2 (block * (8 + B) + i) ((invalid_block >>> (i * 8)) % 256)) mm)
    m

/-- The position-map initialization loop of FPGAPathORAM2::initServerMem. -/
def initPositionMap (H Z : Nat) (pm : Nat → Nat) (rng : Nat) : (Nat → Nat) × Nat :=
  (List.range (block_count_N H Z)).foldl
    (fun acc i =>
      let rp := randomPath H acc.2
      (updf acc.1 i rp.2, rp.1))
    (pm, rng)

/-- The zero-initialized static stash (ResourcePool member). -/
def zeroStash : ResourcePool (List Nat) := ⟨⟨0, fun _ => 0, fun _ => 0⟩, fun _ => []⟩

/-- The zero-initialized static engine state. -/
def zeroState : OState := ⟨fun _ => 0, zeroStash, 0⟩

/-- initRNG(seed) followed by initServerMem(server_data) on the static
engine. -/
def oramInit (H B Z : Nat) (seed : Nat) (mem0 : Nat → Nat) : OState × Srv :=
  let pmr := initPositionMap H Z zeroState.position_map seed
  ({ position_map := pmr.1, stash := zeroState.stash, rng := pmr.2 },
   ⟨initServerMemBytes H B Z mem0, [], []⟩)

inductive TraceOp where
  | writeOp : Nat → List Nat → TraceOp
  | readOp : Nat → TraceOp

structure TraceResult where
  state : OState
  srv : Srv
  outs : List (List Nat)
  ok : Bool

/-- One trace step: a write presents the payload as the caller buffer, a
read uses a zero caller buffer and records the B bytes it returns. -/
def runOp (H B Z : Nat) (acc : TraceResult) (op : TraceOp) : TraceResult :=
  match op with
  | TraceOp.writeOp k p =>
    let r := oramWrite H B Z acc.state k (fun i => p.getD i 0) acc.srv
    ⟨r.state, r.srv, acc.outs, acc.ok && r.ok⟩
  | TraceOp.readOp k =>
    let r := oramRead H B Z acc.state k (fun _ => 0) acc.srv
    ⟨r.state, r.srv, acc.outs ++ [(List.range B).map r.buf], acc.ok && r.ok⟩

/-- Initialize with the given seed over an all-zero server memory, then run
the trace operations in order. -/
def runTrace (H B Z : Nat) (seed : Nat) (ops : List TraceOp) : TraceResult :=
  let ini := oramInit H B Z seed (fun _ => 0)
  ops.foldl (runOp H B Z) ⟨ini.1, ini.2, [], true⟩

/-- The byte range of bucket n in server memory. -/
def bucketBytes (B Z : Nat) (n a : Nat) : Prop :=
  n * Z * (8 + B) ≤ a ∧ a < (n + 1) * Z * (8 + B)

theorem foldl_updf_outside {α : Type} (keyf : Nat → Nat) (valf : Nat → α) :
    ∀ (l : List Nat) (f : Nat → α) (a : Nat), (∀ i ∈ l, keyf i ≠ a) →
      (l.foldl (fun mm i => updf mm (keyf i) (valf i)) f) a = f a := by
  intro l
  induction l with
  | nil => intro f a _; rfl
  | cons x xs ih =>
    intro f a h
    simp only [List.foldl_cons]
    rw [ih _ a (fun i hi => h i (List.mem_cons_of_mem _ hi))]
    exact updf_other _ _ _ _ (Ne.symm (h x (List.mem_cons_self _ _)))

theorem writeBlock_outside (B : Nat) (m : Nat → Nat) (idx : Nat) (blk : IDBlock) (a : Nat)
    (h : a < idx * (8 + B) ∨ idx * (8 + B) + 8 + B ≤ a) :
    writeBlock B m idx blk a = m a := by
  rw [writeBlock]
  have h2 := foldl_updf_outside (fun i => idx * (8 + B) + 8 + i)
    (fun i => blk.data.getD i 0) (List.range B)
    ((List.range 8).foldl
      (fun mm i => updf mm (idx * (8 + B) + i) ((blk.id >>> (i * 8)) % 256)) m) a
    (by intro i hi; rw [List.mem_range] at hi; dsimp only; omega)
  have h1 := foldl_updf_outside (fun i => idx * (8 + B) + i)
    (fun i => (blk.id >>> (i * 8)) % 256) (List.range 8) m a
    (by intro i hi; rw [List.mem_range] at hi; dsimp only; omega)
  exact h2.trans h1

theorem foldl_writeBlock_outside (B : Nat) (idxf : Nat → Nat) (blkf : Nat → IDBlock) :
    ∀ (l : List Nat) (m : Nat → Nat) (a : Nat),
      (∀ i ∈ l, a < idxf i * (8 + B) ∨ idxf i * (8 + B) + 8 + B ≤ a) →
      (l.foldl (fun mm i => writeBlock B mm (idxf i) (blkf i)) m) a = m a := by
  intro l
  induction l with
  | nil => intro m a _; rfl
  | cons x xs ih =>
    intro m a h
    simp only [List.foldl_cons]
    rw [ih _ a (fun i hi => h i (List.mem_cons_of_mem _ hi))]
    exact writeBlock_outside B m (idxf x) (blkf x) a (h x (List.mem_cons_self _ _))

theorem writeBucket_mem_outside (B Z : Nat) (s : Srv) (bucket : List IDBlock) (n a : Nat)
    (h : ¬ bucketBytes B Z n a) :
    (writeBucket B Z s bucket n).mem a = s.mem a := by
  rw [writeBucket]
  dsimp only
  apply foldl_writeBlock_outside
  intro i hi
  rw [List.mem_range] at hi
  rw [bucketBytes] at h
  push_neg at h
  rcases Nat.lt_or_ge a (n * Z * (8 + B)) with hlo | hhi
  · left
    calc a < n * Z * (8 + B) := hlo
      _ ≤ (n * Z + i) * (8 + B) := Nat.mul_le_mul_right _ (by omega)
  · right
    have hup := h hhi
    calc (n * Z + i) * (8 + B) + 8 + B = (n * Z + i + 1) * (8 + B) := by ring
      _ ≤ ((n + 1) * Z) * (8 + B) := Nat.mul_le_mul_right _ (by
          have : i + 1 ≤ Z := by omega
          calc n * Z + i + 1 ≤ n * Z + Z := by omega
            _ = (n + 1) * Z := by ring)
      _ = (n + 1) * Z * (8 + B) := by ring
      _ ≤ a := hup

theorem writeBucket_reads (B Z : Nat) (s : Srv) (bucket : List IDBlock) (n : Nat) :
    (writeBucket B Z s bucket n).reads = s.reads ∧
    (writeBucket B Z s bucket n).writes = s.writes ++ [n] := ⟨rfl, rfl⟩

/-- Invariance of the readPath fold: position map, rng, server bytes and the
write log are untouched; the read log grows by the bucket on the path at
each level processed. -/
theorem readPath_foldl_keeps (H B Z leaf : Nat) :
    ∀ (ls : List Nat) (acc : OState × Srv × Bool),
      (ls.foldl (readPathStep H B Z leaf) acc).1.position_map = acc.1.position_map ∧
      (ls.foldl (readPathStep H B Z leaf) acc).1.rng = acc.1.rng ∧
      (ls.foldl (readPathStep H B Z leaf) acc).2.1.mem = acc.2.1.mem ∧
      (ls.foldl (readPathStep H B Z leaf) acc).2.1.writes = acc.2.1.writes ∧
      (ls.foldl (readPathStep H B Z leaf) acc).2.1.reads
        = acc.2.1.reads ++ ls.map (getNodeOnPath H leaf) := by
  intro ls
  induction ls with
  | nil => intro acc; exact ⟨rfl, rfl, rfl, rfl, by simp⟩
  | cons x xs ih =>
    intro acc
    simp only [List.foldl_cons]
    rcases ih (readPathStep H B Z leaf acc x) with ⟨h1, h2, h3, h4, h5⟩
    refine ⟨h1.trans rfl, h2.trans rfl, h3.trans rfl, h4.trans rfl, ?_⟩
    rw [h5]
    simp [readPathStep, readBucket]

/-- Invariance of the writePath fold: position map, rng and the read log are
untouched; the write log grows by the bucket on the path at each level
processed. -/
theorem writePath_foldl_keeps (H B Z leaf : Nat) :
    ∀ (ls : List Nat) (acc : OState × Srv × Bool),
      (ls.foldl (writePathStep H B Z leaf) acc).1.position_map = acc.1.position_map ∧
      (ls.foldl (writePathStep H B Z leaf) acc).1.rng = acc.1.rng ∧
      (ls.foldl (writePathStep H B Z leaf) acc).2.1.reads = acc.2.1.reads ∧
      (ls.foldl (writePathStep H B Z leaf) acc).2.1.writes
        = acc.2.1.writes ++ ls.map (getNodeOnPath H leaf) := by
  intro ls
  induction ls with
  | nil => intro acc; exact ⟨rfl, rfl, rfl, by simp⟩
  | cons x xs ih =>
    intro acc
    simp only [List.foldl_cons]
    rcases ih (writePathStep H B Z leaf acc x) with ⟨h1, h2, h3, h4⟩
    refine ⟨h1.trans rfl, h2.trans rfl, h3.trans rfl, ?_⟩
    rw [h4]
    simp [writePathStep, writeBucket]

/-- Frame property of the writePath fold over server bytes. -/
theorem writePath_foldl_mem_outside (H B Z leaf : Nat) :
    ∀ (ls : List Nat) (acc : OState × Srv × Bool) (a : Nat),
      (∀ l ∈ ls, ¬ bucketBytes B Z (getNodeOnPath H leaf l) a) →
      (ls.foldl (writePathStep H B Z leaf) acc).2.1.mem a = acc.2.1.mem a := by
  intro ls
  induction ls with
  | nil => intro acc a _; rfl
  | cons x xs ih =>
    intro acc a h
    simp only [List.foldl_cons]
    rw [ih _ a (fun l hl => h l (List.mem_cons_of_mem _ hl))]
    exact writeBucket_mem_outside B Z _ _ _ a (h x (List.mem_cons_self _ _))

theorem bucket_count_div2 (H : Nat) : bucket_count H / 2 = 2 ^ H - 1 := by
  rw [bucket_count]
  have h1 : 1 ≤ 2 ^ H := Nat.one_le_two_pow
  have h2 : 2 ^ (H + 1) = 2 * 2 ^ H := by rw [Nat.pow_succ]; ring
  omega

/-- The bucket on the path of leaf x at height l lies in the index range of
tree level l. -/
theorem getNodeOnPath_bounds (H x : Nat) (hx : x < 2 ^ H) :
    ∀ d l, l + d = H →
      2 ^ l - 1 ≤ getNodeOnPath H x l ∧ getNodeOnPath H x l < 2 ^ (l + 1) - 1 := by
  intro d
  induction d with
  | zero =>
    intro l hl
    have hlH : l = H := by omega
    subst hlH
    rw [getNodeOnPath, Nat.sub_self, Function.iterate_zero_apply, bucket_count_div2]
    have h1 : 1 ≤ 2 ^ l := Nat.one_le_two_pow
    have h2 : 2 ^ (l + 1) = 2 * 2 ^ l := by rw [Nat.pow_succ]; ring
    omega
  | succ d ih =>
    intro l hl
    have hstep : getNodeOnPath H x l = (fun n => (n + 1) / 2 - 1) (getNodeOnPath H x (l + 1)) := by
      rw [getNodeOnPath, getNodeOnPath]
      have hd1 : H - l = (H - (l + 1)) + 1 := by omega
      rw [hd1, Function.iterate_succ_apply']
    rcases ih (l + 1) (by omega) with ⟨hlo, hhi⟩
    rw [hstep]
    dsimp only
    have h1 : 1 ≤ 2 ^ l := Nat.one_le_two_pow
    have h2 : 2 ^ (l + 1) = 2 * 2 ^ l := by rw [Nat.pow_succ]; ring
    have h3 : 2 ^ (l + 2) = 2 * 2 ^ (l + 1) := by rw [Nat.pow_succ]; ring
    omega

/-- The H + 1 buckets of one path are pairwise distinct. -/
theorem pathNodes_nodup (H x : Nat) (hx : x < 2 ^ H) :
    ((List.range (H + 1)).map (getNodeOnPath H x)).Nodup := by
  apply List.Nodup.map_on
  · intro l1 h1 l2 h2 he
    rw [List.mem_range] at h1 h2
    by_contra hne
    rcases Nat.lt_or_ge l1 l2 with hlt | hge
    · rcases getNodeOnPath_bounds H x hx (H - l1) l1 (by omega) with ⟨_, b1⟩
      rcases getNodeOnPath_bounds H x hx (H - l2) l2 (by omega) with ⟨b2, _⟩
      have : 2 ^ (l1 + 1) ≤ 2 ^ l2 := Nat.pow_le_pow_right (by omega) (by omega)
      omega
    · have hlt2 : l2 < l1 := by omega
      rcases getNodeOnPath_bounds H x hx (H - l2) l2 (by omega) with ⟨_, b1⟩
      rcases getNodeOnPath_bounds H x hx (H - l1) l1 (by omega) with ⟨b2, _⟩
      have : 2 ^ (l2 + 1) ≤ 2 ^ l1 := Nat.pow_le_pow_right (by omega) (by omega)
      omega
  · exact List.nodup_range _

/-- Components of one access: the position map is updated exactly at blk with
the leaf sampled from the pre-access rng state; the read log grows by the
path of the old position-map entry root to leaf; the write log by the same
path leaf to root; server bytes outside the path buckets are untouched. -/
theorem access_components (H B Z : Nat) (st : OState) (op : ORAMOp) (blk : Nat)
    (buf : Nat → Nat) (srv : Srv) :
    (access H B Z st op blk buf srv).state.position_map
      = updf st.position_map blk (randomPath H st.rng).2 ∧
    (access H B Z st op blk buf srv).srv.reads
      = srv.reads ++ (List.range (H + 1)).map (getNodeOnPath H (st.position_map blk)) ∧
    (access H B Z st op blk buf srv).srv.writes
      = srv.writes
        ++ ((List.range (H + 1)).map (getNodeOnPath H (st.position_map blk))).reverse ∧
    (∀ a, (∀ l, l ≤ H → ¬ bucketBytes B Z (getNodeOnPath H (st.position_map blk) l) a) →
        (access H B Z st op blk buf srv).srv.mem a = srv.mem a) := by
  have hleaf : (accessReadPhase H B Z st blk srv).2.2.2 = st.position_map blk := rfl
  have hph1 : (accessReadPhase H B Z st blk srv).1
      = ((List.range (H + 1)).foldl (readPathStep H B Z (st.position_map blk))
          ({ st with position_map := updf st.position_map blk (randomPath H st.rng).2,
                     rng := (randomPath H st.rng).1 }, srv, true)).1 := rfl
  have hph2 : (accessReadPhase H B Z st blk srv).2.1
      = ((List.range (H + 1)).foldl (readPathStep H B Z (st.position_map blk))
          ({ st with position_map := updf st.position_map blk (randomPath H st.rng).2,
                     rng := (randomPath H st.rng).1 }, srv, true)).2.1 := rfl
  have hrp := readPath_foldl_keeps H B Z (st.position_map blk) (List.range (H + 1))
    ({ st with position_map := updf st.position_map blk (randomPath H st.rng).2,
               rng := (randomPath H st.rng).1 }, srv, true)
  cases op with
  | Read =>
    have hstate : (access H B Z st ORAMOp.Read blk buf srv).state
        = (writePath H B Z (accessReadPhase H B Z st blk srv).1
            (accessReadPhase H B Z st blk srv).2.2.2
            (accessReadPhase H B Z st blk srv).2.1).1 := rfl
    have hsrv : (access H B Z st ORAMOp.Read blk buf srv).srv
        = (writePath H B Z (accessReadPhase H B Z st blk srv).1
            (accessReadPhase H B Z st blk srv).2.2.2
            (accessReadPhase H B Z st blk srv).2.1).2.1 := rfl
    rcases writePath_foldl_keeps H B Z (st.position_map blk) ((List.range (H + 1)).reverse)
      ((accessReadPhase H B Z st blk srv).1, (accessReadPhase H B Z st blk srv).2.1, true)
      with ⟨w1, _, w3, w4⟩
    rw [writePath, hleaf] at hstate hsrv
    refine ⟨?_, ?_, ?_, ?_⟩
    · rw [hstate, w1, hph1, hrp.1]
    · rw [hsrv, w3, hph2, hrp.2.2.2.2]
    · rw [hsrv, w4, hph2]
      rcases hrp.2.2.2 with ⟨hw, _⟩
      rw [hw, List.map_reverse]
    · intro a ha
      rw [hsrv]
      have hfr := writePath_foldl_mem_outside H B Z (st.position_map blk)
        ((List.range (H + 1)).reverse)
        ((accessReadPhase H B Z st blk srv).1, (accessReadPhase H B Z st blk srv).2.1, true) a
        (by
          intro l hl
          rw [List.mem_reverse, List.mem_range] at hl
          exact ha l (by omega))
      rw [hfr, hph2, hrp.2.2.1]
  | Write =>
    have hstate : (access H B Z st ORAMOp.Write blk buf srv).state
        = (writePath H B Z
            { (accessReadPhase H B Z st blk srv).1 with
                stash := (stashPut H Z (accessReadPhase H B Z st blk srv).1.stash blk
                  ((List.range B).map buf)).1 }
            (accessReadPhase H B Z st blk srv).2.2.2
            (accessReadPhase H B Z st blk srv).2.1).1 := rfl
    have hsrv : (access H B Z st ORAMOp.Write blk buf srv).srv
        = (writePath H B Z
            { (accessReadPhase H B Z st blk srv).1 with
                stash := (stashPut H Z (accessReadPhase H B Z st blk srv).1.stash blk
                  ((List.range B).map buf)).1 }
            (accessReadPhase H B Z st blk srv).2.2.2
            (accessReadPhase H B Z st blk srv).2.1).2.1 := rfl
    rcases writePath_foldl_keeps H B Z (st.position_map blk) ((List.range (H + 1)).reverse)
      ({ (accessReadPhase H B Z st blk srv).1 with
          stash := (stashPut H Z (accessReadPhase H B Z st blk srv).1.stash blk
            ((List.range B).map buf)).1 },
        (accessReadPhase H B Z st blk srv).2.1, true)
      with ⟨w1, _, w3, w4⟩
    rw [writePath, hleaf] at hstate hsrv
    refine ⟨?_, ?_, ?_, ?_⟩
    · rw [hstate, w1]
      show (accessReadPhase H B Z st blk srv).1.position_map = _
      rw [hph1, hrp.1]
    · rw [hsrv, w3, hph2, hrp.2.2.2.2]
    · rw [hsrv, w4, hph2]
      rcases hrp.2.2.2 with ⟨hw, _⟩
      rw [hw, List.map_reverse]
    · intro a ha
      rw [hsrv]
      have hfr := writePath_foldl_mem_outside H B Z (st.position_map blk)
        ((List.range (H + 1)).reverse)
        ({ (accessReadPhase H B Z st blk srv).1 with
            stash := (stashPut H Z (accessReadPhase H B Z st blk srv).1.stash blk
              ((List.range B).map buf)).1 },
          (accessReadPhase H B Z st blk srv).2.1, true) a
        (by
          intro l hl
          rw [List.mem_reverse, List.mem_range] at hl
          exact ha l (by omega))
      rw [hfr]
      show (accessReadPhase H B Z st blk srv).2.1.mem a = _
      rw [hph2, hrp.2.2.1]

/-- C6: every access overwrites the position-map entry of the accessed block
with a leaf sampled from the pre-access rng state (hence fixed before any
bucket is read: the read log is determined by the old entry alone), the
fresh leaf lies in [0, 2^HeightL), and every other position-map entry is
unchanged when access returns. -/
theorem c6_position_map_update (H B Z : Nat) (st : OState) (op : ORAMOp) (blk : Nat)
    (buf : Nat → Nat) (srv : Srv) :
    (access H B Z st op blk buf srv).state.position_map blk = (randomPath H st.rng).2 ∧
    (randomPath H st.rng).2 < 2 ^ H ∧
    (∀ j, j ≠ blk →
      (access H B Z st op blk buf srv).state.position_map j = st.position_map j) ∧
    (access H B Z st op blk buf srv).srv.reads
      = srv.reads ++ (List.range (H + 1)).map (getNodeOnPath H (st.position_map blk)) := by
  rcases access_components H B Z st op blk buf srv with ⟨h1, h2, _, _⟩
  refine ⟨?_, ?_, ?_, h2⟩
  · rw [h1, updf_same]
  · exact Nat.mod_lt _ (Nat.pos_pow_of_pos _ (by omega))
  · intro j hj
    rw [h1, updf_other _ _ _ _ hj]

/-- C5: with x the position-map entry of blk at entry (x < 2^HeightL), the
buckets read are exactly nodeOnPath(x, l) for l = 0..L in root-to-leaf
order, the buckets written are the same path in leaf-to-root order, the
path buckets are pairwise distinct, 2(L+1) bucket transfers happen in
total, and every server byte outside those buckets is unchanged. -/
theorem c5_access_touches_path_only (H B Z : Nat) (st : OState) (op : ORAMOp) (blk : Nat)
    (buf : Nat → Nat) (srv : Srv) (hx : st.position_map blk < 2 ^ H) :
    (access H B Z st op blk buf srv).srv.reads
      = srv.reads ++ (List.range (H + 1)).map (getNodeOnPath H (st.position_map blk)) ∧
    (access H B Z st op blk buf srv).srv.writes
      = srv.writes
        ++ ((List.range (H + 1)).map (getNodeOnPath H (st.position_map blk))).reverse ∧
    ((List.range (H + 1)).map (getNodeOnPath H (st.position_map blk))).Nodup ∧
    (access H B Z st op blk buf srv).srv.reads.length
        + (access H B Z st op blk buf srv).srv.writes.length
      = srv.reads.length + srv.writes.length + 2 * (H + 1) ∧
    (∀ a, (∀ l, l ≤ H → ¬ bucketBytes B Z (getNodeOnPath H (st.position_map blk) l) a) →
        (access H B Z st op blk buf srv).srv.mem a = srv.mem a) := by
  rcases access_components H B Z st op blk buf srv with ⟨_, h2, h3, h4⟩
  refine ⟨h2, h3, pathNodes_nodup H _ hx, ?_, h4⟩
  rw [h2, h3]
  simp only [List.length_append, List.length_map, List.length_reverse, List.length_range]
  omega

/-- C5 witness: the path shape applied to the zero state of the smallest
engine (HeightL = 1, B = 1, Z = 1), block 0, whose position-map entry 0 is
below 2^1; the read log is the concrete path [root, leaf]. -/
theorem c5_access_touches_path_only_witness :
    zeroState.position_map 0 < 2 ^ 1 ∧
    (access 1 1 1 zeroState ORAMOp.Read 0 (fun _ => 0) ⟨fun _ => 0, [], []⟩).srv.reads
      = [] ++ (List.range 2).map (getNodeOnPath 1 (zeroState.position_map 0)) :=
  ⟨by decide,
   (c5_access_touches_path_only 1 1 1 zeroState ORAMOp.Read 0 (fun _ => 0)
     ⟨fun _ => 0, [], []⟩ (by decide)).1⟩

/-- C1 counterexample: for the engine FPGAPathORAM2<1, 1> (HeightL = 1,
BlockSizeB = 1, default Z = 4) the stash capacity constant is
ceil_int_log2(12) << 2 = 16 = 2^4, exactly the power of the handle width,
so ResourcePool::capacity() truncates to 0 and every stash emplace is
rejected.  After initialization, write(0, [7]) immediately followed by
read(0) returns 0, not 7 - with no intervening accesses at all.  The ok
flag records that a stash emplace was rejected during the trace. -/
theorem c1_roundtrip_cex :
    (runTrace 1 1 4 1 [TraceOp.writeOp 0 [7], TraceOp.readOp 0]).outs = [[0]] ∧
    (runTrace 1 1 4 1 [TraceOp.writeOp 0 [7], TraceOp.readOp 0]).ok = false := by decide

/-- C2 counterexample: on the same degenerate engine, after the single access
write(0, [7]) returns, the previously-written block 0 has no copy anywhere:
the stash does not contain it (the stash stayed empty, far below its
capacity constant C = 16) and no server block slot carries id 0. -/
theorem c2_exactly_one_copy_cex :
    ResourcePool.contains (blkWidth 1 4)
      (runTrace 1 1 4 1 [TraceOp.writeOp 0 [7]]).state.stash 0 = false ∧
    (runTrace 1 1 4 1 [TraceOp.writeOp 0 [7]]).state.stash.ss.dense_size = 0 ∧
    stashSize 1 4 = 16 ∧
    (∀ idx, idx < block_count_N 1 4 →
      (readBlock 1 (runTrace 1 1 4 1 [TraceOp.writeOp 0 [7]]).srv.mem idx).id ≠ 0) := by
  decide

/-!
Lemma battery on SparseSet and ResourcePool states used by the Path-ORAM
invariant proofs: well-formedness preservation and the abstract view of
insert, erase and the emplace-then-copy idiom.
-/

theorem SparseSet.erase_WF (SparseSize DenseSize : Nat) (s : SparseSet)
    (hwf : s.WF SparseSize DenseSize) (k : Nat) :
    (s.erase SparseSize k).WF SparseSize DenseSize := by
  rw [SparseSet.erase]
  by_cases hc : s.contains SparseSize k = true
  · rw [if_pos hc]
    rw [SparseSet.contains_eq_true_iff] at hc
    rcases hc with ⟨hk, hlt, heq⟩
    constructor
    · exact Nat.le_trans (Nat.sub_le _ _) hwf.1
    · intro i hi
      dsimp only at hi ⊢
      have hi2 : i < s.dense_size := by omega
      by_cases hik : i = s.sparse k
      · -- the slot that received the old last entry
        subst hik
        rw [updf_same]
        have hlast := hwf.2 (s.dense_size - 1) (by omega)
        refine ⟨hlast.1, ?_⟩
        rw [updf_same]
      · rw [updf_other _ _ _ _ hik]
        have hcur := hwf.2 i hi2
        refine ⟨hcur.1, ?_⟩
        have hne : s.dense i ≠ s.dense (s.dense_size - 1) := by
          intro he
          have h1 := (hwf.2 i hi2).2
          have h2 := (hwf.2 (s.dense_size - 1) (by omega)).2
          rw [he, h2] at h1
          omega
        rw [updf_other _ _ _ _ hne]
        exact hcur.2
  · rw [if_neg hc]
    exact hwf

theorem SparseSet.erase_contains_other (SparseSize DenseSize : Nat) (s : SparseSet)
    (hwf : s.WF SparseSize DenseSize) (k j : Nat) (hne : j ≠ k) :
    (s.erase SparseSize k).contains SparseSize j = s.contains SparseSize j := by
  rw [SparseSet.erase]
  by_cases hc : s.contains SparseSize k = true
  · rw [if_pos hc]
    rw [SparseSet.contains_eq_true_iff] at hc
    rcases hc with ⟨hk, hlt, heq⟩
    by_cases hjl : j = s.dense (s.dense_size - 1)
    · -- j was the last dense entry (and is not k)
      have hlast := hwf.2 (s.dense_size - 1) (by omega)
      have hsj : s.sparse j = s.dense_size - 1 := by rw [hjl]; exact hlast.2
      have hcontain : s.contains SparseSize j = true := by
        rw [SparseSet.contains_eq_true_iff]
        exact ⟨by rw [hjl]; exact hlast.1, by omega, by rw [hsj, ← hjl]⟩
      rw [hcontain, SparseSet.contains_eq_true_iff]
      have hdne : s.sparse k ≠ s.dense_size - 1 := by
        intro he
        apply hne
        rw [hjl, ← he, heq]
      refine ⟨by rw [hjl]; exact hlast.1, ?_, ?_⟩
      · dsimp only
        rw [hjl, updf_same]
        omega
      · dsimp only
        rw [hjl, updf_same, updf_same]
    · -- j keeps its slot
      have hsj : (updf s.sparse (s.dense (s.dense_size - 1)) (s.sparse k)) j = s.sparse j :=
        updf_other _ _ _ _ hjl
      by_cases hcj : s.contains SparseSize j = true
      · rw [hcj]
        have hj := hcj
        rw [SparseSet.contains_eq_true_iff] at hj
        rcases hj with ⟨hj1, hj2, hj3⟩
        have hjne_last : s.sparse j ≠ s.dense_size - 1 := by
          intro he
          apply hjl
          rw [← hj3, he]
        have hjne_d : s.sparse j ≠ s.sparse k := by
          intro he
          apply hne
          rw [← hj3, he, heq]
        rw [SparseSet.contains_eq_true_iff]
        refine ⟨hj1, ?_, ?_⟩
        · dsimp only
          rw [hsj]
          omega
        · dsimp only
          rw [hsj, updf_other _ _ _ _ hjne_d]
          exact hj3
      · rw [Bool.eq_false_iff.2 (fun he => hcj he), Bool.eq_false_iff]
        intro hafter
        apply hcj
        rw [SparseSet.contains_eq_true_iff] at hafter ⊢
        rcases hafter with ⟨ha1, ha2, ha3⟩
        dsimp only at ha2 ha3
        rw [hsj] at ha2 ha3
        by_cases hsd : s.sparse j = s.sparse k
        · rw [hsd, updf_same] at ha3
          exact absurd ha3.symm hjl
        · rw [updf_other _ _ _ _ hsd] at ha3
          exact ⟨ha1, by omega, ha3⟩
  · rw [if_neg hc]

theorem SparseSet.insert_WF (SparseSize DenseSize : Nat) (s : SparseSet)
    (hwf : s.WF SparseSize DenseSize) (k : Nat) (hk : k < SparseSize)
    (hroom : s.dense_size < DenseSize) :
    (s.insert SparseSize DenseSize k).WF SparseSize DenseSize := by
  rw [SparseSet.insert]
  rw [if_neg (by omega)]
  by_cases hc : s.contains SparseSize k = true
  · rw [if_pos hc]
    exact hwf
  · rw [if_neg hc]
    have hmod : s.dense_size % 2 ^ ceil_int_log2 DenseSize = s.dense_size :=
      Nat.mod_eq_of_lt (Nat.lt_of_lt_of_le hroom (le_pow_ceil_int_log2 DenseSize))
    constructor
    · dsimp only
      omega
    · intro i hi
      dsimp only at hi ⊢
      by_cases hil : i = s.dense_size
      · subst hil
        rw [updf_same]
        refine ⟨hk, ?_⟩
        rw [updf_same, hmod]
      · have hi2 : i < s.dense_size := by omega
        have hcur := hwf.2 i hi2
        rw [updf_other _ _ _ _ hil]
        refine ⟨hcur.1, ?_⟩
        have hne : s.dense i ≠ k := by
          intro he
          apply hc
          rw [← he]
          exact SparseSet.contains_of_mem SparseSize DenseSize s hwf i hi2
        rw [updf_other _ _ _ _ hne]
        exact hcur.2

theorem SparseSet.insert_contains_other (SparseSize DenseSize : Nat) (s : SparseSet)
    (k j : Nat) (hne : j ≠ k) :
    (s.insert SparseSize DenseSize k).contains SparseSize j = s.contains SparseSize j := by
  rw [SparseSet.insert]
  by_cases hks : k ≥ SparseSize
  · rw [if_pos hks]
  · rw [if_neg hks]
    by_cases hc : s.contains SparseSize k = true
    · rw [if_pos hc]
    · rw [if_neg hc]
      by_cases hcj : s.contains SparseSize j = true
      · rw [hcj]
        have hj := hcj
        rw [SparseSet.contains_eq_true_iff] at hj
        rcases hj with ⟨hj1, hj2, hj3⟩
        have hsne : s.sparse j ≠ s.dense_size := by omega
        rw [SparseSet.contains_eq_true_iff]
        refine ⟨hj1, ?_, ?_⟩
        · dsimp only
          rw [updf_other _ _ _ _ hne]
          omega
        · dsimp only
          rw [updf_other _ _ _ _ hne, updf_other _ _ _ _ hsne]
          exact hj3
      · rw [Bool.eq_false_iff.2 (fun he => hcj he), Bool.eq_false_iff]
        intro hafter
        apply hcj
        rw [SparseSet.contains_eq_true_iff] at hafter ⊢
        rcases hafter with ⟨ha1, ha2, ha3⟩
        dsimp only at ha2 ha3
        rw [updf_other _ _ _ _ hne] at ha2 ha3
        by_cases hsd : s.sparse j = s.dense_size
        · rw [hsd, updf_same] at ha3
          exact absurd ha3.symm hne
        · rw [updf_other _ _ _ _ hsd] at ha3
          exact ⟨ha1, by omega, ha3⟩

/-!
Byte-level lemmas: reading a block back after writing it recovers the
block, and block writes are invisible outside their byte range.
-/

theorem foldl_updf_at {α : Type} (keyf : Nat → Nat) (valf : Nat → α) :
    ∀ (l : List Nat) (f : Nat → α) (i0 : Nat), i0 ∈ l →
      (∀ i ∈ l, ∀ j ∈ l, keyf i = keyf j → i = j) → l.Nodup →
      (l.foldl (fun mm i => updf mm (keyf i) (valf i)) f) (keyf i0) = valf i0 := by
  intro l
  induction l with
  | nil => intro f i0 h; cases h
  | cons x xs ih =>
    intro f i0 hmem hinj hnd
    simp only [List.foldl_cons]
    rcases List.mem_cons.1 hmem with he | hm
    · subst he
      have hout : ∀ i ∈ xs, keyf i ≠ keyf i0 := by
        intro i hi he
        have : i = i0 := hinj i (List.mem_cons_of_mem _ hi) i0 (List.mem_cons_self _ _) he
        subst this
        exact (List.nodup_cons.1 hnd).1 hi
      rw [foldl_updf_outside keyf valf xs _ _ hout]
      exact updf_same _ _ _
    · exact ih _ i0 hm
        (fun i hi j hj he => hinj i (List.mem_cons_of_mem _ hi) j (List.mem_cons_of_mem _ hj) he)
        (List.nodup_cons.1 hnd).2

/-- Little-endian byte decomposition: oring the shifted bytes of x back
together recovers x mod 2^(8n). -/
theorem decode_bytes_eq (x : Nat) :
    ∀ n, (List.range n).foldl (fun acc i => acc ||| (((x >>> (i * 8)) % 256) <<< (i * 8))) 0
      = x % 2 ^ (n * 8) := by
  intro n
  induction n with
  | zero => simp [Nat.mod_one]
  | succ n ih =>
    rw [List.range_succ, List.foldl_append, ih]
    simp only [List.foldl_cons, List.foldl_nil]
    apply Nat.eq_of_testBit_eq
    intro j
    have h256 : (256 : Nat) = 2 ^ 8 := by norm_num
    rw [h256]
    simp only [Nat.testBit_or, Nat.testBit_shiftLeft, Nat.testBit_mod_two_pow,
      Nat.testBit_shiftRight]
    rcases Nat.lt_or_ge j (n * 8) with h1 | h1
    · have e1 : j < (n + 1) * 8 := by omega
      simp [h1, e1, show ¬ j ≥ n * 8 by omega]
    · rcases Nat.lt_or_ge j ((n + 1) * 8) with h2 | h2
      · have e3 : j - n * 8 < 8 := by omega
        have e4 : n * 8 + (j - n * 8) = j := by omega
        simp [show ¬ j < n * 8 by omega, h1, h2, e3, e4]
      · have e3 : ¬ (j - n * 8 < 8) := by omega
        simp [show ¬ j < n * 8 by omega, h1, e3, show ¬ j < (n + 1) * 8 by omega]

/-- readBlock depends only on the bytes of its own block. -/
theorem readBlock_congr (B : Nat) (m1 m2 : Nat → Nat) (idx : Nat)
    (h : ∀ a, idx * (8 + B) ≤ a → a < idx * (8 + B) + 8 + B → m1 a = m2 a) :
    readBlock B m1 idx = readBlock B m2 idx := by
  rw [readBlock, readBlock]
  have hid : decodeId m1 (idx * (8 + B)) = decodeId m2 (idx * (8 + B)) := by
    rw [decodeId, decodeId]
    apply List.foldl_ext
    intro acc i hi
    rw [List.mem_range] at hi
    rw [h (idx * (8 + B) + i) (by omega) (by omega)]
  have hdata : (List.range B).map (fun i => m1 (idx * (8 + B) + 8 + i))
      = (List.range B).map (fun i => m2 (idx * (8 + B) + 8 + i)) := by
    apply List.map_congr_left
    intro i hi
    rw [List.mem_range] at hi
    exact h (idx * (8 + B) + 8 + i) (by omega) (by omega)
  rw [hid, hdata]

/-- Reading back the block just written recovers it (ids below 2^64, payload
of length B). -/
theorem readBlock_writeBlock_same (B : Nat) (m : Nat → Nat) (idx : Nat) (blk : IDBlock)
    (hid : blk.id < 2 ^ 64) (hlen : blk.data.length = B) :
    readBlock B (writeBlock B m idx blk) idx = blk := by
  rw [writeBlock, readBlock]
  have hkey1 : ∀ i ∈ List.range 8, ∀ j ∈ List.range 8,
      idx * (8 + B) + i = idx * (8 + B) + j → i = j := by
    intro i _ j _ h; omega
  have hkey2 : ∀ i ∈ List.range B, ∀ j ∈ List.range B,
      idx * (8 + B) + 8 + i = idx * (8 + B) + 8 + j → i = j := by
    intro i _ j _ h; omega
  have hidbytes : ∀ i, i < 8 →
      ((List.range B).foldl
        (fun mm i => updf mm (idx * (8 + B) + 8 + i) (blk.data.getD i 0))
        ((List.range 8).foldl
          (fun mm i => updf mm (idx * (8 + B) + i) ((blk.id >>> (i * 8)) % 256)) m))
        (idx * (8 + B) + i)
      = (blk.id >>> (i * 8)) % 256 := by
    intro i hi
    have h1 := foldl_updf_outside (fun q => idx * (8 + B) + 8 + q)
      (fun q => blk.data.getD q 0) (List.range B)
      ((List.range 8).foldl
        (fun mm q => updf mm (idx * (8 + B) + q) ((blk.id >>> (q * 8)) % 256)) m)
      (idx * (8 + B) + i)
      (by intro q hq; rw [List.mem_range] at hq; dsimp only; omega)
    have h2 := foldl_updf_at (fun q => idx * (8 + B) + q)
      (fun q => (blk.id >>> (q * 8)) % 256) (List.range 8) m i
      (List.mem_range.2 hi) hkey1 (List.nodup_range _)
    exact h1.trans h2
  have hdatabytes : ∀ i, i < B →
      ((List.range B).foldl
        (fun mm i => updf mm (idx * (8 + B) + 8 + i) (blk.data.getD i 0))
        ((List.range 8).foldl
          (fun mm i => updf mm (idx * (8 + B) + i) ((blk.id >>> (i * 8)) % 256)) m))
        (idx * (8 + B) + 8 + i)
      = blk.data.getD i 0 := by
    intro i hi
    exact foldl_updf_at (fun q => idx * (8 + B) + 8 + q) (fun q => blk.data.getD q 0)
      (List.range B) _ i (List.mem_range.2 hi) hkey2 (List.nodup_range _)
  have hidpart : decodeId
      ((List.range B).foldl
        (fun mm i => updf mm (idx * (8 + B) + 8 + i) (blk.data.getD i 0))
        ((List.range 8).foldl
          (fun mm i => updf mm (idx * (8 + B) + i) ((blk.id >>> (i * 8)) % 256)) m))
      (idx * (8 + B)) = blk.id := by
    rw [decodeId]
    have hcg : (List.range 8).foldl
        (fun acc i => acc |||
          (((List.range B).foldl
            (fun mm i => updf mm (idx * (8 + B) + 8 + i) (blk.data.getD i 0))
            ((List.range 8).foldl
              (fun mm i => updf mm (idx * (8 + B) + i) ((blk.id >>> (i * 8)) % 256)) m))
            (idx * (8 + B) + i) <<< (i * 8))) 0
        = (List.range 8).foldl
          (fun acc i => acc ||| (((blk.id >>> (i * 8)) % 256) <<< (i * 8))) 0 := by
      apply List.foldl_ext
      intro acc i hi
      rw [List.mem_range] at hi
      rw [hidbytes i hi]
    rw [hcg, decode_bytes_eq blk.id 8]
    exact Nat.mod_eq_of_lt (by norm_num at hid ⊢; exact hid)
  have hdatapart : (List.range B).map
      (fun i =>
        ((List.range B).foldl
          (fun mm i => updf mm (idx * (8 + B) + 8 + i) (blk.data.getD i 0))
          ((List.range 8).foldl
            (fun mm i => updf mm (idx * (8 + B) + i) ((blk.id >>> (i * 8)) % 256)) m))
          (idx * (8 + B) + 8 + i)) = blk.data := by
    have hmap : (List.range B).map
        (fun i =>
          ((List.range B).foldl
            (fun mm i => updf mm (idx * (8 + B) + 8 + i) (blk.data.getD i 0))
            ((List.range 8).foldl
              (fun mm i => updf mm (idx * (8 + B) + i) ((blk.id >>> (i * 8)) % 256)) m))
            (idx * (8 + B) + 8 + i))
        = (List.range B).map (fun i => blk.data.getD i 0) := by
      apply List.map_congr_left
      intro i hi
      rw [List.mem_range] at hi
      exact hdatabytes i hi
    rw [hmap]
    apply List.ext_getElem
    · simp [hlen]
    · intro i h1 h2
      simp only [List.getElem_map, List.getElem_range]
      rw [List.getD_eq_getElem blk.data 0 (by omega)]
  rw [hidpart, hdatapart]

/-- writeBlock does not disturb other block slots. -/
theorem readBlock_writeBlock_other (B : Nat) (m : Nat → Nat) (idx idx2 : Nat)
    (blk : IDBlock) (hne : idx2 ≠ idx) :
    readBlock B (writeBlock B m idx blk) idx2 = readBlock B m idx2 := by
  apply readBlock_congr
  intro a h1 h2
  apply writeBlock_outside
  rcases Nat.lt_or_ge idx2 idx with h | h
  · left
    calc a < idx2 * (8 + B) + 8 + B := h2
      _ = (idx2 + 1) * (8 + B) := by ring
      _ ≤ idx * (8 + B) := Nat.mul_le_mul_right _ (by omega)
  · right
    have : idx < idx2 := by omega
    calc idx * (8 + B) + 8 + B = (idx + 1) * (8 + B) := by ring
      _ ≤ idx2 * (8 + B) := Nat.mul_le_mul_right _ (by omega)
      _ ≤ a := h1

/-!
ResourcePool-level characterizations of the stash operations used by the
engine: handle iteration, the emplace-then-copy idiom, and erase.
-/

theorem pool_handles_sound {V : Type} (w S : Nat) (p : ResourcePool V)
    (hwf : p.WF w S) : ∀ id ∈ p.handlesList w, p.contains w id = true := by
  intro id hid
  rw [ResourcePool.handlesList] at hid
  rcases List.mem_map.1 hid with ⟨i, hi, rfl⟩
  rw [List.mem_reverse, List.mem_range] at hi
  have hds : i < p.ss.dense_size :=
    Nat.lt_of_lt_of_le hi (Nat.mod_le _ _)
  exact SparseSet.contains_of_mem (2 ^ w) S p.ss hwf i hds

theorem pool_handles_nodup {V : Type} (w S : Nat) (p : ResourcePool V)
    (hwf : p.WF w S) : (p.handlesList w).Nodup := by
  rw [ResourcePool.handlesList]
  apply List.Nodup.map_on
  · intro i hi j hj he
    rw [List.mem_reverse, List.mem_range] at hi hj
    have hi2 : i < p.ss.dense_size := Nat.lt_of_lt_of_le hi (Nat.mod_le _ _)
    have hj2 : j < p.ss.dense_size := Nat.lt_of_lt_of_le hj (Nat.mod_le _ _)
    have e1 := (hwf.2 i hi2).2
    have e2 := (hwf.2 j hj2).2
    rw [← e1, ← e2, he]
  · exact List.nodup_reverse.2 (List.nodup_range _)

theorem pool_sparse_ne {V : Type} (w S : Nat) (p : ResourcePool V) (hwf : p.WF w S)
    (i j : Nat) (hi : p.contains w i = true) (hj : p.contains w j = true) (hne : i ≠ j) :
    p.ss.sparse i ≠ p.ss.sparse j := by
  rw [ResourcePool.contains, SparseSet.contains_eq_true_iff] at hi hj
  intro he
  apply hne
  rw [← hi.2.2, ← hj.2.2, he]

/-- Specification of the emplace_empty-then-copy idiom on a well-formed stash
with an untruncated capacity constant: on success the put id maps to the put
payload, everything else is untouched, and well-formedness is preserved; on
failure (only when the id is absent and the stash is full) nothing changes. -/
theorem stashPut_spec (H Z : Nat) (p : ResourcePool (List Nat)) (id : Nat) (d : List Nat)
    (hwf : p.WF (blkWidth H Z) (stashSize H Z))
    (hcap : stashSize H Z < 2 ^ blkWidth H Z) (hid : id < 2 ^ blkWidth H Z) :
    ((stashPut H Z p id d).2 = true →
      (stashPut H Z p id d).1.WF (blkWidth H Z) (stashSize H Z) ∧
      (stashPut H Z p id d).1.contains (blkWidth H Z) id = true ∧
      (stashPut H Z p id d).1.at_ id = d ∧
      (∀ j, j ≠ id →
        (stashPut H Z p id d).1.contains (blkWidth H Z) j = p.contains (blkWidth H Z) j) ∧
      (∀ j, j ≠ id → p.contains (blkWidth H Z) j = true →
        (stashPut H Z p id d).1.at_ j = p.at_ j)) ∧
    ((stashPut H Z p id d).2 = false →
      (stashPut H Z p id d).1 = p ∧ p.contains (blkWidth H Z) id = false ∧
      p.ss.dense_size = stashSize H Z) := by
  by_cases hc : p.contains (blkWidth H Z) id = true
  · -- present: overwrite the resource slot through the iterator
    have he : ResourcePool.emplace_empty (blkWidth H Z) (stashSize H Z) p id
        = (p, p.ss.sparse id + 1, false) := by
      rw [ResourcePool.emplace_empty, if_pos hc]
    have hput : stashPut H Z p id d
        = ({ p with res := updf p.res (p.ss.sparse id) d }, true) := by
      rw [stashPut, he]
      dsimp only
      rw [if_pos (by omega)]
      simp
    rw [hput]
    constructor
    · intro _
      refine ⟨hwf, hc, ?_, fun j _ => rfl, ?_⟩
      · rw [ResourcePool.at_]
        dsimp only
        exact updf_same _ _ _
      · intro j hne hcj
        rw [ResourcePool.at_, ResourcePool.at_]
        dsimp only
        exact updf_other _ _ _ _ (pool_sparse_ne _ _ p hwf j id hcj hc hne)
    · intro hfalse
      cases hfalse
  · have hcf : p.contains (blkWidth H Z) id = false := by
      cases hq : p.contains (blkWidth H Z) id
      · rfl
      · exact absurd hq hc
    by_cases hroom : p.ss.dense_size < stashSize H Z
    · -- fresh insertion
      have hsz : p.size (blkWidth H Z) = p.ss.dense_size := by
        rw [ResourcePool.size, SparseSet.size, ceil_int_log2_pow2]
        exact Nat.mod_eq_of_lt (by omega)
      have hcapv : ResourcePool.capacity (blkWidth H Z) (stashSize H Z) = stashSize H Z := by
        rw [ResourcePool.capacity, SparseSet.capacity, ceil_int_log2_pow2]
        exact Nat.mod_eq_of_lt hcap
      have hss2 : (p.ss.insert (2 ^ blkWidth H Z) (stashSize H Z) id).dense_size
          = p.ss.dense_size + 1 := by
        rw [SparseSet.insert, if_neg (by omega), if_neg (by rw [ResourcePool.contains] at hcf; rw [hcf]; simp)]
      have hsize2 : (p.ss.insert (2 ^ blkWidth H Z) (stashSize H Z) id).size (2 ^ blkWidth H Z)
          = p.ss.dense_size + 1 := by
        rw [SparseSet.size, ceil_int_log2_pow2, hss2]
        exact Nat.mod_eq_of_lt (by omega)
      have hsp2 : (p.ss.insert (2 ^ blkWidth H Z) (stashSize H Z) id).sparse id
          = p.ss.dense_size := by
        rw [SparseSet.insert, if_neg (by omega), if_neg (by rw [ResourcePool.contains] at hcf; rw [hcf]; simp)]
        dsimp only
        rw [updf_same]
        exact Nat.mod_eq_of_lt
          (Nat.lt_of_lt_of_le hroom (le_pow_ceil_int_log2 _))
      have he : ResourcePool.emplace_empty (blkWidth H Z) (stashSize H Z) p id
          = ({ p with ss := p.ss.insert (2 ^ blkWidth H Z) (stashSize H Z) id },
             p.ss.dense_size + 1, true) := by
        have hcfs : SparseSet.contains (2 ^ blkWidth H Z) p.ss id = false := hcf
        rw [ResourcePool.emplace_empty,
          if_neg (by rw [ResourcePool.contains, hcfs]; simp),
          if_pos (by rw [hsz, hcapv]; exact hroom)]
        dsimp only
        rw [hsize2]
      have hput : stashPut H Z p id d
          = ({ ss := p.ss.insert (2 ^ blkWidth H Z) (stashSize H Z) id,
               res := updf p.res p.ss.dense_size d }, true) := by
        rw [stashPut, he]
        dsimp only
        rw [if_pos (by omega)]
        simp
      rw [hput]
      constructor
      · intro _
        refine ⟨?_, ?_, ?_, ?_, ?_⟩
        · exact SparseSet.insert_WF _ _ p.ss hwf id hid hroom
        · exact SparseSet.insert_contains _ _ p.ss id hid (Or.inl hroom)
        · rw [ResourcePool.at_]
          dsimp only
          rw [hsp2, updf_same]
        · intro j hne
          exact SparseSet.insert_contains_other _ _ p.ss id j hne
        · intro j hne hcj
          rw [ResourcePool.at_, ResourcePool.at_]
          dsimp only
          have hspj : (p.ss.insert (2 ^ blkWidth H Z) (stashSize H Z) id).sparse j
              = p.ss.sparse j := by
            rw [SparseSet.insert, if_neg (by omega), if_neg (by rw [ResourcePool.contains] at hcf; rw [hcf]; simp)]
            dsimp only
            exact updf_other _ _ _ _ hne
          rw [hspj]
          rw [ResourcePool.contains, SparseSet.contains_eq_true_iff] at hcj
          exact updf_other _ _ _ _ (by omega)
      · intro hfalse
        cases hfalse
    · -- rejected: absent id, full stash
      have hds : p.ss.dense_size = stashSize H Z := by
        have := hwf.1
        omega
      have hsz : p.size (blkWidth H Z) = stashSize H Z := by
        rw [ResourcePool.size, SparseSet.size, ceil_int_log2_pow2, hds]
        exact Nat.mod_eq_of_lt hcap
      have hcapv : ResourcePool.capacity (blkWidth H Z) (stashSize H Z) = stashSize H Z := by
        rw [ResourcePool.capacity, SparseSet.capacity, ceil_int_log2_pow2]
        exact Nat.mod_eq_of_lt hcap
      have he : ResourcePool.emplace_empty (blkWidth H Z) (stashSize H Z) p id
          = (p, 0, false) := by
        have hcfs : SparseSet.contains (2 ^ blkWidth H Z) p.ss id = false := hcf
        rw [ResourcePool.emplace_empty,
          if_neg (by rw [ResourcePool.contains, hcfs]; simp),
          if_neg (by rw [hsz, hcapv]; omega)]
      have hput : stashPut H Z p id d = (p, false) := by
        rw [stashPut, he]
        simp
      rw [hput]
      constructor
      · intro h
        exact absurd h (by simp)
      · intro _
        exact ⟨rfl, hcf, hds⟩

/-- Specification of ResourcePool::erase on a well-formed pool: the erased id
disappears, every other id keeps its membership and value, occupancy drops
by one, and well-formedness is preserved. -/
theorem pool_erase_spec {V : Type} (w S : Nat) (p : ResourcePool V) (hwf : p.WF w S)
    (hS : S < 2 ^ w) (id : Nat) (hc : p.contains w id = true) :
    (p.erase w id).WF w S ∧
    (p.erase w id).contains w id = false ∧
    (∀ j, j ≠ id → (p.erase w id).contains w j = p.contains w j) ∧
    (∀ j, j ≠ id → p.contains w j = true → (p.erase w id).at_ j = p.at_ j) ∧
    (p.erase w id).ss.dense_size = p.ss.dense_size - 1 := by
  have hsz : p.size w = p.ss.dense_size := by
    rw [ResourcePool.size, SparseSet.size, ceil_int_log2_pow2]
    exact Nat.mod_eq_of_lt (by have := hwf.1; omega)
  have herase : p.erase w id
      = { ss := p.ss.erase (2 ^ w) id,
          res := updf p.res (p.ss.sparse id) (p.res (p.size w - 1)) } := by
    rw [ResourcePool.erase, if_pos hc]
  have hcc := hc
  rw [ResourcePool.contains, SparseSet.contains_eq_true_iff] at hcc
  rcases hcc with ⟨hk, hlt, heq⟩
  have hcs : SparseSet.contains (2 ^ w) p.ss id = true := hc
  have hsserase : (p.ss.erase (2 ^ w) id).dense_size = p.ss.dense_size - 1 := by
    rw [SparseSet.erase, if_pos hcs]
  rw [herase]
  refine ⟨SparseSet.erase_WF _ S p.ss hwf id, ?_, ?_, ?_, hsserase⟩
  · exact SparseSet.erase_not_contains _ S p.ss hwf id
  · intro j hne
    exact SparseSet.erase_contains_other _ S p.ss hwf id j hne
  · intro j hne hcj
    have hcj2 := hcj
    rw [ResourcePool.contains, SparseSet.contains_eq_true_iff] at hcj2
    rcases hcj2 with ⟨hj1, hj2, hj3⟩
    rw [ResourcePool.at_, ResourcePool.at_]
    dsimp only
    by_cases hjl : j = p.ss.dense (p.ss.dense_size - 1)
    · -- j was the last dense entry: it moved into the erased slot
      have hlast := hwf.2 (p.ss.dense_size - 1) (by omega)
      have hsj : p.ss.sparse j = p.ss.dense_size - 1 := by rw [hjl]; exact hlast.2
      have hsparse2 : (p.ss.erase (2 ^ w) id).sparse j = p.ss.sparse id := by
        rw [SparseSet.erase, if_pos hcs]
        dsimp only
        rw [hjl, updf_same]
      rw [hsparse2, updf_same, hsz, hsj]
    · have hsparse2 : (p.ss.erase (2 ^ w) id).sparse j = p.ss.sparse j := by
        rw [SparseSet.erase, if_pos hcs]
        dsimp only
        exact updf_other _ _ _ _ hjl
      rw [hsparse2]
      exact updf_other _ _ _ _ (pool_sparse_ne w S p hwf j id hcj hc hne)

/-!
Well-formedness is preserved by every stash operation the engine performs,
and on a well-formed stash the eviction loop never violates the
assert(contains) preconditions of at().
-/

theorem stashPut_wf (H Z : Nat) (p : ResourcePool (List Nat)) (id : Nat) (d : List Nat)
    (hwf : p.WF (blkWidth H Z) (stashSize H Z))
    (hcap : stashSize H Z < 2 ^ blkWidth H Z) :
    (stashPut H Z p id d).1.WF (blkWidth H Z) (stashSize H Z) := by
  rw [stashPut]
  set r := ResourcePool.emplace_empty (blkWidth H Z) (stashSize H Z) p id with hr
  by_cases hc : p.contains (blkWidth H Z) id = true
  · have : r = (p, p.ss.sparse id + 1, false) := by
      rw [hr, ResourcePool.emplace_empty, if_pos hc]
    rw [this]
    dsimp only
    rw [if_pos (by omega)]
    exact hwf
  · have hcf : p.contains (blkWidth H Z) id = false := by
      cases hq : p.contains (blkWidth H Z) id
      · rfl
      · exact absurd hq hc
    have hcfs : SparseSet.contains (2 ^ blkWidth H Z) p.ss id = false := hcf
    by_cases hroom : p.size (blkWidth H Z) < ResourcePool.capacity (blkWidth H Z) (stashSize H Z)
    · have : r = ({ p with ss := p.ss.insert (2 ^ blkWidth H Z) (stashSize H Z) id },
          (p.ss.insert (2 ^ blkWidth H Z) (stashSize H Z) id).size (2 ^ blkWidth H Z), true) := by
        rw [hr, ResourcePool.emplace_empty, if_neg (by rw [ResourcePool.contains, hcfs]; simp),
          if_pos hroom]
      rw [this]
      dsimp only
      have hdsroom : p.ss.dense_size < stashSize H Z := by
        have hsz : p.size (blkWidth H Z) = p.ss.dense_size := by
          rw [ResourcePool.size, SparseSet.size, ceil_int_log2_pow2]
          exact Nat.mod_eq_of_lt (by have := hwf.1; omega)
        have hcapv : ResourcePool.capacity (blkWidth H Z) (stashSize H Z) = stashSize H Z := by
          rw [ResourcePool.capacity, SparseSet.capacity, ceil_int_log2_pow2]
          exact Nat.mod_eq_of_lt hcap
        rw [hsz, hcapv] at hroom
        exact hroom
      by_cases hid : id < 2 ^ blkWidth H Z
      · split
        · exact SparseSet.insert_WF _ _ p.ss hwf id hid hdsroom
        · exact SparseSet.insert_WF _ _ p.ss hwf id hid hdsroom
      · have hins : p.ss.insert (2 ^ blkWidth H Z) (stashSize H Z) id = p.ss := by
          rw [SparseSet.insert, if_pos (by omega)]
        rw [hins]
        split
        · exact hwf
        · exact hwf
    · have : r = (p, 0, false) := by
        rw [hr, ResourcePool.emplace_empty, if_neg (by rw [ResourcePool.contains, hcfs]; simp),
          if_neg hroom]
      rw [this]
      dsimp only
      rw [if_neg (by omega)]
      exact hwf

theorem stashBucket_foldl_wf (H Z : Nat) (hcap : stashSize H Z < 2 ^ blkWidth H Z) :
    ∀ (bkt : List IDBlock) (acc : ResourcePool (List Nat) × Bool),
      acc.1.WF (blkWidth H Z) (stashSize H Z) →
      (bkt.foldl
        (fun acc blk =>
          if blk.id ≠ invalid_block then
            ((stashPut H Z acc.1 blk.id blk.data).1,
             acc.2 && (stashPut H Z acc.1 blk.id blk.data).2)
          else acc) acc).1.WF (blkWidth H Z) (stashSize H Z) := by
  intro bkt
  induction bkt with
  | nil => intro acc h; exact h
  | cons x xs ih =>
    intro acc h
    simp only [List.foldl_cons]
    by_cases hx : x.id ≠ invalid_block
    · rw [if_pos hx]
      exact ih _ (stashPut_wf H Z acc.1 x.id x.data h hcap)
    · rw [if_neg hx]
      exact ih _ h

theorem stashBucket_wf1 (H Z : Nat) (hcap : stashSize H Z < 2 ^ blkWidth H Z)
    (bkt : List IDBlock) (p : ResourcePool (List Nat))
    (hwf : p.WF (blkWidth H Z) (stashSize H Z)) :
    (stashBucket H Z p bkt).1.WF (blkWidth H Z) (stashSize H Z) := by
  have := stashBucket_foldl_wf H Z hcap bkt (p, true) hwf
  exact this

theorem readPath_foldl_wf (H B Z leaf : Nat) (hcap : stashSize H Z < 2 ^ blkWidth H Z) :
    ∀ (ls : List Nat) (acc : OState × Srv × Bool),
      acc.1.stash.WF (blkWidth H Z) (stashSize H Z) →
      (ls.foldl (readPathStep H B Z leaf) acc).1.stash.WF (blkWidth H Z) (stashSize H Z) := by
  intro ls
  induction ls with
  | nil => intro acc h; exact h
  | cons x xs ih =>
    intro acc h
    simp only [List.foldl_cons]
    exact ih _ (stashBucket_wf1 H Z hcap _ _ h)

/-- The eviction collection loop of unstashBucket: over a list of distinct
ids all present in the stash, it erases exactly those ids, reads their
payloads before erasing them, never trips an assert(contains), and leaves
everything else in place. -/
theorem unstash_foldl_spec (H Z : Nat) (hcap : stashSize H Z < 2 ^ blkWidth H Z) :
    ∀ (l : List Nat) (p : ResourcePool (List Nat)) (blks : List IDBlock) (b0 : Bool),
      p.WF (blkWidth H Z) (stashSize H Z) →
      (∀ id ∈ l, p.contains (blkWidth H Z) id = true) → l.Nodup →
      (l.foldl
        (fun (acc : ResourcePool (List Nat) × List IDBlock × Bool) id =>
          (ResourcePool.erase (blkWidth H Z) acc.1 id,
           acc.2.1 ++ [⟨id, ResourcePool.at_ acc.1 id⟩],
           acc.2.2 && ResourcePool.contains (blkWidth H Z) acc.1 id))
        (p, blks, b0)).1.WF (blkWidth H Z) (stashSize H Z) ∧
      (l.foldl
        (fun (acc : ResourcePool (List Nat) × List IDBlock × Bool) id =>
          (ResourcePool.erase (blkWidth H Z) acc.1 id,
           acc.2.1 ++ [⟨id, ResourcePool.at_ acc.1 id⟩],
           acc.2.2 && ResourcePool.contains (blkWidth H Z) acc.1 id))
        (p, blks, b0)).2.2 = b0 ∧
      (l.foldl
        (fun (acc : ResourcePool (List Nat) × List IDBlock × Bool) id =>
          (ResourcePool.erase (blkWidth H Z) acc.1 id,
           acc.2.1 ++ [⟨id, ResourcePool.at_ acc.1 id⟩],
           acc.2.2 && ResourcePool.contains (blkWidth H Z) acc.1 id))
        (p, blks, b0)).2.1
        = blks ++ l.map (fun id => (⟨id, p.at_ id⟩ : IDBlock)) ∧
      (∀ j, j ∉ l →
        (l.foldl
          (fun (acc : ResourcePool (List Nat) × List IDBlock × Bool) id =>
            (ResourcePool.erase (blkWidth H Z) acc.1 id,
             acc.2.1 ++ [⟨id, ResourcePool.at_ acc.1 id⟩],
             acc.2.2 && ResourcePool.contains (blkWidth H Z) acc.1 id))
          (p, blks, b0)).1.contains (blkWidth H Z) j = p.contains (blkWidth H Z) j) ∧
      (∀ j, j ∉ l → p.contains (blkWidth H Z) j = true →
        (l.foldl
          (fun (acc : ResourcePool (List Nat) × List IDBlock × Bool) id =>
            (ResourcePool.erase (blkWidth H Z) acc.1 id,
             acc.2.1 ++ [⟨id, ResourcePool.at_ acc.1 id⟩],
             acc.2.2 && ResourcePool.contains (blkWidth H Z) acc.1 id))
          (p, blks, b0)).1.at_ j = p.at_ j) ∧
      (∀ j ∈ l,
        (l.foldl
          (fun (acc : ResourcePool (List Nat) × List IDBlock × Bool) id =>
            (ResourcePool.erase (blkWidth H Z) acc.1 id,
             acc.2.1 ++ [⟨id, ResourcePool.at_ acc.1 id⟩],
             acc.2.2 && ResourcePool.contains (blkWidth H Z) acc.1 id))
          (p, blks, b0)).1.contains (blkWidth H Z) j = false) ∧
      (l.foldl
        (fun (acc : ResourcePool (List Nat) × List IDBlock × Bool) id =>
          (ResourcePool.erase (blkWidth H Z) acc.1 id,
           acc.2.1 ++ [⟨id, ResourcePool.at_ acc.1 id⟩],
           acc.2.2 && ResourcePool.contains (blkWidth H Z) acc.1 id))
        (p, blks, b0)).1.ss.dense_size = p.ss.dense_size - l.length := by
  intro l
  induction l with
  | nil =>
    intro p blks b0 hwf _ _
    exact ⟨hwf, rfl, by simp, fun j _ => rfl, fun j _ _ => rfl, fun j hj => absurd hj
      (List.not_mem_nil _), by simp⟩
  | cons x xs ih =>
    intro p blks b0 hwf hmem hnd
    have hcx : p.contains (blkWidth H Z) x = true := hmem x (List.mem_cons_self _ _)
    rcases pool_erase_spec (blkWidth H Z) (stashSize H Z) p hwf hcap x hcx
      with ⟨ewf, enc, eco, eao, eds⟩
    have hmem2 : ∀ id ∈ xs, (p.erase (blkWidth H Z) x).contains (blkWidth H Z) id = true := by
      intro id hid
      have hne : id ≠ x := by
        intro he
        subst he
        exact (List.nodup_cons.1 hnd).1 hid
      rw [eco id hne]
      exact hmem id (List.mem_cons_of_mem _ hid)
    have hnd2 : xs.Nodup := (List.nodup_cons.1 hnd).2
    rcases ih (p.erase (blkWidth H Z) x) (blks ++ [⟨x, p.at_ x⟩]) (b0 && true)
      ewf hmem2 hnd2 with ⟨iwf, ib, iblks, ico, iao, icf, ids⟩
    simp only [List.foldl_cons]
    have hbx : (b0 && ResourcePool.contains (blkWidth H Z) p x) = (b0 && true) := by
      rw [hcx]
    refine ⟨?_, ?_, ?_, ?_, ?_, ?_, ?_⟩
    · rw [hbx] at *
      exact iwf
    · rw [hbx] at *
      rw [ib]
      simp
    · rw [hbx] at *
      rw [iblks]
      have hmap : xs.map (fun id => (⟨id, (p.erase (blkWidth H Z) x).at_ id⟩ : IDBlock))
          = xs.map (fun id => (⟨id, p.at_ id⟩ : IDBlock)) := by
        apply List.map_congr_left
        intro id hid
        have hne : id ≠ x := by
          intro he
          subst he
          exact (List.nodup_cons.1 hnd).1 hid
        rw [eao id hne (hmem id (List.mem_cons_of_mem _ hid))]
      rw [hmap]
      simp
    · intro j hj
      rw [hbx] at *
      have hjx : j ≠ x := fun he => hj (he ▸ List.mem_cons_self _ _)
      have hjxs : j ∉ xs := fun hm => hj (List.mem_cons_of_mem _ hm)
      rw [ico j hjxs, eco j hjx]
    · intro j hj hcj
      rw [hbx] at *
      have hjx : j ≠ x := fun he => hj (he ▸ List.mem_cons_self _ _)
      have hjxs : j ∉ xs := fun hm => hj (List.mem_cons_of_mem _ hm)
      rw [iao j hjxs (by rw [eco j hjx]; exact hcj), eao j hjx hcj]
    · intro j hj
      rw [hbx] at *
      rcases List.mem_cons.1 hj with he | hm
      · subst he
        by_cases hjxs : j ∈ xs
        · exact icf j hjxs
        · rw [ico j hjxs]
          exact enc
      · exact icf j hm
    · rw [hbx] at *
      rw [ids, eds]
      simp only [List.length_cons]
      omega

theorem unstashBucket_spec (H B Z : Nat) (p : ResourcePool (List Nat)) (valid : List Nat)
    (hwf : p.WF (blkWidth H Z) (stashSize H Z))
    (hcap : stashSize H Z < 2 ^ blkWidth H Z)
    (hmem : ∀ id ∈ valid, p.contains (blkWidth H Z) id = true) (hnd : valid.Nodup) :
    (unstashBucket H B Z p valid).1.WF (blkWidth H Z) (stashSize H Z) ∧
    (unstashBucket H B Z p valid).2.2 = true ∧
    (unstashBucket H B Z p valid).2.1
      = (valid.take Z).map (fun id => (⟨id, p.at_ id⟩ : IDBlock))
        ++ List.replicate (Z - valid.length) (IDBlock.invalid B) ∧
    (∀ j, j ∉ valid.take Z →
      (unstashBucket H B Z p valid).1.contains (blkWidth H Z) j
        = p.contains (blkWidth H Z) j) ∧
    (∀ j, j ∉ valid.take Z → p.contains (blkWidth H Z) j = true →
      (unstashBucket H B Z p valid).1.at_ j = p.at_ j) ∧
    (∀ j ∈ valid.take Z,
      (unstashBucket H B Z p valid).1.contains (blkWidth H Z) j = false) := by
  have hmem2 : ∀ id ∈ valid.take Z, p.contains (blkWidth H Z) id = true :=
    fun id hid => hmem id (List.mem_of_mem_take hid)
  have hnd2 : (valid.take Z).Nodup := (List.take_sublist _ _).nodup hnd
  rcases unstash_foldl_spec H Z hcap (valid.take Z) p [] true hwf hmem2 hnd2
    with ⟨fwf, fb, fblks, fco, fao, fcf, _⟩
  rw [unstashBucket]
  exact ⟨fwf, fb, by rw [fblks]; simp, fco, fao, fcf⟩

theorem getIntersectingBlocks_spec (H Z : Nat) (st : OState) (leaf l : Nat)
    (hwf : st.stash.WF (blkWidth H Z) (stashSize H Z)) :
    (∀ id ∈ getIntersectingBlocks H Z st leaf l,
      st.stash.contains (blkWidth H Z) id = true ∧
      getNodeOnPath H (st.position_map id) l = getNodeOnPath H leaf l) ∧
    (getIntersectingBlocks H Z st leaf l).Nodup := by
  constructor
  · intro id hid
    rw [getIntersectingBlocks, List.mem_filter] at hid
    exact ⟨pool_handles_sound _ _ _ hwf id hid.1, of_decide_eq_true hid.2⟩
  · rw [getIntersectingBlocks]
    exact (pool_handles_nodup _ (stashSize H Z) _ hwf).filter _

theorem writePathStep_wf_ok (H B Z leaf : Nat) (acc : OState × Srv × Bool) (l : Nat)
    (hwf : acc.1.stash.WF (blkWidth H Z) (stashSize H Z))
    (hcap : stashSize H Z < 2 ^ blkWidth H Z) :
    (writePathStep H B Z leaf acc l).1.stash.WF (blkWidth H Z) (stashSize H Z) ∧
    (writePathStep H B Z leaf acc l).2.2 = acc.2.2 := by
  rcases getIntersectingBlocks_spec H Z acc.1 leaf l hwf with ⟨hmem, hnd⟩
  rcases unstashBucket_spec H B Z acc.1.stash (getIntersectingBlocks H Z acc.1 leaf l)
    hwf hcap (fun id hid => (hmem id hid).1) hnd with ⟨uwf, uok, _, _, _, _⟩
  rw [writePathStep]
  refine ⟨uwf, ?_⟩
  dsimp only
  rw [uok]
  simp

theorem writePath_foldl_wf_ok (H B Z leaf : Nat)
    (hcap : stashSize H Z < 2 ^ blkWidth H Z) :
    ∀ (ls : List Nat) (acc : OState × Srv × Bool),
      acc.1.stash.WF (blkWidth H Z) (stashSize H Z) →
      (ls.foldl (writePathStep H B Z leaf) acc).1.stash.WF (blkWidth H Z) (stashSize H Z) ∧
      (ls.foldl (writePathStep H B Z leaf) acc).2.2 = acc.2.2 := by
  intro ls
  induction ls with
  | nil => intro acc h; exact ⟨h, rfl⟩
  | cons x xs ih =>
    intro acc h
    simp only [List.foldl_cons]
    rcases writePathStep_wf_ok H B Z leaf acc x h hcap with ⟨w1, w2⟩
    rcases ih (writePathStep H B Z leaf acc x) w1 with ⟨i1, i2⟩
    exact ⟨i1, i2.trans w2⟩

/-- C4 counterexample: engine FPGAPathORAM2<2, 1> after initialization with
seed 1; a Read of the never-written block 5 finds the stash without the
block after ReadPath, yet the access completes without tripping any
assert(contains) precondition and hands the caller back the unchanged
buffer (initial byte 9 stays 9). -/
theorem c4_read_absent_cex :
    ResourcePool.contains (blkWidth 2 4)
      (accessReadPhase 2 1 4 (oramInit 2 1 4 1 (fun _ => 0)).1 5
        (oramInit 2 1 4 1 (fun _ => 0)).2).1.stash 5 = false ∧
    (access 2 1 4 (oramInit 2 1 4 1 (fun _ => 0)).1 ORAMOp.Read 5 (fun _ => 9)
      (oramInit 2 1 4 1 (fun _ => 0)).2).fault = false ∧
    (List.range 1).map
      (access 2 1 4 (oramInit 2 1 4 1 (fun _ => 0)).1 ORAMOp.Read 5 (fun _ => 9)
        (oramInit 2 1 4 1 (fun _ => 0)).2).buf = [9] := by
  decide

/-- C4 amended: when the requested block is absent from the stash after
ReadPath on a Read access (of a well-formed engine whose stash capacity
constant is not truncated away), access() does not abort or fault: the
contains() guard skips the copy, no assert(contains) precondition is
violated anywhere in the access, and the caller's buffer is returned
unchanged. -/
theorem c4_absent_read_silent (H B Z : Nat) (st : OState) (blk : Nat) (buf : Nat → Nat)
    (srv : Srv)
    (hwf : st.stash.WF (blkWidth H Z) (stashSize H Z))
    (hcap : stashSize H Z < 2 ^ blkWidth H Z)
    (habs : ResourcePool.contains (blkWidth H Z)
      (accessReadPhase H B Z st blk srv).1.stash blk = false) :
    (∀ i, (access H B Z st ORAMOp.Read blk buf srv).buf i = buf i) ∧
    (access H B Z st ORAMOp.Read blk buf srv).fault = false := by
  have hbuf : (access H B Z st ORAMOp.Read blk buf srv).buf
      = (if ResourcePool.contains (blkWidth H Z)
            (accessReadPhase H B Z st blk srv).1.stash blk then
          fun i => if i < B then
            (ResourcePool.at_ (accessReadPhase H B Z st blk srv).1.stash blk).getD i 0
          else buf i
        else buf) := rfl
  have hfault : (access H B Z st ORAMOp.Read blk buf srv).fault
      = !(writePath H B Z (accessReadPhase H B Z st blk srv).1
          (accessReadPhase H B Z st blk srv).2.2.2
          (accessReadPhase H B Z st blk srv).2.1).2.2 := rfl
  constructor
  · intro i
    rw [hbuf, habs]
    simp
  · rw [hfault]
    have hwf2 : (accessReadPhase H B Z st blk srv).1.stash.WF (blkWidth H Z) (stashSize H Z) := by
      have : (accessReadPhase H B Z st blk srv).1
          = ((List.range (H + 1)).foldl (readPathStep H B Z (st.position_map blk))
              ({ st with position_map := updf st.position_map blk (randomPath H st.rng).2,
                         rng := (randomPath H st.rng).1 }, srv, true)).1 := rfl
      rw [this]
      exact readPath_foldl_wf H B Z (st.position_map blk) hcap (List.range (H + 1)) _ hwf
    rw [writePath]
    rcases writePath_foldl_wf_ok H B Z (accessReadPhase H B Z st blk srv).2.2.2 hcap
      ((List.range (H + 1)).reverse)
      ((accessReadPhase H B Z st blk srv).1, (accessReadPhase H B Z st blk srv).2.1, true)
      hwf2 with ⟨_, hok⟩
    rw [hok]
    rfl

/-- C4 witness: the amended statement applied to the concrete initialized
FPGAPathORAM2<2, 1> engine and the never-written block 5, hypotheses
discharged by evaluation. -/
theorem c4_absent_read_silent_witness :
    (oramInit 2 1 4 1 (fun _ => 0)).1.stash.WF (blkWidth 2 4) (stashSize 2 4) ∧
    stashSize 2 4 < 2 ^ blkWidth 2 4 ∧
    ResourcePool.contains (blkWidth 2 4)
      (accessReadPhase 2 1 4 (oramInit 2 1 4 1 (fun _ => 0)).1 5
        (oramInit 2 1 4 1 (fun _ => 0)).2).1.stash 5 = false ∧
    (access 2 1 4 (oramInit 2 1 4 1 (fun _ => 0)).1 ORAMOp.Read 5 (fun _ => 9)
      (oramInit 2 1 4 1 (fun _ => 0)).2).fault = false :=
  ⟨by decide, by decide, by decide,
   (c4_absent_read_silent 2 1 4 (oramInit 2 1 4 1 (fun _ => 0)).1 5 (fun _ => 9)
     (oramInit 2 1 4 1 (fun _ => 0)).2 (by decide) (by decide) (by decide)).2⟩

/-!
Exactly-one-copy invariant for the Path-ORAM engine.  `InvP` relates a
ghost content map M (the payload every previously written id should hold)
to a stash/server-memory pair: each live id has either its single copy in
the stash or a single copy in some server slot lying on its position-map
path, except in server slots marked stale by R (slots whose bucket is
about to be rewritten during the current access).
-/

def levelOf (n : Nat) : Nat := Nat.log2 (n + 1)

theorem levelOf_le (H b : Nat) (hb : b < bucket_count H) : levelOf b ≤ H := by
  rw [levelOf]
  have hlt : b + 1 < 2 ^ (H + 1) := by
    rw [bucket_count] at hb
    have : 1 ≤ 2 ^ (H + 1) := Nat.one_le_two_pow
    omega
  have := (Nat.log2_lt (by omega : b + 1 ≠ 0)).2 hlt
  omega

theorem levelOf_getNodeOnPath (H x l : Nat) (hx : x < 2 ^ H) (hl : l ≤ H) :
    levelOf (getNodeOnPath H x l) = l := by
  rcases getNodeOnPath_bounds H x hx (H - l) l (by omega) with ⟨hlo, hhi⟩
  rw [levelOf]
  have h1 : 1 ≤ 2 ^ l := Nat.one_le_two_pow
  have hup : getNodeOnPath H x l + 1 < 2 ^ (l + 1) := by omega
  have hdn : 2 ^ l ≤ getNodeOnPath H x l + 1 := by omega
  have hU := (Nat.log2_lt (by omega : getNodeOnPath H x l + 1 ≠ 0)).2 hup
  have hD := (Nat.le_log2 (by omega : getNodeOnPath H x l + 1 ≠ 0)).2 hdn
  omega

theorem getNodeOnPath_inj (H x l1 l2 : Nat) (hx : x < 2 ^ H) (h1 : l1 ≤ H) (h2 : l2 ≤ H)
    (he : getNodeOnPath H x l1 = getNodeOnPath H x l2) : l1 = l2 := by
  have e1 := levelOf_getNodeOnPath H x l1 hx h1
  have e2 := levelOf_getNodeOnPath H x l2 hx h2
  rw [← e1, ← e2, he]

theorem getNodeOnPath_lt (H x l : Nat) (hx : x < 2 ^ H) (hl : l ≤ H) :
    getNodeOnPath H x l < bucket_count H := by
  rcases getNodeOnPath_bounds H x hx (H - l) l (by omega) with ⟨_, hhi⟩
  rw [bucket_count]
  have : 2 ^ (l + 1) ≤ 2 ^ (H + 1) := Nat.pow_le_pow_right (by omega) (by omega)
  omega

theorem slot_div (Z n i : Nat) (hZ : 0 < Z) (hi : i < Z) : (n * Z + i) / Z = n := by
  rw [Nat.add_comm, Nat.add_mul_div_right i n hZ, Nat.div_eq_of_lt hi]
  omega

theorem slot_lt (H Z n i : Nat) (hn : n < bucket_count H) (hi : i < Z) :
    n * Z + i < block_count_N H Z := by
  rw [block_count_N]
  calc n * Z + i < n * Z + Z := by omega
    _ = (n + 1) * Z := by ring
    _ ≤ bucket_count H * Z := Nat.mul_le_mul_right _ (by omega)
    _ = Z * bucket_count H := Nat.mul_comm _ _

theorem slot_decomp (Z j : Nat) (hZ : 0 < Z) (hj : j / Z = j / Z) :
    j = j / Z * Z + j % Z ∧ j % Z < Z := by
  constructor
  · have h := Nat.div_add_mod j Z
    have h2 : Z * (j / Z) = j / Z * Z := Nat.mul_comm _ _
    omega
  · exact Nat.mod_lt _ hZ

theorem map_getD_self (B : Nat) (q : List Nat) (hlen : q.length = B) :
    (List.range B).map (fun i => q.getD i 0) = q := by
  apply List.ext_getElem
  · simp [hlen]
  · intro i hi1 hi2
    simp only [List.getElem_map, List.getElem_range]
    rw [List.getD_eq_getElem q 0 (by omega)]

/-- The exactly-one-copy invariant, parameterized by the ghost payload map M
and the stale-slot set R.  The ghost position map pm is the map used for the
placement condition (during the read phase of an access it is the pre-access
map, everywhere else the current one). -/
def InvP (H B Z : Nat) (pm : Nat → Nat) (stash : ResourcePool (List Nat))
    (mem : Nat → Nat) (M : Nat → Option (List Nat)) (R : Nat → Prop) : Prop :=
  stash.WF (blkWidth H Z) (stashSize H Z) ∧
  (∀ k, pm k < 2 ^ H) ∧
  (∀ k q, M k = some q → q.length = B ∧ k < block_count_N H Z) ∧
  (∀ k, stash.contains (blkWidth H Z) k = true → (M k).isSome = true) ∧
  (∀ k, M k = none → k ≠ invalid_block →
    ∀ j, j < block_count_N H Z → ¬ R j → (readBlock B mem j).id ≠ k) ∧
  (∀ k q, M k = some q →
    (stash.contains (blkWidth H Z) k = true ∧ stash.at_ k = q ∧
      ∀ j, j < block_count_N H Z → ¬ R j → (readBlock B mem j).id ≠ k) ∨
    (stash.contains (blkWidth H Z) k = false ∧ ∃ j, j < block_count_N H Z ∧ ¬ R j ∧
      readBlock B mem j = ⟨k, q⟩ ∧
      getNodeOnPath H (pm k) (levelOf (j / Z)) = j / Z ∧
      ∀ j2, j2 < block_count_N H Z → ¬ R j2 → j2 ≠ j → (readBlock B mem j2).id ≠ k))

/-- The stale set only matters below the block count. -/
theorem InvP_congr (H B Z : Nat) (pm : Nat → Nat) (stash : ResourcePool (List Nat))
    (mem : Nat → Nat) (M : Nat → Option (List Nat)) (R R2 : Nat → Prop)
    (hRR : ∀ j, j < block_count_N H Z → (R j ↔ R2 j))
    (h : InvP H B Z pm stash mem M R) : InvP H B Z pm stash mem M R2 := by
  rcases h with ⟨h1, h2, h3, h4, h5, h6⟩
  refine ⟨h1, h2, h3, h4, ?_, ?_⟩
  · intro k hk hki j hj hRj
    exact h5 k hk hki j hj (fun hr => hRj ((hRR j hj).1 hr))
  · intro k q hk
    rcases h6 k q hk with ⟨hc, ha, hex⟩ | ⟨hc, j, hjN, hjR, hjeq, hjpl, hju⟩
    · exact Or.inl ⟨hc, ha, fun j hj hRj => hex j hj (fun hr => hRj ((hRR j hj).1 hr))⟩
    · exact Or.inr ⟨hc, j, hjN, fun hr => hjR ((hRR j hjN).2 hr), hjeq, hjpl,
        fun j2 hj2 hRj2 hne => hju j2 hj2 (fun hr => hRj2 ((hRR j2 hj2).1 hr)) hne⟩

theorem invalid_block_ne (H Z k : Nat) (hsmall : block_count_N H Z < 2 ^ 64)
    (hk : k < block_count_N H Z) : k ≠ invalid_block := by
  rw [invalid_block]
  omega

theorem blk_lt_pow (H Z k : Nat) (hk : k < block_count_N H Z) : k < 2 ^ blkWidth H Z :=
  Nat.lt_of_lt_of_le hk (by rw [blkWidth]; exact le_pow_ceil_int_log2 _)

theorem stashBucket_fold_false (H Z : Nat) :
    ∀ (bl : List IDBlock) (p : ResourcePool (List Nat)),
      (bl.foldl
        (fun acc blk => if blk.id ≠ invalid_block then
          ((stashPut H Z acc.1 blk.id blk.data).1,
           acc.2 && (stashPut H Z acc.1 blk.id blk.data).2)
         else acc) (p, false)).2 = false := by
  intro bl
  induction bl with
  | nil => intro p; rfl
  | cons x xs ih =>
    intro p
    simp only [List.foldl_cons]
    by_cases hx : x.id ≠ invalid_block
    · rw [if_pos hx]
      simp only [Bool.false_and]
      exact ih _
    · rw [if_neg hx]
      exact ih _

/-- Marking a slot stale is harmless when its stored id is no live id. -/
theorem invp_stale_slot (H B Z : Nat) (pm : Nat → Nat) (p : ResourcePool (List Nat))
    (mem : Nat → Nat) (M : Nat → Option (List Nat)) (R : Nat → Prop) (s : Nat)
    (hdead : ∀ k q, M k = some q → (readBlock B mem s).id ≠ k)
    (hinv : InvP H B Z pm p mem M R) :
    InvP H B Z pm p mem M (fun j => R j ∨ j = s) := by
  rcases hinv with ⟨h1, h2, h3, h4, h5, h6⟩
  refine ⟨h1, h2, h3, h4, ?_, ?_⟩
  · intro k hk hki j hj hRj
    exact h5 k hk hki j hj (fun hr => hRj (Or.inl hr))
  · intro k q hkq
    rcases h6 k q hkq with ⟨hc, ha, hex⟩ | ⟨hcf, j1, hj1N, hj1R, hj1eq, hj1pl, hj1u⟩
    · exact Or.inl ⟨hc, ha, fun j hj hRj => hex j hj (fun hr => hRj (Or.inl hr))⟩
    · have hj1s : j1 ≠ s := by
        intro he
        subst he
        exact hdead k q hkq (by rw [hj1eq])
      refine Or.inr ⟨hcf, j1, hj1N, fun hr => ?_, hj1eq, hj1pl, ?_⟩
      · rcases hr with hr | hr
        · exact hj1R hr
        · exact hj1s hr
      · intro j2 hj2 hRj2 hne
        exact hj1u j2 hj2 (fun hr => hRj2 (Or.inl hr)) hne

/-- Moving the block of a non-sentinel, non-stale slot into the stash (with the
emplace accepted) keeps the invariant with that slot marked stale. -/
theorem invp_stash_slot (H B Z : Nat) (pm : Nat → Nat) (p : ResourcePool (List Nat))
    (mem : Nat → Nat) (M : Nat → Option (List Nat)) (R : Nat → Prop) (s : Nat)
    (hcap : stashSize H Z < 2 ^ blkWidth H Z)
    (hsN : s < block_count_N H Z) (hRs : ¬ R s)
    (hidne : (readBlock B mem s).id ≠ invalid_block)
    (hinv : InvP H B Z pm p mem M R)
    (hok : (stashPut H Z p (readBlock B mem s).id (readBlock B mem s).data).2 = true) :
    InvP H B Z pm (stashPut H Z p (readBlock B mem s).id (readBlock B mem s).data).1 mem M
      (fun j => R j ∨ j = s) := by
  rcases hinv with ⟨h1, h2, h3, h4, h5, h6⟩
  have hlive : ∃ q0, M (readBlock B mem s).id = some q0 := by
    cases hM : M (readBlock B mem s).id with
    | none => exact absurd rfl (h5 (readBlock B mem s).id hM hidne s hsN hRs)
    | some q0 => exact ⟨q0, rfl⟩
  rcases hlive with ⟨q0, hq0⟩
  have hbidN : (readBlock B mem s).id < block_count_N H Z := (h3 _ q0 hq0).2
  rcases h6 _ q0 hq0 with ⟨_, _, hex⟩ | ⟨hcf, j0, hj0N, hj0R, hj0eq, _, hj0u⟩
  · exact absurd rfl (hex s hsN hRs)
  have hj0s : j0 = s := by
    by_contra hne
    exact (hj0u s hsN hRs (fun he => hne he.symm)) rfl
  rw [hj0s] at hj0eq hj0u
  have hbdata : (readBlock B mem s).data = q0 := by rw [hj0eq]
  rcases (stashPut_spec H Z p (readBlock B mem s).id (readBlock B mem s).data h1 hcap
    (blk_lt_pow H Z _ hbidN)).1 hok with ⟨pwf, pc, pa, pfr, pfa⟩
  refine ⟨pwf, h2, h3, ?_, ?_, ?_⟩
  · intro k hk
    by_cases hke : k = (readBlock B mem s).id
    · subst hke
      rw [hq0]
      rfl
    · rw [pfr k hke] at hk
      exact h4 k hk
  · intro k hk hki j hj hRj
    exact h5 k hk hki j hj (fun hr => hRj (Or.inl hr))
  · intro k q hkq
    by_cases hke : k = (readBlock B mem s).id
    · subst hke
      have hqq0 : q = q0 := by
        rw [hq0] at hkq
        exact (Option.some.inj hkq).symm
      refine Or.inl ⟨pc, by rw [pa, hbdata, hqq0], ?_⟩
      intro j hj hRj
      have hjR : ¬ R j := fun hr => hRj (Or.inl hr)
      have hjs : j ≠ s := fun he => hRj (Or.inr he)
      exact hj0u j hj hjR hjs
    · rcases h6 k q hkq with ⟨kc, ka, kex⟩ | ⟨kcf, j1, hj1N, hj1R, hj1eq, hj1pl, hj1u⟩
      · refine Or.inl ⟨by rw [pfr k hke]; exact kc, by rw [pfa k hke kc]; exact ka, ?_⟩
        intro j hj hRj
        exact kex j hj (fun hr => hRj (Or.inl hr))
      · have hj1s : j1 ≠ s := by
          intro he
          subst he
          apply hke
          rw [hj1eq]
      -- the b.id of slot s equals k otherwise
        refine Or.inr ⟨by rw [pfr k hke]; exact kcf, j1, hj1N, fun hr => ?_, hj1eq, hj1pl, ?_⟩
        · rcases hr with hr | hr
          · exact hj1R hr
          · exact hj1s hr
        · intro j2 hj2 hRj2 hne
          exact hj1u j2 hj2 (fun hr => hRj2 (Or.inl hr)) hne

/-- Stashing the blocks of a list of fresh (non-stale, in-range, distinct)
slots preserves the invariant, with those slots marked stale, provided no
emplace was rejected. -/
theorem stashBucket_fold_invp (H B Z : Nat) (pm : Nat → Nat) (M : Nat → Option (List Nat))
    (mem : Nat → Nat)
    (hsmall : block_count_N H Z < 2 ^ 64)
    (hcap : stashSize H Z < 2 ^ blkWidth H Z) :
    ∀ (il : List Nat) (R : Nat → Prop) (p : ResourcePool (List Nat)) (b0 : Bool),
      (∀ s ∈ il, s < block_count_N H Z ∧ ¬ R s) → il.Nodup →
      InvP H B Z pm p mem M R →
      ((il.map (fun s => readBlock B mem s)).foldl
        (fun acc blk => if blk.id ≠ invalid_block then
          ((stashPut H Z acc.1 blk.id blk.data).1,
           acc.2 && (stashPut H Z acc.1 blk.id blk.data).2)
         else acc) (p, b0)).2 = true →
      InvP H B Z pm
        ((il.map (fun s => readBlock B mem s)).foldl
          (fun acc blk => if blk.id ≠ invalid_block then
            ((stashPut H Z acc.1 blk.id blk.data).1,
             acc.2 && (stashPut H Z acc.1 blk.id blk.data).2)
           else acc) (p, b0)).1 mem M
        (fun j => R j ∨ j ∈ il) := by
  intro il
  induction il with
  | nil =>
    intro R p b0 _ _ hinv _
    simp only [List.map_nil, List.foldl_nil]
    exact InvP_congr H B Z pm p mem M R _ (by intro j _; simp) hinv
  | cons s rest ih =>
    intro R p b0 hmem hnd hinv hflag
    simp only [List.map_cons, List.foldl_cons] at hflag ⊢
    rcases hmem s (List.mem_cons_self _ _) with ⟨hsN, hRs⟩
    have hmem2 : ∀ s2 ∈ rest, s2 < block_count_N H Z ∧ ¬ (R s2 ∨ s2 = s) := by
      intro s2 hs2
      rcases hmem s2 (List.mem_cons_of_mem _ hs2) with ⟨hN2, hR2⟩
      refine ⟨hN2, ?_⟩
      rintro (hr | he)
      · exact hR2 hr
      · exact (List.nodup_cons.1 hnd).1 (he ▸ hs2)
    by_cases hid : (readBlock B mem s).id ≠ invalid_block
    · rw [if_pos hid] at hflag ⊢
      have hput : (stashPut H Z p (readBlock B mem s).id (readBlock B mem s).data).2 = true := by
        by_contra hne
        have hf : (stashPut H Z p (readBlock B mem s).id (readBlock B mem s).data).2 = false := by
          cases hq : (stashPut H Z p (readBlock B mem s).id (readBlock B mem s).data).2
          · rfl
          · exact absurd hq hne
        rw [hf] at hflag
        simp only [Bool.and_false] at hflag
        rw [stashBucket_fold_false] at hflag
        cases hflag
      have hinv2 := invp_stash_slot H B Z pm p mem M R s hcap hsN hRs hid hinv hput
      have hstep := ih (fun j => R j ∨ j = s) (stashPut H Z p (readBlock B mem s).id
        (readBlock B mem s).data).1
        (b0 && (stashPut H Z p (readBlock B mem s).id (readBlock B mem s).data).2)
        hmem2 (List.nodup_cons.1 hnd).2 hinv2 hflag
      exact InvP_congr H B Z pm _ mem M _ _
        (by intro j _; simp only [List.mem_cons]; tauto) hstep
    · rw [if_neg hid] at hflag ⊢
      have hidd : (readBlock B mem s).id = invalid_block := by
        by_contra h
        exact hid h
      have hinv2 := invp_stale_slot H B Z pm p mem M R s (fun k q hk => by
        rw [hidd]
        exact Ne.symm (invalid_block_ne H Z k hsmall ((hinv.2.2.1 k q hk).2))) hinv
      have hstep := ih (fun j => R j ∨ j = s) p b0 hmem2 (List.nodup_cons.1 hnd).2 hinv2 hflag
      exact InvP_congr H B Z pm _ mem M _ _
        (by intro j _; simp only [List.mem_cons]; tauto) hstep

/-- Reading one fresh bucket into the stash preserves the invariant with that
bucket's slots marked stale. -/
theorem readBucket_stash_invp (H B Z : Nat) (pm : Nat → Nat) (M : Nat → Option (List Nat))
    (mem : Nat → Nat) (R : Nat → Prop) (n : Nat) (p : ResourcePool (List Nat))
    (hZ : 0 < Z) (hsmall : block_count_N H Z < 2 ^ 64)
    (hcap : stashSize H Z < 2 ^ blkWidth H Z)
    (hn : n < bucket_count H)
    (hfresh : ∀ j, j < block_count_N H Z → j / Z = n → ¬ R j)
    (hinv : InvP H B Z pm p mem M R)
    (hok : (stashBucket H Z p
      ((List.range Z).map (fun i => readBlock B mem (n * Z + i)))).2 = true) :
    InvP H B Z pm
      (stashBucket H Z p ((List.range Z).map (fun i => readBlock B mem (n * Z + i)))).1
      mem M (fun j => R j ∨ j / Z = n) := by
  have hil : ((List.range Z).map (fun i => n * Z + i)).map (fun s => readBlock B mem s)
      = (List.range Z).map (fun i => readBlock B mem (n * Z + i)) := by
    rw [List.map_map]
    rfl
  have hmem : ∀ s ∈ (List.range Z).map (fun i => n * Z + i),
      s < block_count_N H Z ∧ ¬ R s := by
    intro s hs
    rcases List.mem_map.1 hs with ⟨i, hi, rfl⟩
    rw [List.mem_range] at hi
    have hsN := slot_lt H Z n i hn hi
    exact ⟨hsN, hfresh _ hsN (slot_div Z n i hZ hi)⟩
  have hnd : ((List.range Z).map (fun i => n * Z + i)).Nodup := by
    apply List.Nodup.map_on
    · intro i _ j _ h
      omega
    · exact List.nodup_range _
  have hfold := stashBucket_fold_invp H B Z pm M mem hsmall hcap
    ((List.range Z).map (fun i => n * Z + i)) R p true hmem hnd hinv (by rw [hil]; exact hok)
  rw [hil] at hfold
  refine InvP_congr H B Z pm _ mem M _ _ ?_ hfold
  intro j hj
  simp only [List.mem_map, List.mem_range]
  constructor
  · rintro (hr | ⟨i, hi, rfl⟩)
    · exact Or.inl hr
    · exact Or.inr (slot_div Z n i hZ hi)
  · rintro (hr | he)
    · exact Or.inl hr
    · rcases slot_decomp Z j hZ rfl with ⟨hd, hm⟩
      refine Or.inr ⟨j % Z, hm, ?_⟩
      rw [← he]
      omega

theorem readPath_fold_false (H B Z leaf : Nat) :
    ∀ (ls : List Nat) (acc : OState × Srv × Bool), acc.2.2 = false →
      (ls.foldl (readPathStep H B Z leaf) acc).2.2 = false := by
  intro ls
  induction ls with
  | nil => intro acc h; exact h
  | cons x xs ih =>
    intro acc h
    simp only [List.foldl_cons]
    apply ih
    show (acc.2.2 && _) = false
    rw [h]
    simp

/-- One readPath level preserves the invariant, marking the freshly read
bucket's slots stale. -/
theorem readPathStep_invp (H B Z : Nat) (pm : Nat → Nat) (M : Nat → Option (List Nat))
    (R : Nat → Prop) (leaf l : Nat) (acc : OState × Srv × Bool)
    (hZ : 0 < Z) (hsmall : block_count_N H Z < 2 ^ 64)
    (hcap : stashSize H Z < 2 ^ blkWidth H Z)
    (hleaf : leaf < 2 ^ H) (hl : l ≤ H)
    (hfresh : ∀ j, j < block_count_N H Z → j / Z = getNodeOnPath H leaf l → ¬ R j)
    (hinv : InvP H B Z pm acc.1.stash acc.2.1.mem M R)
    (hok : (readPathStep H B Z leaf acc l).2.2 = true) :
    InvP H B Z pm (readPathStep H B Z leaf acc l).1.stash
      (readPathStep H B Z leaf acc l).2.1.mem M
      (fun j => R j ∨ j / Z = getNodeOnPath H leaf l) := by
  have hsb : (readPathStep H B Z leaf acc l).2.2
      = (acc.2.2 && (stashBucket H Z acc.1.stash
          ((List.range Z).map
            (fun i => readBlock B acc.2.1.mem (getNodeOnPath H leaf l * Z + i)))).2) := rfl
  rw [hsb, Bool.and_eq_true] at hok
  have hstash : (readPathStep H B Z leaf acc l).1.stash
      = (stashBucket H Z acc.1.stash
          ((List.range Z).map
            (fun i => readBlock B acc.2.1.mem (getNodeOnPath H leaf l * Z + i)))).1 := rfl
  have hmem : (readPathStep H B Z leaf acc l).2.1.mem = acc.2.1.mem := rfl
  rw [hstash, hmem]
  exact readBucket_stash_invp H B Z pm M acc.2.1.mem R (getNodeOnPath H leaf l) acc.1.stash
    hZ hsmall hcap (getNodeOnPath_lt H leaf l hleaf hl) hfresh hinv hok.2

/-- The readPath fold preserves the invariant level by level: afterwards the
stale slots are exactly those of the buckets on the processed levels. -/
theorem readPath_fold_invp (H B Z : Nat) (pm : Nat → Nat) (M : Nat → Option (List Nat))
    (leaf : Nat)
    (hZ : 0 < Z) (hsmall : block_count_N H Z < 2 ^ 64)
    (hcap : stashSize H Z < 2 ^ blkWidth H Z) (hleaf : leaf < 2 ^ H) :
    ∀ (ls done : List Nat) (acc : OState × Srv × Bool),
      (∀ l ∈ ls, l ≤ H) → (∀ l ∈ done, l ≤ H) → (done ++ ls).Nodup →
      InvP H B Z pm acc.1.stash acc.2.1.mem M
        (fun j => j / Z ∈ done.map (getNodeOnPath H leaf)) →
      (ls.foldl (readPathStep H B Z leaf) acc).2.2 = true →
      InvP H B Z pm (ls.foldl (readPathStep H B Z leaf) acc).1.stash
        (ls.foldl (readPathStep H B Z leaf) acc).2.1.mem M
        (fun j => j / Z ∈ (done ++ ls).map (getNodeOnPath H leaf)) := by
  intro ls
  induction ls with
  | nil =>
    intro done acc _ _ _ hinv _
    simpa using hinv
  | cons l ls ih =>
    intro done acc hls hdone hnd hinv hflag
    simp only [List.foldl_cons] at hflag ⊢
    have hstepflag : (readPathStep H B Z leaf acc l).2.2 = true := by
      by_contra hne
      have hf : (readPathStep H B Z leaf acc l).2.2 = false := by
        cases hq : (readPathStep H B Z leaf acc l).2.2
        · rfl
        · exact absurd hq hne
      rw [readPath_fold_false H B Z leaf ls _ hf] at hflag
      cases hflag
    have hlH : l ≤ H := hls l (List.mem_cons_self _ _)
    have hfresh : ∀ j, j < block_count_N H Z → j / Z = getNodeOnPath H leaf l →
        ¬ (j / Z ∈ done.map (getNodeOnPath H leaf)) := by
      intro j _ hje hmem
      rw [hje] at hmem
      rcases List.mem_map.1 hmem with ⟨l2, hl2, heq⟩
      have : l2 = l := getNodeOnPath_inj H leaf l2 l hleaf (hdone l2 hl2) hlH heq
      subst this
      rcases List.nodup_append.1 hnd with ⟨_, _, hdisj⟩
      exact hdisj hl2 (List.mem_cons_self _ _)
    have hinv2 := readPathStep_invp H B Z pm M
      (fun j => j / Z ∈ done.map (getNodeOnPath H leaf)) leaf l acc hZ hsmall hcap hleaf hlH
      hfresh hinv hstepflag
    have hinv3 : InvP H B Z pm (readPathStep H B Z leaf acc l).1.stash
        (readPathStep H B Z leaf acc l).2.1.mem M
        (fun j => j / Z ∈ (done ++ [l]).map (getNodeOnPath H leaf)) := by
      refine InvP_congr H B Z pm _ _ M _ _ ?_ hinv2
      intro j _
      simp [List.mem_append]
    have hassoc : (done ++ [l]) ++ ls = done ++ l :: ls := by simp
    have hih := ih (done ++ [l]) (readPathStep H B Z leaf acc l)
      (fun l2 hl2 => hls l2 (List.mem_cons_of_mem _ hl2))
      (by
        intro l2 hl2
        rcases List.mem_append.1 hl2 with h | h
        · exact hdone l2 h
        · rw [List.mem_singleton] at h
          subst h
          exact hlH)
      (by rw [hassoc]; exact hnd) hinv3 hflag
    rw [hassoc] at hih
    exact hih

theorem div_lt_bucket (H Z j : Nat) (hZ : 0 < Z) (hj : j < block_count_N H Z) :
    j / Z < bucket_count H := by
  rw [Nat.div_lt_iff_lt_mul hZ, Nat.mul_comm]
  rw [block_count_N] at hj
  exact hj

/-- The ghost position map only constrains placed (non-stashed) live ids, so
it can be exchanged for any map that agrees on those. -/
theorem InvP_pm_switch (H B Z : Nat) (pm pm2 : Nat → Nat) (stash : ResourcePool (List Nat))
    (mem : Nat → Nat) (M : Nat → Option (List Nat)) (R : Nat → Prop)
    (hpm2 : ∀ k, pm2 k < 2 ^ H)
    (hagree : ∀ k q, M k = some q → stash.contains (blkWidth H Z) k = false → pm2 k = pm k)
    (hinv : InvP H B Z pm stash mem M R) : InvP H B Z pm2 stash mem M R := by
  rcases hinv with ⟨h1, h2, h3, h4, h5, h6⟩
  refine ⟨h1, hpm2, h3, h4, h5, ?_⟩
  intro k q hkq
  rcases h6 k q hkq with ⟨hc, ha, hex⟩ | ⟨hcf, j, hjN, hjR, hjeq, hjpl, hju⟩
  · exact Or.inl ⟨hc, ha, hex⟩
  · exact Or.inr ⟨hcf, j, hjN, hjR, hjeq, by rw [hagree k q hkq hcf]; exact hjpl, hju⟩

/-- Once every bucket on a live id's (ghost) path is stale, the id must be in
the stash with its recorded payload. -/
theorem invp_path_transport (H B Z : Nat) (pm : Nat → Nat) (stash : ResourcePool (List Nat))
    (mem : Nat → Nat) (M : Nat → Option (List Nat)) (k : Nat) (q : List Nat)
    (hZ : 0 < Z)
    (hinv : InvP H B Z pm stash mem M
      (fun j => j / Z ∈ (List.range (H + 1)).map (getNodeOnPath H (pm k))))
    (hk : M k = some q) :
    stash.contains (blkWidth H Z) k = true ∧ stash.at_ k = q := by
  rcases hinv.2.2.2.2.2 k q hk with ⟨hc, ha, _⟩ | ⟨_, j, hjN, hjR, _, hjpl, _⟩
  · exact ⟨hc, ha⟩
  · exfalso
    apply hjR
    have hbc : j / Z < bucket_count H := div_lt_bucket H Z j hZ hjN
    have hlev : levelOf (j / Z) ≤ H := levelOf_le H _ hbc
    exact List.mem_map.2 ⟨levelOf (j / Z), List.mem_range.2 (by omega), hjpl⟩

/-- An accepted stash put of payload d at id blk, when no non-stale server
slot holds blk, moves the ghost content map to M[blk := d]. -/
theorem invp_serve_put (H B Z : Nat) (pm : Nat → Nat) (stash : ResourcePool (List Nat))
    (mem : Nat → Nat) (M : Nat → Option (List Nat)) (R : Nat → Prop)
    (blk : Nat) (d : List Nat)
    (hcap : stashSize H Z < 2 ^ blkWidth H Z)
    (hblkN : blk < block_count_N H Z) (hdlen : d.length = B)
    (hnos : ∀ j, j < block_count_N H Z → ¬ R j → (readBlock B mem j).id ≠ blk)
    (hinv : InvP H B Z pm stash mem M R)
    (hok : (stashPut H Z stash blk d).2 = true) :
    InvP H B Z pm (stashPut H Z stash blk d).1 mem
      (fun k => if k = blk then some d else M k) R := by
  rcases hinv with ⟨h1, h2, h3, h4, h5, h6⟩
  rcases (stashPut_spec H Z stash blk d h1 hcap (blk_lt_pow H Z blk hblkN)).1 hok
    with ⟨pwf, pc, pa, pfr, pfa⟩
  refine ⟨pwf, h2, ?_, ?_, ?_, ?_⟩
  · intro k q hkq
    dsimp only at hkq
    by_cases hke : k = blk
    · rw [if_pos hke] at hkq
      exact ⟨by rw [← Option.some.inj hkq]; exact hdlen, by rw [hke]; exact hblkN⟩
    · rw [if_neg hke] at hkq
      exact h3 k q hkq
  · intro k hk
    dsimp only
    by_cases hke : k = blk
    · rw [if_pos hke]
      rfl
    · rw [if_neg hke]
      rw [pfr k hke] at hk
      exact h4 k hk
  · intro k hk hki j hj hRj
    dsimp only at hk
    by_cases hke : k = blk
    · rw [if_pos hke] at hk
      cases hk
    · rw [if_neg hke] at hk
      exact h5 k hk hki j hj hRj
  · intro k q hkq
    dsimp only at hkq
    by_cases hke : k = blk
    · rw [if_pos hke] at hkq
      have hqd : q = d := (Option.some.inj hkq).symm
      refine Or.inl ⟨by rw [hke]; exact pc, ?_, ?_⟩
      · rw [hke, pa, hqd]
      · intro j hj hRj
        rw [hke]
        exact hnos j hj hRj
    · rw [if_neg hke] at hkq
      rcases h6 k q hkq with ⟨kc, ka, kex⟩ | ⟨kcf, j, hjN, hjR, hjeq, hjpl, hju⟩
      · exact Or.inl ⟨by rw [pfr k hke]; exact kc, by rw [pfa k hke kc]; exact ka, kex⟩
      · exact Or.inr ⟨by rw [pfr k hke]; exact kcf, j, hjN, hjR, hjeq, hjpl, hju⟩

theorem foldl_writeBlock_readBlock_frame (B base : Nat) (blkf : Nat → IDBlock) :
    ∀ (l : List Nat) (m : Nat → Nat) (q : Nat), (∀ i ∈ l, base + i ≠ q) →
      readBlock B (l.foldl (fun mm i => writeBlock B mm (base + i) (blkf i)) m) q
        = readBlock B m q := by
  intro l
  induction l with
  | nil => intro m q _; rfl
  | cons x xs ih =>
    intro m q h
    simp only [List.foldl_cons]
    rw [ih _ q (fun i hi => h i (List.mem_cons_of_mem _ hi))]
    exact readBlock_writeBlock_other B m (base + x) q (blkf x)
      (Ne.symm (h x (List.mem_cons_self _ _)))

theorem foldl_writeBlock_readBlock_at (B base : Nat) (blkf : Nat → IDBlock) :
    ∀ (l : List Nat) (m : Nat → Nat) (i0 : Nat), i0 ∈ l → l.Nodup →
      (blkf i0).id < 2 ^ 64 → (blkf i0).data.length = B →
      readBlock B (l.foldl (fun mm i => writeBlock B mm (base + i) (blkf i)) m) (base + i0)
        = blkf i0 := by
  intro l
  induction l with
  | nil => intro m i0 h; cases h
  | cons x xs ih =>
    intro m i0 hmem hnd hid hlen
    simp only [List.foldl_cons]
    rcases List.mem_cons.1 hmem with he | hm
    · subst he
      have hout : ∀ i ∈ xs, base + i ≠ base + i0 := by
        intro i hi he2
        have hii : i = i0 := by omega
        rw [hii] at hi
        exact absurd hi (List.nodup_cons.1 hnd).1
      rw [foldl_writeBlock_readBlock_frame B base blkf xs _ (base + i0) hout]
      exact readBlock_writeBlock_same B m (base + i0) (blkf i0) hid hlen
    · exact ih _ i0 hm (List.nodup_cons.1 hnd).2 hid hlen

/-- Reading back slot i of a freshly written bucket returns the i-th written
block. -/
theorem writeBucket_readBlock_at (B Z : Nat) (s : Srv) (bl : List IDBlock) (n i : Nat)
    (hi : i < Z)
    (hid : (bl.getD i (IDBlock.invalid B)).id < 2 ^ 64)
    (hlen : (bl.getD i (IDBlock.invalid B)).data.length = B) :
    readBlock B (writeBucket B Z s bl n).mem (n * Z + i) = bl.getD i (IDBlock.invalid B) := by
  rw [writeBucket]
  dsimp only
  exact foldl_writeBlock_readBlock_at B (n * Z) (fun q => bl.getD q (IDBlock.invalid B))
    (List.range Z) s.mem i (List.mem_range.2 hi) (List.nodup_range _) hid hlen

/-- Writing a bucket leaves the blocks of every other bucket unchanged. -/
theorem writeBucket_readBlock_other (B Z : Nat) (s : Srv) (bl : List IDBlock) (n q : Nat)
    (hZ : 0 < Z) (hq : q / Z ≠ n) :
    readBlock B (writeBucket B Z s bl n).mem q = readBlock B s.mem q := by
  rw [writeBucket]
  dsimp only
  apply foldl_writeBlock_readBlock_frame
  intro i hi he
  rw [List.mem_range] at hi
  exact hq (by rw [← he]; exact slot_div Z n i hZ hi)

theorem getD_append_map (Et : List Nat) (f : Nat → List Nat) (pad : List IDBlock) (i : Nat)
    (hi : i < Et.length) (d : IDBlock) :
    ((Et.map (fun id => (⟨id, f id⟩ : IDBlock))) ++ pad).getD i d
      = ⟨Et.get ⟨i, hi⟩, f (Et.get ⟨i, hi⟩)⟩ := by
  rw [List.getD_eq_getElem _ _ (by simp; omega)]
  rw [List.getElem_append_left (by simp; omega)]
  simp

theorem getD_pad {α : Type} (l1 l2 : List α) (d : α) (i : Nat) (h : l1.length ≤ i)
    (hl2 : ∀ x ∈ l2, x = d) : (l1 ++ l2).getD i d = d := by
  by_cases hi : i < (l1 ++ l2).length
  · rw [List.getD_eq_getElem _ _ hi]
    rw [List.getElem_append_right h]
    exact hl2 _ (List.getElem_mem _)
  · rw [List.getD_eq_default _ _ (by omega)]

/-- One writePath level: evicting the intersecting stash blocks into the
(entirely stale) bucket on the path at that level re-establishes the
invariant with that bucket's slots fresh again. -/
theorem writePathStep_invp (H B Z : Nat) (M : Nat → Option (List Nat)) (R : Nat → Prop)
    (leaf l : Nat) (acc : OState × Srv × Bool)
    (hZ : 0 < Z) (hsmall : block_count_N H Z < 2 ^ 64)
    (hcap : stashSize H Z < 2 ^ blkWidth H Z)
    (hleaf : leaf < 2 ^ H) (hl : l ≤ H)
    (hstale : ∀ j, j < block_count_N H Z → j / Z = getNodeOnPath H leaf l → R j)
    (hinv : InvP H B Z acc.1.position_map acc.1.stash acc.2.1.mem M R) :
    InvP H B Z (writePathStep H B Z leaf acc l).1.position_map
      (writePathStep H B Z leaf acc l).1.stash
      (writePathStep H B Z leaf acc l).2.1.mem M
      (fun j => R j ∧ j / Z ≠ getNodeOnPath H leaf l) := by
  have hstash_eq : (writePathStep H B Z leaf acc l).1.stash
      = (unstashBucket H B Z acc.1.stash (getIntersectingBlocks H Z acc.1 leaf l)).1 := rfl
  have hpm_eq : (writePathStep H B Z leaf acc l).1.position_map = acc.1.position_map := rfl
  have hmem_eq : (writePathStep H B Z leaf acc l).2.1.mem
      = (writeBucket B Z acc.2.1
          (unstashBucket H B Z acc.1.stash (getIntersectingBlocks H Z acc.1 leaf l)).2.1
          (getNodeOnPath H leaf l)).mem := rfl
  rw [hstash_eq, hpm_eq, hmem_eq]
  rcases hinv with ⟨h1, h2, h3, h4, h5, h6⟩
  rcases getIntersectingBlocks_spec H Z acc.1 leaf l h1 with ⟨hEmem, hEnd⟩
  rcases unstashBucket_spec H B Z acc.1.stash (getIntersectingBlocks H Z acc.1 leaf l)
    h1 hcap (fun id hid => (hEmem id hid).1) hEnd with ⟨uwf, _, ublk, uco, uao, ucf⟩
  set n := getNodeOnPath H leaf l with hndef
  set E := getIntersectingBlocks H Z acc.1 leaf l with hEdef
  set u := unstashBucket H B Z acc.1.stash E with hudef
  have hnbc : n < bucket_count H := getNodeOnPath_lt H leaf l hleaf hl
  have hEtmem : ∀ id ∈ E.take Z, acc.1.stash.contains (blkWidth H Z) id = true :=
    fun id hid => (hEmem id (List.mem_of_mem_take hid)).1
  have hEtnd : (E.take Z).Nodup := (List.take_sublist _ _).nodup hEnd
  have hEtlenZ : (E.take Z).length ≤ Z := by
    rw [List.length_take]
    omega
  have hEtlive : ∀ id ∈ E.take Z, ∃ q, M id = some q ∧ acc.1.stash.at_ id = q := by
    intro id hid
    have hc := hEtmem id hid
    rcases Option.isSome_iff_exists.1 (h4 id hc) with ⟨q, hq⟩
    rcases h6 id q hq with ⟨_, ha, _⟩ | ⟨hcf, _⟩
    · exact ⟨q, hq, ha⟩
    · rw [hc] at hcf
      cases hcf
  have hEtN : ∀ id ∈ E.take Z, id < block_count_N H Z := by
    intro id hid
    rcases hEtlive id hid with ⟨q, hq, _⟩
    exact (h3 id q hq).2
  have hEtdlen : ∀ id ∈ E.take Z, (acc.1.stash.at_ id).length = B := by
    intro id hid
    rcases hEtlive id hid with ⟨q, hq, ha⟩
    rw [ha]
    exact (h3 id q hq).1
  -- per-slot content of the freshly written bucket
  have hgetD : ∀ i, i < Z →
      (∃ hi : i < (E.take Z).length,
        u.2.1.getD i (IDBlock.invalid B)
          = ⟨(E.take Z).get ⟨i, hi⟩, acc.1.stash.at_ ((E.take Z).get ⟨i, hi⟩)⟩) ∨
      ((E.take Z).length ≤ i ∧ u.2.1.getD i (IDBlock.invalid B) = IDBlock.invalid B) := by
    intro i hi
    rw [ublk]
    rcases Nat.lt_or_ge i (E.take Z).length with hlt | hge
    · exact Or.inl ⟨hlt, getD_append_map (E.take Z) acc.1.stash.at_ _ i hlt _⟩
    · refine Or.inr ⟨hge, getD_pad _ _ _ i (by rw [List.length_map]; exact hge) ?_⟩
      intro x hx
      exact (List.eq_of_mem_replicate hx)
  have hslotat : ∀ i, i < Z →
      readBlock B (writeBucket B Z acc.2.1 u.2.1 n).mem (n * Z + i)
        = u.2.1.getD i (IDBlock.invalid B) := by
    intro i hi
    rcases hgetD i hi with ⟨hlt, he⟩ | ⟨_, he⟩
    · apply writeBucket_readBlock_at B Z acc.2.1 u.2.1 n i hi
      · rw [he]
        exact Nat.lt_trans (hEtN _ (List.get_mem _ _ hlt)) hsmall
      · rw [he]
        exact hEtdlen _ (List.get_mem _ _ hlt)
    · apply writeBucket_readBlock_at B Z acc.2.1 u.2.1 n i hi
      · rw [he]
        show invalid_block < 2 ^ 64
        rw [invalid_block]
        omega
      · rw [he]
        show (List.replicate B (0 : Nat)).length = B
        simp
  have hread_out : ∀ j, j < block_count_N H Z → j / Z ≠ n →
      readBlock B (writeBucket B Z acc.2.1 u.2.1 n).mem j = readBlock B acc.2.1.mem j :=
    fun j _ hj => writeBucket_readBlock_other B Z acc.2.1 u.2.1 n j hZ hj
  have hjslot : ∀ j, j < block_count_N H Z → j / Z = n →
      readBlock B (writeBucket B Z acc.2.1 u.2.1 n).mem j
        = u.2.1.getD (j % Z) (IDBlock.invalid B) := by
    intro j hj hjn
    have hm : j % Z < Z := Nat.mod_lt _ hZ
    have hje : j = n * Z + j % Z := by
      have hd := Nat.div_add_mod j Z
      have hcm : Z * (j / Z) = j / Z * Z := Nat.mul_comm _ _
      rw [← hjn]
      omega
    have hj2 : readBlock B (writeBucket B Z acc.2.1 u.2.1 n).mem j
        = readBlock B (writeBucket B Z acc.2.1 u.2.1 n).mem (n * Z + j % Z) := by
      conv_lhs => rw [hje]
    rw [hj2]
    exact hslotat (j % Z) hm
  have hnew_ne : ∀ k, k ∉ E.take Z → k ≠ invalid_block → ∀ j, j < block_count_N H Z →
      j / Z = n → (readBlock B (writeBucket B Z acc.2.1 u.2.1 n).mem j).id ≠ k := by
    intro k hk hki j hj hjn
    rw [hjslot j hj hjn]
    have hm : j % Z < Z := Nat.mod_lt _ hZ
    rcases hgetD (j % Z) hm with ⟨hlt, he⟩ | ⟨_, he⟩
    · rw [he]
      intro hc
      exact hk (hc ▸ List.get_mem _ _ hlt)
    · rw [he]
      exact fun hc => hki hc.symm
  refine ⟨uwf, h2, h3, ?_, ?_, ?_⟩
  · -- every stashed id is live
    intro k hk
    by_cases hkE : k ∈ E.take Z
    · rw [ucf k hkE] at hk
      cases hk
    · rw [uco k hkE] at hk
      exact h4 k hk
  · -- dead ids appear in no fresh slot
    intro k hk hki j hj hRj
    by_cases hjn : j / Z = n
    · refine hnew_ne k ?_ hki j hj hjn
      intro hkE
      have := h4 k (hEtmem k hkE)
      rw [hk] at this
      cases this
    · rw [hread_out j hj hjn]
      exact h5 k hk hki j hj (fun hr => hRj ⟨hr, hjn⟩)
  · -- exactly one copy of every live id
    intro k q hkq
    have hkN : k < block_count_N H Z := (h3 k q hkq).2
    have hkinv : k ≠ invalid_block := invalid_block_ne H Z k hsmall hkN
    by_cases hkE : k ∈ E.take Z
    · -- k was evicted into the fresh bucket
      rcases h6 k q hkq with ⟨_, ka, kex⟩ | ⟨hcf, _⟩
      swap
      · rw [hEtmem k hkE] at hcf
        cases hcf
      rcases List.mem_iff_get.1 hkE with ⟨idx, hidxk⟩
      have hidxZ : (idx : Nat) < Z := Nat.lt_of_lt_of_le idx.isLt hEtlenZ
      refine Or.inr ⟨ucf k hkE, n * Z + idx, slot_lt H Z n idx hnbc hidxZ,
        fun hr => hr.2 (slot_div Z n idx hZ hidxZ), ?_, ?_, ?_⟩
      · rw [hslotat idx hidxZ]
        rcases hgetD idx hidxZ with ⟨hlt, he⟩ | ⟨hge, _⟩
        · rw [he]
          have hgg : (E.take Z).get ⟨(idx : Nat), hlt⟩ = (E.take Z).get idx := by
            congr
          rw [hgg, hidxk, ka]
        · exact absurd idx.isLt (by omega)
      · rw [slot_div Z n idx hZ hidxZ, hndef, levelOf_getNodeOnPath H leaf l hleaf hl,
          ← hndef]
        exact (hEmem k (List.mem_of_mem_take hkE)).2
      · intro j2 hj2 hRj2 hne
        by_cases hj2n : j2 / Z = n
        · rw [hjslot j2 hj2 hj2n]
          have hm2 : j2 % Z < Z := Nat.mod_lt _ hZ
          rcases hgetD (j2 % Z) hm2 with ⟨hlt, he⟩ | ⟨_, he⟩
          · rw [he]
            intro hc
            have hget : (E.take Z).get ⟨j2 % Z, hlt⟩ = (E.take Z).get idx := by
              rw [hidxk]
              exact hc
            have hij : (⟨j2 % Z, hlt⟩ : Fin (E.take Z).length) = idx :=
              (List.Nodup.get_inj_iff hEtnd).1 hget
            apply hne
            have hd := Nat.div_add_mod j2 Z
            have hcm : Z * (j2 / Z) = j2 / Z * Z := Nat.mul_comm _ _
            have : j2 % Z = (idx : Nat) := congrArg Fin.val hij
            rw [← hj2n]
            omega
          · rw [he]
            exact fun hc => hkinv hc.symm
        · rw [hread_out j2 hj2 hj2n]
          exact kex j2 hj2 (fun hr => hRj2 ⟨hr, hj2n⟩)
    · -- k untouched by this level
      rcases h6 k q hkq with ⟨kc, ka, kex⟩ | ⟨kcf, j0, hj0N, hj0R, hj0eq, hj0pl, hj0u⟩
      · refine Or.inl ⟨by rw [uco k hkE]; exact kc, by rw [uao k hkE kc]; exact ka, ?_⟩
        intro j hj hRj
        by_cases hjn : j / Z = n
        · exact hnew_ne k hkE hkinv j hj hjn
        · rw [hread_out j hj hjn]
          exact kex j hj (fun hr => hRj ⟨hr, hjn⟩)
      · have hj0n : j0 / Z ≠ n := fun he => hj0R (hstale j0 hj0N he)
        refine Or.inr ⟨by rw [uco k hkE]; exact kcf, j0, hj0N,
          fun hr => hj0R hr.1, by rw [hread_out j0 hj0N hj0n]; exact hj0eq, hj0pl, ?_⟩
        intro j2 hj2 hRj2 hne
        by_cases hj2n : j2 / Z = n
        · exact hnew_ne k hkE hkinv j2 hj2 hj2n
        · rw [hread_out j2 hj2 hj2n]
          exact hj0u j2 hj2 (fun hr => hRj2 ⟨hr, hj2n⟩) hne

/-- The writePath fold restores the invariant with no stale slots, provided
it starts with exactly the path buckets of its level list stale. -/
theorem writePath_fold_invp (H B Z : Nat) (M : Nat → Option (List Nat)) (leaf : Nat)
    (hZ : 0 < Z) (hsmall : block_count_N H Z < 2 ^ 64)
    (hcap : stashSize H Z < 2 ^ blkWidth H Z) (hleaf : leaf < 2 ^ H) :
    ∀ (ls : List Nat) (acc : OState × Srv × Bool),
      (∀ l ∈ ls, l ≤ H) → ls.Nodup →
      InvP H B Z acc.1.position_map acc.1.stash acc.2.1.mem M
        (fun j => j / Z ∈ ls.map (getNodeOnPath H leaf)) →
      InvP H B Z (ls.foldl (writePathStep H B Z leaf) acc).1.position_map
        (ls.foldl (writePathStep H B Z leaf) acc).1.stash
        (ls.foldl (writePathStep H B Z leaf) acc).2.1.mem M
        (fun _ => False) := by
  intro ls
  induction ls with
  | nil =>
    intro acc _ _ hinv
    simp only [List.foldl_nil]
    exact InvP_congr _ _ _ _ _ _ _ _ _ (by intro j _; simp) hinv
  | cons l rest ih =>
    intro acc hls hnd hinv
    simp only [List.foldl_cons]
    have hlH : l ≤ H := hls l (List.mem_cons_self _ _)
    have hstale : ∀ j, j < block_count_N H Z → j / Z = getNodeOnPath H leaf l →
        j / Z ∈ (l :: rest).map (getNodeOnPath H leaf) := by
      intro j _ hjn
      simp only [List.map_cons, List.mem_cons]
      exact Or.inl hjn
    have hstep := writePathStep_invp H B Z M
      (fun j => j / Z ∈ (l :: rest).map (getNodeOnPath H leaf)) leaf l acc
      hZ hsmall hcap hleaf hlH hstale hinv
    have hstep2 : InvP H B Z (writePathStep H B Z leaf acc l).1.position_map
        (writePathStep H B Z leaf acc l).1.stash (writePathStep H B Z leaf acc l).2.1.mem M
        (fun j => j / Z ∈ rest.map (getNodeOnPath H leaf)) := by
      refine InvP_congr _ _ _ _ _ _ _ _ _ ?_ hstep
      intro j _
      simp only [List.map_cons, List.mem_cons]
      constructor
      · rintro ⟨hl | hr, hne⟩
        · exact absurd hl hne
        · exact hr
      · intro hr
        refine ⟨Or.inr hr, ?_⟩
        intro he
        rcases List.mem_map.1 hr with ⟨l2, hl2, heq⟩
        rw [he] at heq
        have hll : l2 = l := getNodeOnPath_inj H leaf l2 l hleaf
          (hls l2 (List.mem_cons_of_mem _ hl2)) hlH heq
        subst hll
        exact (List.nodup_cons.1 hnd).1 hl2
    exact ih (writePathStep H B Z leaf acc l)
      (fun l2 hl2 => hls l2 (List.mem_cons_of_mem _ hl2))
      (List.nodup_cons.1 hnd).2 hstep2

/-- The engine-level invariant between accesses: no stale slots, ghost map
given by the position map of the state. -/
def Inv (H B Z : Nat) (st : OState) (srv : Srv) (M : Nat → Option (List Nat)) : Prop :=
  InvP H B Z st.position_map st.stash srv.mem M (fun _ => False)

/-- After the read phase of an access (position-map update plus readPath,
with no stash rejection): the invariant holds for the updated position map
with exactly the old path's slots stale, and every live payload of the
accessed id has been pulled into the stash. -/
theorem accessReadPhase_invp (H B Z : Nat) (st : OState) (srv : Srv)
    (M : Nat → Option (List Nat)) (blk : Nat)
    (hZ : 0 < Z) (hsmall : block_count_N H Z < 2 ^ 64)
    (hcap : stashSize H Z < 2 ^ blkWidth H Z)
    (hinv : Inv H B Z st srv M)
    (hok : (accessReadPhase H B Z st blk srv).2.2.1 = true) :
    InvP H B Z (accessReadPhase H B Z st blk srv).1.position_map
      (accessReadPhase H B Z st blk srv).1.stash
      (accessReadPhase H B Z st blk srv).2.1.mem M
      (fun j => j / Z ∈ (List.range (H + 1)).map (getNodeOnPath H (st.position_map blk))) ∧
    (∀ q, M blk = some q →
      ResourcePool.contains (blkWidth H Z)
        (accessReadPhase H B Z st blk srv).1.stash blk = true ∧
      (accessReadPhase H B Z st blk srv).1.stash.at_ blk = q) := by
  have hph1 : (accessReadPhase H B Z st blk srv).1
      = ((List.range (H + 1)).foldl (readPathStep H B Z (st.position_map blk))
          ({ st with position_map := updf st.position_map blk (randomPath H st.rng).2,
                     rng := (randomPath H st.rng).1 }, srv, true)).1 := rfl
  have hphsrv : (accessReadPhase H B Z st blk srv).2.1
      = ((List.range (H + 1)).foldl (readPathStep H B Z (st.position_map blk))
          ({ st with position_map := updf st.position_map blk (randomPath H st.rng).2,
                     rng := (randomPath H st.rng).1 }, srv, true)).2.1 := rfl
  have hphflag : (accessReadPhase H B Z st blk srv).2.2.1
      = ((List.range (H + 1)).foldl (readPathStep H B Z (st.position_map blk))
          ({ st with position_map := updf st.position_map blk (randomPath H st.rng).2,
                     rng := (randomPath H st.rng).1 }, srv, true)).2.2 := rfl
  rw [hphflag] at hok
  have hleaf : st.position_map blk < 2 ^ H := hinv.2.1 blk
  have hinv0 : InvP H B Z st.position_map st.stash srv.mem M
      (fun j => j / Z ∈ ([] : List Nat).map (getNodeOnPath H (st.position_map blk))) := by
    refine InvP_congr _ _ _ _ _ _ _ _ _ ?_ hinv
    intro j _
    simp
  have hfold := readPath_fold_invp H B Z st.position_map M (st.position_map blk)
    hZ hsmall hcap hleaf (List.range (H + 1)) []
    ({ st with position_map := updf st.position_map blk (randomPath H st.rng).2,
               rng := (randomPath H st.rng).1 }, srv, true)
    (fun l hl => by rw [List.mem_range] at hl; omega)
    (fun l hl => absurd hl (List.not_mem_nil _))
    (by simpa using List.nodup_range (H + 1))
    hinv0 hok
  have hfold2 : InvP H B Z st.position_map
      (accessReadPhase H B Z st blk srv).1.stash
      (accessReadPhase H B Z st blk srv).2.1.mem M
      (fun j => j / Z ∈ (List.range (H + 1)).map (getNodeOnPath H (st.position_map blk))) := by
    rw [hph1, hphsrv]
    refine InvP_congr _ _ _ _ _ _ _ _ _ ?_ hfold
    intro j _
    simp
  have htrans : ∀ q, M blk = some q →
      ResourcePool.contains (blkWidth H Z)
        (accessReadPhase H B Z st blk srv).1.stash blk = true ∧
      (accessReadPhase H B Z st blk srv).1.stash.at_ blk = q := by
    intro q hq
    exact invp_path_transport H B Z st.position_map _ _ M blk q hZ hfold2 hq
  refine ⟨?_, htrans⟩
  have hpm : (accessReadPhase H B Z st blk srv).1.position_map
      = updf st.position_map blk (randomPath H st.rng).2 := by
    rw [hph1]
    exact (readPath_foldl_keeps H B Z (st.position_map blk) _ _).1
  rw [hpm]
  apply InvP_pm_switch H B Z st.position_map _ _ _ M _ ?_ ?_ hfold2
  · intro k
    by_cases hk : k = blk
    · subst hk
      rw [updf_same]
      show xorshift64_generate st.rng % 2 ^ H < 2 ^ H
      exact Nat.mod_lt _ (Nat.two_pow_pos H)
    · rw [updf_other _ _ _ _ hk]
      exact hinv.2.1 k
  · intro k q hk hcf
    by_cases hke : k = blk
    · subst hke
      rw [(htrans q hk).1] at hcf
      exact Bool.noConfusion hcf
    · exact updf_other _ _ _ _ hke

/-- The ghost content map after an access. -/
def accessM (B : Nat) (op : ORAMOp) (blk : Nat) (buf : Nat → Nat)
    (M : Nat → Option (List Nat)) : Nat → Option (List Nat) :=
  match op with
  | ORAMOp.Read => M
  | ORAMOp.Write => fun k => if k = blk then some ((List.range B).map buf) else M k

/-- One full access preserves the engine invariant (updating the ghost map on
a write), provided the access id is a valid block id and no stash emplace was
rejected; a Read of a live id returns its recorded payload, a Read of a
never-written id leaves the caller buffer untouched. -/
theorem access_invp (H B Z : Nat) (st : OState) (srv : Srv) (M : Nat → Option (List Nat))
    (op : ORAMOp) (blk : Nat) (buf : Nat → Nat)
    (hZ : 0 < Z) (hsmall : block_count_N H Z < 2 ^ 64)
    (hcap : stashSize H Z < 2 ^ blkWidth H Z)
    (hblk : blk < block_count_N H Z)
    (hinv : Inv H B Z st srv M)
    (hok : (access H B Z st op blk buf srv).ok = true) :
    Inv H B Z (access H B Z st op blk buf srv).state (access H B Z st op blk buf srv).srv
      (accessM B op blk buf M) ∧
    (∀ q, M blk = some q → op = ORAMOp.Read →
      (List.range B).map (access H B Z st op blk buf srv).buf = q) ∧
    (M blk = none → op = ORAMOp.Read →
      (access H B Z st op blk buf srv).buf = buf) := by
  cases op with
  | Read =>
    have hokr : (accessReadPhase H B Z st blk srv).2.2.1 = true := hok
    rcases accessReadPhase_invp H B Z st srv M blk hZ hsmall hcap hinv hokr
      with ⟨hmid, htrans⟩
    have hst_eq : (access H B Z st ORAMOp.Read blk buf srv).state
        = (((List.range (H + 1)).reverse).foldl
            (writePathStep H B Z (st.position_map blk))
            ((accessReadPhase H B Z st blk srv).1,
             (accessReadPhase H B Z st blk srv).2.1, true)).1 := rfl
    have hsrv_eq : (access H B Z st ORAMOp.Read blk buf srv).srv
        = (((List.range (H + 1)).reverse).foldl
            (writePathStep H B Z (st.position_map blk))
            ((accessReadPhase H B Z st blk srv).1,
             (accessReadPhase H B Z st blk srv).2.1, true)).2.1 := rfl
    have hmid2 : InvP H B Z (accessReadPhase H B Z st blk srv).1.position_map
        (accessReadPhase H B Z st blk srv).1.stash
        (accessReadPhase H B Z st blk srv).2.1.mem M
        (fun j => j / Z ∈ ((List.range (H + 1)).reverse).map
          (getNodeOnPath H (st.position_map blk))) := by
      refine InvP_congr _ _ _ _ _ _ _ _ _ ?_ hmid
      intro j _
      simp
    have hwp := writePath_fold_invp H B Z M (st.position_map blk) hZ hsmall hcap
      (hinv.2.1 blk) ((List.range (H + 1)).reverse)
      ((accessReadPhase H B Z st blk srv).1, (accessReadPhase H B Z st blk srv).2.1, true)
      (fun l hl => by rw [List.mem_reverse, List.mem_range] at hl; omega)
      (by simpa using List.nodup_range (H + 1))
      hmid2
    refine ⟨?_, ?_, ?_⟩
    · rw [hst_eq, hsrv_eq]
      exact hwp
    · intro q hq _
      rcases htrans q hq with ⟨hc, ha⟩
      have hbuf_eq : (access H B Z st ORAMOp.Read blk buf srv).buf
          = (if ResourcePool.contains (blkWidth H Z)
                (accessReadPhase H B Z st blk srv).1.stash blk then
              fun i => if i < B then
                (ResourcePool.at_ (accessReadPhase H B Z st blk srv).1.stash blk).getD i 0
              else buf i
            else buf) := rfl
      rw [hbuf_eq, if_pos hc, ha]
      have hmap : (List.range B).map (fun i => if i < B then q.getD i 0 else buf i)
          = (List.range B).map (fun i => q.getD i 0) := by
        apply List.map_congr_left
        intro i hi
        rw [List.mem_range] at hi
        rw [if_pos hi]
      rw [hmap]
      exact map_getD_self B q (hinv.2.2.1 blk q hq).1
    · intro hq _
      have hcf : ResourcePool.contains (blkWidth H Z)
          (accessReadPhase H B Z st blk srv).1.stash blk = false := by
        cases hcb : ResourcePool.contains (blkWidth H Z)
            (accessReadPhase H B Z st blk srv).1.stash blk
        · rfl
        · have := hmid.2.2.2.1 blk hcb
          rw [hq] at this
          exact Bool.noConfusion this
      have hbuf_eq : (access H B Z st ORAMOp.Read blk buf srv).buf
          = (if ResourcePool.contains (blkWidth H Z)
                (accessReadPhase H B Z st blk srv).1.stash blk then
              fun i => if i < B then
                (ResourcePool.at_ (accessReadPhase H B Z st blk srv).1.stash blk).getD i 0
              else buf i
            else buf) := rfl
      rw [hbuf_eq, if_neg (by rw [hcf]; decide)]
  | Write =>
    have hok_eq : (access H B Z st ORAMOp.Write blk buf srv).ok
        = ((accessReadPhase H B Z st blk srv).2.2.1 &&
           (stashPut H Z (accessReadPhase H B Z st blk srv).1.stash blk
             ((List.range B).map buf)).2) := rfl
    rw [hok_eq, Bool.and_eq_true] at hok
    rcases hok with ⟨hokr, hsp⟩
    rcases accessReadPhase_invp H B Z st srv M blk hZ hsmall hcap hinv hokr
      with ⟨hmid, htrans⟩
    have hnos : ∀ j, j < block_count_N H Z →
        ¬ (j / Z ∈ (List.range (H + 1)).map (getNodeOnPath H (st.position_map blk))) →
        (readBlock B (accessReadPhase H B Z st blk srv).2.1.mem j).id ≠ blk := by
      cases hMb : M blk with
      | none =>
        exact hmid.2.2.2.2.1 blk hMb (invalid_block_ne H Z blk hsmall hblk)
      | some q =>
        rcases hmid.2.2.2.2.2 blk q hMb with ⟨_, _, hex⟩ | ⟨hcf, _⟩
        · exact hex
        · rw [(htrans q hMb).1] at hcf
          exact Bool.noConfusion hcf
    have hserve := invp_serve_put H B Z (accessReadPhase H B Z st blk srv).1.position_map
      (accessReadPhase H B Z st blk srv).1.stash
      (accessReadPhase H B Z st blk srv).2.1.mem M
      (fun j => j / Z ∈ (List.range (H + 1)).map (getNodeOnPath H (st.position_map blk)))
      blk ((List.range B).map buf) hcap hblk (by simp) hnos hmid hsp
    have hserve2 : InvP H B Z (accessReadPhase H B Z st blk srv).1.position_map
        (stashPut H Z (accessReadPhase H B Z st blk srv).1.stash blk
          ((List.range B).map buf)).1
        (accessReadPhase H B Z st blk srv).2.1.mem
        (fun k => if k = blk then some ((List.range B).map buf) else M k)
        (fun j => j / Z ∈ ((List.range (H + 1)).reverse).map
          (getNodeOnPath H (st.position_map blk))) := by
      refine InvP_congr _ _ _ _ _ _ _ _ _ ?_ hserve
      intro j _
      simp
    have hst_eq : (access H B Z st ORAMOp.Write blk buf srv).state
        = (((List.range (H + 1)).reverse).foldl
            (writePathStep H B Z (st.position_map blk))
            ({ (accessReadPhase H B Z st blk srv).1 with
                stash := (stashPut H Z (accessReadPhase H B Z st blk srv).1.stash blk
                  ((List.range B).map buf)).1 },
             (accessReadPhase H B Z st blk srv).2.1, true)).1 := rfl
    have hsrv_eq : (access H B Z st ORAMOp.Write blk buf srv).srv
        = (((List.range (H + 1)).reverse).foldl
            (writePathStep H B Z (st.position_map blk))
            ({ (accessReadPhase H B Z st blk srv).1 with
                stash := (stashPut H Z (accessReadPhase H B Z st blk srv).1.stash blk
                  ((List.range B).map buf)).1 },
             (accessReadPhase H B Z st blk srv).2.1, true)).2.1 := rfl
    have hwp := writePath_fold_invp H B Z
      (fun k => if k = blk then some ((List.range B).map buf) else M k)
      (st.position_map blk) hZ hsmall hcap (hinv.2.1 blk) ((List.range (H + 1)).reverse)
      ({ (accessReadPhase H B Z st blk srv).1 with
          stash := (stashPut H Z (accessReadPhase H B Z st blk srv).1.stash blk
            ((List.range B).map buf)).1 },
       (accessReadPhase H B Z st blk srv).2.1, true)
      (fun l hl => by rw [List.mem_reverse, List.mem_range] at hl; omega)
      (by simpa using List.nodup_range (H + 1))
      hserve2
    refine ⟨?_, ?_, ?_⟩
    · rw [hst_eq, hsrv_eq]
      exact hwp
    · intro q _ hco
      exact ORAMOp.noConfusion hco
    · intro _ hco
      exact ORAMOp.noConfusion hco

theorem initPositionMap_fold_lt (H : Nat) :
    ∀ (l : List Nat) (acc : (Nat → Nat) × Nat), (∀ k, acc.1 k < 2 ^ H) →
      ∀ k, (l.foldl
        (fun acc i => (updf acc.1 i (randomPath H acc.2).2, (randomPath H acc.2).1)) acc).1 k
        < 2 ^ H := by
  intro l
  induction l with
  | nil => intro acc h k; exact h k
  | cons x xs ih =>
    intro acc h k
    simp only [List.foldl_cons]
    apply ih
    intro k2
    dsimp only
    by_cases hk : k2 = x
    · subst hk
      rw [updf_same]
      show xorshift64_generate acc.2 % 2 ^ H < 2 ^ H
      exact Nat.mod_lt _ (Nat.two_pow_pos H)
    · rw [updf_other _ _ _ _ hk]
      exact h k2

theorem initServer_fold_frame (B : Nat) :
    ∀ (l : List Nat) (m : Nat → Nat) (a : Nat),
      (∀ b ∈ l, ∀ i2, i2 < 8 → b * (8 + B) + i2 ≠ a) →
      (l.foldl
        (fun mm block => (List.range 8).foldl
          (fun m2 i2 => updf m2 (block * (8 + B) + i2) ((invalid_block >>> (i2 * 8)) % 256))
          mm) m) a = m a := by
  intro l
  induction l with
  | nil => intro m a _; rfl
  | cons x xs ih =>
    intro m a h
    simp only [List.foldl_cons]
    rw [ih _ a (fun b hb => h b (List.mem_cons_of_mem _ hb))]
    apply foldl_updf_outside
    intro i2 hi2
    rw [List.mem_range] at hi2
    exact h x (List.mem_cons_self _ _) i2 hi2

theorem initServer_fold_at (B j i : Nat) (hi : i < 8) :
    ∀ (l : List Nat) (m : Nat → Nat), j ∈ l → l.Nodup →
      (l.foldl
        (fun mm block => (List.range 8).foldl
          (fun m2 i2 => updf m2 (block * (8 + B) + i2) ((invalid_block >>> (i2 * 8)) % 256))
          mm) m) (j * (8 + B) + i)
      = (invalid_block >>> (i * 8)) % 256 := by
  intro l
  induction l with
  | nil => intro m h; cases h
  | cons x xs ih =>
    intro m hmem hnd
    simp only [List.foldl_cons]
    rcases List.mem_cons.1 hmem with he | hm
    · subst he
      rw [initServer_fold_frame B xs _ (j * (8 + B) + i) ?_]
      · exact foldl_updf_at (fun i2 => j * (8 + B) + i2)
          (fun i2 => (invalid_block >>> (i2 * 8)) % 256) (List.range 8) m i
          (List.mem_range.2 hi) (by intro a _ b _ hab; dsimp only at hab; omega)
          (List.nodup_range _)
      · intro b hb i2 hi2 he2
        have hbj : b ≠ j := fun hbe => (List.nodup_cons.1 hnd).1 (hbe ▸ hb)
        rcases Nat.lt_or_ge b j with hlt | hge
        · have : b * (8 + B) + i2 < j * (8 + B) := by
            calc b * (8 + B) + i2 < b * (8 + B) + (8 + B) := by omega
              _ = (b + 1) * (8 + B) := by ring
              _ ≤ j * (8 + B) := Nat.mul_le_mul_right _ (by omega)
          omega
        · have hjb : j < b := by omega
          have : j * (8 + B) + i < b * (8 + B) := by
            calc j * (8 + B) + i < j * (8 + B) + (8 + B) := by omega
              _ = (j + 1) * (8 + B) := by ring
              _ ≤ b * (8 + B) := Nat.mul_le_mul_right _ (by omega)
          omega
    · exact ih _ hm (List.nodup_cons.1 hnd).2

/-- Every slot id in the initialized server memory decodes to the sentinel. -/
theorem initServerMemBytes_id (H B Z : Nat) (m : Nat → Nat) (j : Nat)
    (hj : j < block_count_N H Z) :
    (readBlock B (initServerMemBytes H B Z m) j).id = invalid_block := by
  show decodeId (initServerMemBytes H B Z m) (j * (8 + B)) = invalid_block
  rw [decodeId]
  have hcg : (List.range 8).foldl
      (fun acc i => acc ||| (initServerMemBytes H B Z m (j * (8 + B) + i) <<< (i * 8))) 0
      = (List.range 8).foldl
        (fun acc i => acc ||| (((invalid_block >>> (i * 8)) % 256) <<< (i * 8))) 0 := by
    apply List.foldl_ext
    intro acc i hi
    rw [List.mem_range] at hi
    have hbyte : initServerMemBytes H B Z m (j * (8 + B) + i)
        = (invalid_block >>> (i * 8)) % 256 := by
      show ((List.range (block_count_N H Z)).foldl
        (fun mm block => (List.range 8).foldl
          (fun m2 i2 => updf m2 (block * (8 + B) + i2) ((invalid_block >>> (i2 * 8)) % 256))
          mm) m) (j * (8 + B) + i) = (invalid_block >>> (i * 8)) % 256
      exact initServer_fold_at B j i hi (List.range (block_count_N H Z)) m
        (List.mem_range.2 hj) (List.nodup_range _)
    rw [hbyte]
  rw [hcg, decode_bytes_eq invalid_block 8]
  have h1 : (1 : Nat) ≤ 2 ^ 64 := Nat.one_le_two_pow
  rw [invalid_block]
  exact Nat.mod_eq_of_lt (by norm_num)

/-- The freshly initialized engine satisfies the invariant with the empty
content map. -/
theorem oramInit_inv (H B Z seed : Nat) (m : Nat → Nat) :
    Inv H B Z (oramInit H B Z seed m).1 (oramInit H B Z seed m).2 (fun _ => none) := by
  refine ⟨⟨Nat.zero_le _, fun i hi => absurd hi (Nat.not_lt_zero i)⟩, ?_, ?_, ?_, ?_, ?_⟩
  · intro k
    show (initPositionMap H Z zeroState.position_map seed).1 k < 2 ^ H
    have := initPositionMap_fold_lt H (List.range (block_count_N H Z))
      (zeroState.position_map, seed) (fun k2 => Nat.two_pow_pos H) k
    exact this
  · intro k q hk
    cases hk
  · intro k hk
    exfalso
    simp [ResourcePool.contains, SparseSet.contains, oramInit, zeroState, zeroStash] at hk
  · intro k _ hki j hj _
    show (readBlock B (initServerMemBytes H B Z m) j).id ≠ k
    rw [initServerMemBytes_id H B Z m j hj]
    exact Ne.symm hki
  · intro k q hk
    cases hk

def opBlk : TraceOp → Nat
  | TraceOp.writeOp k _ => k
  | TraceOp.readOp k => k

/-- Expected ghost content after one trace operation. -/
def traceMStep (B : Nat) (M : Nat → Option (List Nat)) (op : TraceOp) :
    Nat → Option (List Nat) :=
  match op with
  | TraceOp.writeOp k p =>
    fun k2 => if k2 = k then some ((List.range B).map (fun i => p.getD i 0)) else M k2
  | TraceOp.readOp _ => M

/-- Expected ghost content after a trace. -/
def traceM (B : Nat) (ops : List TraceOp) : Nat → Option (List Nat) :=
  ops.foldl (traceMStep B) (fun _ => none)

theorem runOp_fold_ok_false (H B Z : Nat) :
    ∀ (ops : List TraceOp) (acc : TraceResult), acc.ok = false →
      (ops.foldl (runOp H B Z) acc).ok = false := by
  intro ops
  induction ops with
  | nil => intro acc h; exact h
  | cons op rest ih =>
    intro acc h
    simp only [List.foldl_cons]
    apply ih
    cases op with
    | writeOp k2 p =>
      show (acc.ok && _) = false
      rw [h]
      simp
    | readOp k2 =>
      show (acc.ok && _) = false
      rw [h]
      simp

/-- Running trace operations from any invariant-satisfying state, with every
operation on a valid id and no stash rejection, preserves the invariant with
the expected content map. -/
theorem runTrace_fold_inv (H B Z : Nat)
    (hZ : 0 < Z) (hsmall : block_count_N H Z < 2 ^ 64)
    (hcap : stashSize H Z < 2 ^ blkWidth H Z) :
    ∀ (ops : List TraceOp) (acc : TraceResult) (M : Nat → Option (List Nat)),
      (∀ op ∈ ops, opBlk op < block_count_N H Z) →
      Inv H B Z acc.state acc.srv M →
      (ops.foldl (runOp H B Z) acc).ok = true →
      Inv H B Z (ops.foldl (runOp H B Z) acc).state (ops.foldl (runOp H B Z) acc).srv
        (ops.foldl (traceMStep B) M) := by
  intro ops
  induction ops with
  | nil => intro acc M _ hinv _; exact hinv
  | cons op rest ih =>
    intro acc M hops hinv hok
    simp only [List.foldl_cons] at hok ⊢
    have hstep : (runOp H B Z acc op).ok = true := by
      by_contra hne
      have hf : (runOp H B Z acc op).ok = false := by
        cases hq : (runOp H B Z acc op).ok
        · rfl
        · exact absurd hq hne
      rw [runOp_fold_ok_false H B Z rest _ hf] at hok
      cases hok
    have hrest : ∀ op2 ∈ rest, opBlk op2 < block_count_N H Z :=
      fun op2 h2 => hops op2 (List.mem_cons_of_mem _ h2)
    cases op with
    | writeOp k2 p =>
      have hko : (runOp H B Z acc (TraceOp.writeOp k2 p)).ok
          = (acc.ok &&
             (oramWrite H B Z acc.state k2 (fun i => p.getD i 0) acc.srv).ok) := rfl
      rw [hko, Bool.and_eq_true] at hstep
      have hacc := access_invp H B Z acc.state acc.srv M ORAMOp.Write k2
        (fun i => p.getD i 0) hZ hsmall hcap
        (hops _ (List.mem_cons_self _ _)) hinv hstep.2
      exact ih (runOp H B Z acc (TraceOp.writeOp k2 p)) (traceMStep B M (TraceOp.writeOp k2 p))
        hrest hacc.1 hok
    | readOp k2 =>
      have hko : (runOp H B Z acc (TraceOp.readOp k2)).ok
          = (acc.ok && (oramRead H B Z acc.state k2 (fun _ => 0) acc.srv).ok) := rfl
      rw [hko, Bool.and_eq_true] at hstep
      have hacc := access_invp H B Z acc.state acc.srv M ORAMOp.Read k2
        (fun _ => (0 : Nat)) hZ hsmall hcap
        (hops _ (List.mem_cons_self _ _)) hinv hstep.2
      exact ih (runOp H B Z acc (TraceOp.readOp k2)) (traceMStep B M (TraceOp.readOp k2))
        hrest hacc.1 hok

/-- A completed trace with valid ids and no stash rejection leaves the engine
in an invariant state whose content map is the expected one. -/
theorem runTrace_inv (H B Z seed : Nat) (ops : List TraceOp)
    (hZ : 0 < Z) (hsmall : block_count_N H Z < 2 ^ 64)
    (hcap : stashSize H Z < 2 ^ blkWidth H Z)
    (hops : ∀ op ∈ ops, opBlk op < block_count_N H Z)
    (hok : (runTrace H B Z seed ops).ok = true) :
    Inv H B Z (runTrace H B Z seed ops).state (runTrace H B Z seed ops).srv
      (traceM B ops) := by
  have heq : runTrace H B Z seed ops
      = ops.foldl (runOp H B Z)
          ⟨(oramInit H B Z seed (fun _ => 0)).1, (oramInit H B Z seed (fun _ => 0)).2,
           [], true⟩ := rfl
  rw [heq] at hok ⊢
  exact runTrace_fold_inv H B Z hZ hsmall hcap ops
    ⟨(oramInit H B Z seed (fun _ => 0)).1, (oramInit H B Z seed (fun _ => 0)).2, [], true⟩
    (fun _ => none) hops (oramInit_inv H B Z seed (fun _ => 0)) hok

theorem traceMStep_fold_other (B k : Nat) :
    ∀ (l : List TraceOp) (M : Nat → Option (List Nat)), (∀ op ∈ l, opBlk op ≠ k) →
      (l.foldl (traceMStep B) M) k = M k := by
  intro l
  induction l with
  | nil => intro M _; rfl
  | cons op rest ih =>
    intro M h
    simp only [List.foldl_cons]
    rw [ih _ (fun op2 h2 => h op2 (List.mem_cons_of_mem _ h2))]
    cases op with
    | writeOp k2 p =>
      show (if k = k2 then some ((List.range B).map (fun i => p.getD i 0)) else M k) = M k
      have hne : k2 ≠ k := h _ (List.mem_cons_self _ _)
      rw [if_neg (Ne.symm hne)]
    | readOp k2 => rfl

theorem runOp_read_out (H B Z : Nat) (acc1 : TraceResult) (M1 : Nat → Option (List Nat))
    (k : Nat) (p : List Nat)
    (hZ : 0 < Z) (hsmall : block_count_N H Z < 2 ^ 64)
    (hcap : stashSize H Z < 2 ^ blkWidth H Z)
    (hk : k < block_count_N H Z) (hplen : p.length = B)
    (hinv1 : Inv H B Z acc1.state acc1.srv M1)
    (hM1 : M1 k = some ((List.range B).map (fun i => p.getD i 0)))
    (hok2 : (oramRead H B Z acc1.state k (fun _ => 0) acc1.srv).ok = true) :
    (runOp H B Z acc1 (TraceOp.readOp k)).outs = acc1.outs ++ [p] := by
  have hacc := access_invp H B Z acc1.state acc1.srv M1 ORAMOp.Read k (fun _ => (0 : Nat))
    hZ hsmall hcap hk hinv1 hok2
  have hbuf := hacc.2.1 _ hM1 rfl
  have houts : (runOp H B Z acc1 (TraceOp.readOp k)).outs
      = acc1.outs ++ [(List.range B).map
          (access H B Z acc1.state ORAMOp.Read k (fun _ => 0) acc1.srv).buf] := rfl
  rw [houts, hbuf, map_getD_self B p hplen]

/-- C2 (amended): over every access trace on valid block ids during which no
stash emplace is rejected (every access's inserted/ok flag true — in
particular the stash capacity constant must not be truncated to zero), after
the trace completes every previously-written block id has exactly one live
copy: either it sits in the stash with its last-written payload and no server
slot stores its id, or it is absent from the stash and exactly one server
slot stores it with that payload, the slot's bucket lying on the id's current
position-map path at the bucket's level. -/
theorem c2_exactly_one_copy (H B Z seed : Nat) (ops : List TraceOp)
    (hZ : 0 < Z) (hsmall : block_count_N H Z < 2 ^ 64)
    (hcap : stashSize H Z < 2 ^ blkWidth H Z)
    (hops : ∀ op ∈ ops, opBlk op < block_count_N H Z)
    (hok : (runTrace H B Z seed ops).ok = true) :
    ∀ k q, traceM B ops k = some q →
      (ResourcePool.contains (blkWidth H Z) (runTrace H B Z seed ops).state.stash k = true ∧
        (runTrace H B Z seed ops).state.stash.at_ k = q ∧
        ∀ j, j < block_count_N H Z →
          (readBlock B (runTrace H B Z seed ops).srv.mem j).id ≠ k) ∨
      (ResourcePool.contains (blkWidth H Z) (runTrace H B Z seed ops).state.stash k = false ∧
        ∃ j, j < block_count_N H Z ∧
          readBlock B (runTrace H B Z seed ops).srv.mem j = ⟨k, q⟩ ∧
          getNodeOnPath H ((runTrace H B Z seed ops).state.position_map k)
            (levelOf (j / Z)) = j / Z ∧
          ∀ j2, j2 < block_count_N H Z → j2 ≠ j →
            (readBlock B (runTrace H B Z seed ops).srv.mem j2).id ≠ k) := by
  intro k q hk
  have hinv := runTrace_inv H B Z seed ops hZ hsmall hcap hops hok
  rcases hinv.2.2.2.2.2 k q hk with ⟨hc, ha, hex⟩ | ⟨hcf, j, hjN, _, hjeq, hjpl, hju⟩
  · exact Or.inl ⟨hc, ha, fun j hj => hex j hj not_false⟩
  · exact Or.inr ⟨hcf, j, hjN, hjeq, hjpl, fun j2 hj2 hne => hju j2 hj2 not_false hne⟩

/-- C1 (amended): round-trip under no stash rejection.  For every block id k
written with payload p (of block size), any later read of k returns p into
the caller's buffer, regardless of how many accesses to other ids occur in
between, provided every trace id is a valid block id and no stash emplace
during the whole trace is rejected (trace ok flag true — which the truncated
capacity constant at HeightL = 1 makes impossible). -/
theorem c1_roundtrip (H B Z seed : Nat) (pre mid : List TraceOp) (k : Nat) (p : List Nat)
    (hZ : 0 < Z) (hsmall : block_count_N H Z < 2 ^ 64)
    (hcap : stashSize H Z < 2 ^ blkWidth H Z)
    (hops : ∀ op ∈ pre ++ TraceOp.writeOp k p :: (mid ++ [TraceOp.readOp k]),
      opBlk op < block_count_N H Z)
    (hmid : ∀ op ∈ mid, opBlk op ≠ k)
    (hplen : p.length = B)
    (hok : (runTrace H B Z seed
      (pre ++ TraceOp.writeOp k p :: (mid ++ [TraceOp.readOp k]))).ok = true) :
    ∃ prev, (runTrace H B Z seed
      (pre ++ TraceOp.writeOp k p :: (mid ++ [TraceOp.readOp k]))).outs = prev ++ [p] := by
  have hsplit : pre ++ TraceOp.writeOp k p :: (mid ++ [TraceOp.readOp k])
      = (pre ++ TraceOp.writeOp k p :: mid) ++ [TraceOp.readOp k] := by simp
  have heq : runTrace H B Z seed (pre ++ TraceOp.writeOp k p :: (mid ++ [TraceOp.readOp k]))
      = runOp H B Z ((pre ++ TraceOp.writeOp k p :: mid).foldl (runOp H B Z)
      ⟨(oramInit H B Z seed (fun _ => 0)).1, (oramInit H B Z seed (fun _ => 0)).2,
       [], true⟩) (TraceOp.readOp k) := by
    show (pre ++ TraceOp.writeOp k p :: (mid ++ [TraceOp.readOp k])).foldl (runOp H B Z)
      ⟨(oramInit H B Z seed (fun _ => 0)).1, (oramInit H B Z seed (fun _ => 0)).2,
       [], true⟩ = _
    rw [hsplit, List.foldl_append]
    simp only [List.foldl_cons, List.foldl_nil]
  rw [heq] at hok ⊢
  have hko : (runOp H B Z ((pre ++ TraceOp.writeOp k p :: mid).foldl (runOp H B Z)
      ⟨(oramInit H B Z seed (fun _ => 0)).1, (oramInit H B Z seed (fun _ => 0)).2,
       [], true⟩) (TraceOp.readOp k)).ok
      = (((pre ++ TraceOp.writeOp k p :: mid).foldl (runOp H B Z)
      ⟨(oramInit H B Z seed (fun _ => 0)).1, (oramInit H B Z seed (fun _ => 0)).2,
       [], true⟩).ok &&
         (oramRead H B Z ((pre ++ TraceOp.writeOp k p :: mid).foldl (runOp H B Z)
      ⟨(oramInit H B Z seed (fun _ => 0)).1, (oramInit H B Z seed (fun _ => 0)).2,
       [], true⟩).state k (fun _ => 0) ((pre ++ TraceOp.writeOp k p :: mid).foldl (runOp H B Z)
      ⟨(oramInit H B Z seed (fun _ => 0)).1, (oramInit H B Z seed (fun _ => 0)).2,
       [], true⟩).srv).ok) := rfl
  rw [hko, Bool.and_eq_true] at hok
  have hkN : k < block_count_N H Z := hops (TraceOp.readOp k) (by simp)
  have hops1 : ∀ op ∈ pre ++ TraceOp.writeOp k p :: mid, opBlk op < block_count_N H Z := by
    intro op hop
    apply hops op
    rw [hsplit]
    exact List.mem_append.2 (Or.inl hop)
  have hinv1 := runTrace_fold_inv H B Z hZ hsmall hcap (pre ++ TraceOp.writeOp k p :: mid)
    ⟨(oramInit H B Z seed (fun _ => 0)).1, (oramInit H B Z seed (fun _ => 0)).2, [], true⟩
    (fun _ => none) hops1 (oramInit_inv H B Z seed (fun _ => 0)) hok.1
  have hM1 : ((pre ++ TraceOp.writeOp k p :: mid).foldl (traceMStep B) (fun _ => none)) k
      = some ((List.range B).map (fun i => p.getD i 0)) := by
    have hsplit2 : pre ++ TraceOp.writeOp k p :: mid
        = (pre ++ [TraceOp.writeOp k p]) ++ mid := by simp
    rw [hsplit2, List.foldl_append, traceMStep_fold_other B k mid _ hmid,
      List.foldl_append]
    simp only [List.foldl_cons, List.foldl_nil]
    show (if k = k then some ((List.range B).map (fun i => p.getD i 0)) else _) = _
    rw [if_pos rfl]
  have hout := runOp_read_out H B Z ((pre ++ TraceOp.writeOp k p :: mid).foldl (runOp H B Z)
      ⟨(oramInit H B Z seed (fun _ => 0)).1, (oramInit H B Z seed (fun _ => 0)).2,
       [], true⟩) _ k p hZ hsmall hcap hkN hplen hinv1 hM1 hok.2
  exact ⟨((pre ++ TraceOp.writeOp k p :: mid).foldl (runOp H B Z)
      ⟨(oramInit H B Z seed (fun _ => 0)).1, (oramInit H B Z seed (fun _ => 0)).2,
       [], true⟩).outs, hout⟩

/-- C1 witness: a concrete FPGAPathORAM2<2, 1> trace — write block 3 with
payload [7], an unrelated write to block 5 in between, then read block 3 —
runs with no stash rejection and its last output is [7]. -/
theorem c1_roundtrip_witness :
    (runTrace 2 1 4 7
      ([] ++ TraceOp.writeOp 3 [7] :: ([TraceOp.writeOp 5 [9]] ++ [TraceOp.readOp 3]))).ok
      = true ∧
    ∃ prev, (runTrace 2 1 4 7
      ([] ++ TraceOp.writeOp 3 [7] :: ([TraceOp.writeOp 5 [9]] ++ [TraceOp.readOp 3]))).outs
      = prev ++ [[7]] :=
  ⟨by decide,
   c1_roundtrip 2 1 4 7 [] [TraceOp.writeOp 5 [9]] 3 [7] (by decide) (by decide) (by decide)
     (by decide) (by decide) (by decide) (by decide)⟩

/-- C2 witness: after the concrete FPGAPathORAM2<2, 1> trace that writes
payload [5] to block 2 with no stash rejection, block 2 has exactly one live
copy (in the stash or in a single path slot). -/
theorem c2_exactly_one_copy_witness :
    (runTrace 2 1 4 7 [TraceOp.writeOp 2 [5]]).ok = true ∧
    ((ResourcePool.contains (blkWidth 2 4)
        (runTrace 2 1 4 7 [TraceOp.writeOp 2 [5]]).state.stash 2 = true ∧
      (runTrace 2 1 4 7 [TraceOp.writeOp 2 [5]]).state.stash.at_ 2 = [5] ∧
      ∀ j, j < block_count_N 2 4 →
        (readBlock 1 (runTrace 2 1 4 7 [TraceOp.writeOp 2 [5]]).srv.mem j).id ≠ 2) ∨
     (ResourcePool.contains (blkWidth 2 4)
        (runTrace 2 1 4 7 [TraceOp.writeOp 2 [5]]).state.stash 2 = false ∧
      ∃ j, j < block_count_N 2 4 ∧
        readBlock 1 (runTrace 2 1 4 7 [TraceOp.writeOp 2 [5]]).srv.mem j = ⟨2, [5]⟩ ∧
        getNodeOnPath 2 ((runTrace 2 1 4 7 [TraceOp.writeOp 2 [5]]).state.position_map 2)
          (levelOf (j / 4)) = j / 4 ∧
        ∀ j2, j2 < block_count_N 2 4 → j2 ≠ j →
          (readBlock 1 (runTrace 2 1 4 7 [TraceOp.writeOp 2 [5]]).srv.mem j2).id ≠ 2)) :=
  ⟨by decide,
   c2_exactly_one_copy 2 1 4 7 [TraceOp.writeOp 2 [5]] (by decide) (by decide) (by decide)
     (by decide) (by decide) 2 [5] (by decide)⟩

end HlsLib
